import Mathlib

/-!
# Digital I/O port layer of the Teensy 4.1 grblHAL driver (`ioports.c`)

A shallow embedding of `ioports.c`: the pin tables `aux_in` / `aux_out`, the
logical-to-physical maps `digital.in.map` / `digital.out.map`, the counters
`hal.port.num_digital_in` / `hal.port.num_digital_out`, the volatile
`event_bits`, and the three settings masks are the fields of one explicit
`State`; every C function becomes a pure function on that state.

Conventions of the embedding
* C arrays are lists.  A read outside the list yields the default element and a
  write outside the list is dropped; the theorems below only rely on accesses
  that the guards of the C code keep in range.
* `digital.in.n_ports` / `digital.out.n_ports` are the lengths of the pin tables
  (`ioports_init` hands `aux_inputs->n_pins` / `aux_outputs->n_pins` to
  `ioports_add`).
* `uint8_t` arithmetic that can wrap is written with an explicit `% 256`, the
  `uint_fast8_t` loop counters of the settings handlers (32 bits wide on this
  target) with an explicit `% 2 ^ 32`.
* Bit masks (`settings.ioport.invert_in.mask`, `event_bits`, ...) are natural
  numbers read as bit sets; bit `p` is `1 <<< p`, `x |= y` is `x ||| y` and
  `x &= ~y` is `and_not x y` (the bits of `x` that are not in `y`).
* Hardware state reached through a pin descriptor travels with the descriptor:
  the interrupt configuration written by `pinEnableIRQ` is the field
  `irq_enabled` of the input descriptor, the output latch written by
  `DIGITAL_OUT` is the field `level` of the output descriptor.
-/

namespace IoPorts

/-! ## Data model -/

/-- Port type selector `io_port_type_t`. -/
inductive io_port_type_t where
  | Port_Analog
  | Port_Digital
  deriving DecidableEq, Repr

/-- Port direction `io_port_direction_t`. -/
inductive io_port_direction_t where
  | Port_Input
  | Port_Output
  deriving DecidableEq, Repr

/-- Wait modes `wait_mode_t` accepted by `wait_on_input`. -/
inductive wait_mode_t where
  | WaitMode_Immediate
  | WaitMode_Rise
  | WaitMode_Fall
  | WaitMode_High
  | WaitMode_Low
  deriving DecidableEq, Repr

open io_port_type_t io_port_direction_t wait_mode_t

/-- Modelled from the spec: the enum `pin_irq_mode_t` is declared in a header
outside the sources at hand.  The spec treats interrupt modes as sets (a mode is
armed when it is a non-empty subset of the capability), so a mode is a bit set
and `IRQ_Mode_None` is the empty one. -/
abbrev pin_irq_mode_t := Nat

/-- Modelled from the spec: the empty interrupt mode. -/
def IRQ_Mode_None : pin_irq_mode_t := 0

/-- Modelled from the spec: the rising-edge interrupt mode, a single bit. -/
def IRQ_Mode_Rising : pin_irq_mode_t := 1

/-- Modelled from the spec: the falling-edge interrupt mode, a single bit
different from the rising-edge one. -/
def IRQ_Mode_Falling : pin_irq_mode_t := 2

/-- The fields of `pin_mode_t` that `ioports.c` reads or writes; the remaining
bits of the bit-field are kept together in `other`. -/
structure pin_mode_t where
  claimed : Bool
  inverted : Bool
  analog : Bool
  irq_mode : pin_irq_mode_t
  other : Nat
  deriving DecidableEq, Repr, Inhabited

/-- The fields of `pin_cap_t` that `ioports.c` reads or writes. -/
structure pin_cap_t where
  irq_mode : pin_irq_mode_t
  invert : Bool
  claimable : Bool
  other : Nat
  deriving DecidableEq, Repr, Inhabited

/-- One entry of the input pin table (`input_signal_t`).  `gpio_bit` is
`gpio.bit`, `aux_ctrl` holds `aux_ctrl->cap.mask` when the pin is bound to a
control function, `interrupt_callback` identifies the registered callback.
`irq_enabled` is the interrupt configuration of the pin as last written by
`pinEnableIRQ`. -/
structure input_signal_t where
  id : Nat
  group : Nat
  port : Nat
  gpio_bit : Nat
  pin : Nat
  cap : pin_cap_t
  mode : pin_mode_t
  interrupt_callback : Option Nat
  aux_ctrl : Option Nat
  description : String
  irq_enabled : pin_irq_mode_t
  deriving DecidableEq, Repr, Inhabited

/-- One entry of the output pin table (`output_signal_t`).  `level` is the
output latch of the pin: what `DIGITAL_OUT` wrote last and `DIGITAL_IN` reads
back. -/
structure output_signal_t where
  id : Nat
  group : Nat
  port : Nat
  pin : Nat
  mode : pin_mode_t
  description : String
  level : Bool
  deriving DecidableEq, Repr, Inhabited

/-- The file-scope variables of `ioports.c` together with the parts of `hal`,
`settings` and `sys` the file touches. -/
structure State where
  /-- Table `aux_in`; its length is `digital.in.n_ports`. -/
  aux_in : List input_signal_t
  /-- Table `aux_out`; its length is `digital.out.n_ports`. -/
  aux_out : List output_signal_t
  /-- Pointer `digital.in.map` (`none` when it is `NULL`). -/
  in_map : Option (List Nat)
  /-- Pointer `digital.out.map` (`none` when it is `NULL`). -/
  out_map : Option (List Nat)
  /-- Counter `hal.port.num_digital_in` (`uint8_t`). -/
  num_digital_in : Nat
  /-- Counter `hal.port.num_digital_out` (`uint8_t`). -/
  num_digital_out : Nat
  /-- Default label of a logical index, `iports_get_pnum(digital, i)`. -/
  pnum : Nat → String
  /-- Cached mask `invert_digital_out.mask`. -/
  invert_digital_out : Nat
  /-- Pending edge events `event_bits` (`volatile uint32_t`). -/
  event_bits : Nat
  /-- Flag `spin_lock`, set while `ioports_event` runs. -/
  spin_lock : Bool
  /-- Mask `settings.ioport.invert_in.mask`. -/
  invert_in : Nat
  /-- Mask `settings.ioport.invert_out.mask`. -/
  invert_out : Nat
  /-- Mask `settings.control_invert.mask`. -/
  control_invert : Nat
  /-- Number of calls of `settings_write_global` so far. -/
  settings_writes : Nat
  /-- Compile-time switch `MCP3221_ENABLE`. -/
  mcp3221_enable : Bool
  /-- Field `analog_in.mode` of the MCP3221 descriptor. -/
  analog_in_mode : pin_mode_t
  /-- Field `analog_in.description`. -/
  analog_in_description : String
  /-- Counter `hal.port.num_analog_in`. -/
  num_analog_in : Nat
  /-- Variable `analog_n_in`. -/
  analog_n_in : Nat

/-- Port count `digital.in.n_ports`. -/
def State.n_in (st : State) : Nat := st.aux_in.length

/-- Port count `digital.out.n_ports`. -/
def State.n_out (st : State) : Nat := st.aux_out.length

/-- Modelled from the spec: the macro `ioports_map` is defined outside the
sources at hand.  It is the lookup `map(direction, logical) -> physical` of the
spec; without a map the logical number is the physical one. -/
def ioports_map (map : Option (List Nat)) (port : Nat) : Nat :=
  match map with
  | some m => m.getD port 0
  | none => port

/-- Modelled from the spec: `ioports_map_reverse` is defined outside the sources
at hand.  It is `mapReverse(direction, physical) -> logical` of the spec, the
position of the map whose entry equals the given physical slot. -/
def ioports_map_reverse (map : Option (List Nat)) (port : Nat) : Nat :=
  match map with
  | some m => m.indexOf port
  | none => port

/-- The C expression `x & ~y` on bit sets: the bits of `x` that are not in `y`,
computed by removing from `x` the bits it shares with `y`. -/
def and_not (x y : Nat) : Nat :=
  x ^^^ (x &&& y)

/-- Apply `f` to entry `i` of a table (an assignment to a field of `tbl[i]`). -/
def modifyAt {α : Type} (f : α → α) (i : Nat) (tbl : List α) : List α :=
  match tbl[i]? with
  | some x => tbl.set i (f x)
  | none => tbl

/-! ## `swap_pins` -/

/-- The three `memcpy`s and two description assignments of `swap_pins` on the
input table. -/
def swap_in (aux : List input_signal_t) (port_a port_b : Nat) : List input_signal_t :=
  let tmp := aux.getD port_a default
  let aux1 := aux.set port_a (aux.getD port_b default)
  let aux2 := modifyAt (fun s => { s with description := tmp.description }) port_a aux1
  let tmp1 := { tmp with description := (aux2.getD port_b default).description }
  aux2.set port_b tmp1

/-- The three `memcpy`s and two description assignments of `swap_pins` on the
output table. -/
def swap_out (aux : List output_signal_t) (port_a port_b : Nat) : List output_signal_t :=
  let tmp := aux.getD port_a default
  let aux1 := aux.set port_a (aux.getD port_b default)
  let aux2 := modifyAt (fun s => { s with description := tmp.description }) port_a aux1
  let tmp1 := { tmp with description := (aux2.getD port_b default).description }
  aux2.set port_b tmp1

/-- Function `swap_pins`: the returned flag and the state it leaves.  The second
`if` is not an `else if`, so its assignment to `ok` is executed also after the
input branch. -/
def swap_pins (st : State) (type : io_port_type_t) (dir : io_port_direction_t)
    (port_a port_b : Nat) : Bool × State :=
  let ok := decide (port_a = port_b)
  if !ok && type == Port_Digital then
    let ok1 := dir == Port_Input && decide (port_a < st.n_in) && decide (port_b < st.n_in) &&
      (st.aux_in.getD port_a default).interrupt_callback == none &&
      (st.aux_in.getD port_b default).interrupt_callback == none
    let st1 := if ok1 then { st with aux_in := swap_in st.aux_in port_a port_b } else st
    let ok2 := dir == Port_Output && decide (port_a < st1.n_out) && decide (port_b < st1.n_out)
    let st2 := if ok2 then { st1 with aux_out := swap_out st1.aux_out port_a port_b } else st1
    (ok2, st2)
  else
    (ok, st)

/-! ## `set_pin_description` -/

/-- Function `set_pin_description` (the `AUX_ANALOG` branch is compiled out:
this file has no `analog` ports data). -/
def set_pin_description (st : State) (type : io_port_type_t) (dir : io_port_direction_t)
    (port : Nat) (s : String) : State :=
  if type == Port_Digital then
    let st1 :=
      if dir == Port_Input && decide (port < st.n_in) then
        { st with aux_in :=
            modifyAt (fun x => { x with description := s }) (ioports_map st.in_map port) st.aux_in }
      else st
    if dir == Port_Output && decide (port < st1.n_out) then
      { st1 with aux_out :=
          modifyAt (fun x => { x with description := s }) (ioports_map st1.out_map port) st1.aux_out }
    else st1
  else st

/-! ## `claim` -/

/-- The `for` loop of `claim`, from index `i` while `i < avail`:
`map[i] = map[i + 1]; aux[map[i]].description = iports_get_pnum(digital, i)`.
The loop runs `avail - i` times, which is the fuel `claim` passes. -/
def claim_shift {α : Type} (setDesc : String → α → α) (pnum : Nat → String) (avail : Nat) :
    Nat → Nat → List Nat → List α → List Nat × List α
  | 0, _, map, aux => (map, aux)
  | fuel + 1, i, map, aux =>
    if i < avail then
      let map1 := map.set i (map.getD (i + 1) 0)
      let aux1 := modifyAt (setDesc (pnum i)) (map1.getD i 0) aux
      claim_shift setDesc pnum avail fuel (i + 1) map1 aux1
    else
      (map, aux)

/-- Assignment `aux_in[..].description = s`. -/
def input_signal_t.setDescription (s : String) (x : input_signal_t) : input_signal_t :=
  { x with description := s }

/-- Assignment `aux_out[..].description = s`. -/
def output_signal_t.setDescription (s : String) (x : output_signal_t) : output_signal_t :=
  { x with description := s }

/-- Function `claim`: the returned flag, the state it leaves and the value left
in `*port`.  The decrements of `hal.port.num_digital_in`,
`hal.port.num_digital_out` and `hal.port.num_analog_in` are `uint8_t`
decrements; the last branch is the one compiled under `MCP3221_ENABLE`. -/
def claim (st : State) (type : io_port_type_t) (dir : io_port_direction_t)
    (port : Nat) (description : String) : Bool × State × Nat :=
  match type with
  | Port_Digital =>
    match dir with
    | Port_Input =>
      if st.in_map.isSome && decide (port < st.n_in) &&
          !(st.aux_in.getD port default).mode.claimed then
        let avail := (st.num_digital_in + 255) % 256
        let i0 := ioports_map_reverse st.in_map port
        let r := claim_shift input_signal_t.setDescription st.pnum avail (avail - i0) i0
          (st.in_map.getD []) st.aux_in
        let aux1 := modifyAt (fun x => { x with mode := { x.mode with claimed := true } }) port r.2
        let aux2 := modifyAt (input_signal_t.setDescription description) port aux1
        (true, { st with num_digital_in := avail, aux_in := aux2,
                         in_map := some (r.1.set avail port) }, avail)
      else
        (false, st, port)
    | Port_Output =>
      if st.out_map.isSome && decide (port < st.n_out) &&
          !(st.aux_out.getD port default).mode.claimed then
        let avail := (st.num_digital_out + 255) % 256
        let i0 := ioports_map_reverse st.out_map port
        let r := claim_shift output_signal_t.setDescription st.pnum avail (avail - i0) i0
          (st.out_map.getD []) st.aux_out
        let aux1 := modifyAt (fun x => { x with mode := { x.mode with claimed := true } }) port r.2
        let aux2 := modifyAt (output_signal_t.setDescription description) port aux1
        (true, { st with num_digital_out := avail, aux_out := aux2,
                         out_map := some (r.1.set avail port) }, avail)
      else
        (false, st, port)
  | Port_Analog =>
    if st.mcp3221_enable && dir == Port_Input &&
        (port == 0 && st.analog_in_mode.analog && !st.analog_in_mode.claimed) then
      (true, { st with num_analog_in := (st.num_analog_in + 255) % 256,
                       analog_in_mode := { st.analog_in_mode with claimed := true },
                       analog_in_description := description }, port)
    else
      (false, st, port)

/-! ## Blocking waits: `get_input` and `wait_on_input` -/

/-- What the surroundings contribute while `get_input` runs: the levels returned
by successive reads of `DIGITAL_IN(input->gpio)`, the event bits that
`ioports_event` ORs into `event_bits` before the test of iteration `k`
(`irq 0`: between arming and the first test; `irq k`, `k > 0`: during the
housekeeping call and the suspension that precede test `k`), the value of
`sys.abort` read by the loop condition at the end of iteration `k`, and the
value returned by `MCP3221_read`. -/
structure WaitEnv where
  level : Nat → Bool
  irq : Nat → Nat
  abort : Nat → Bool
  adc : Int

/-- What a wait did: the returned value, the number of evaluations of the loop
test, of calls of `protocol_execute_realtime`, of calls of `hal.delay_ms`, of
reads of `DIGITAL_IN`, and the `event_bits` it leaves. -/
structure WaitOutcome where
  value : Int
  tests : Nat
  realtime_calls : Nat
  delay_calls : Nat
  reads : Nat
  event_bits : Nat
  deriving DecidableEq, Repr

/-- A level as the `int32_t` the C expression `DIGITAL_IN(..) ^ invert` yields. -/
def level_value (b : Bool) : Int := if b then 1 else 0

/-- Modelled from the spec: `pinEnableIRQ` is defined in the driver core, outside
the sources at hand.  It arms the pin's interrupt for the given mode;
`IRQ_Mode_None` disarms it. -/
def pinEnableIRQ (input : input_signal_t) (irq_mode : pin_irq_mode_t) : input_signal_t :=
  { input with irq_enabled := irq_mode }

/-- Rounding of a rational to the nearest integer, a tie going to the even
one: the rounding of single-precision arithmetic. -/
def round_ties_even (x : ℚ) : ℤ :=
  if 2 * (x - ⌊x⌋) < 1 then ⌊x⌋
  else if 1 < 2 * (x - ⌊x⌋) then ⌊x⌋ + 1
  else if ⌊x⌋ % 2 = 0 then ⌊x⌋
  else ⌊x⌋ + 1

/-- The spacing of the single-precision (`float`) numbers around `x`: with
`2 ^ e ≤ |x| < 2 ^ (e + 1)` it is `2 ^ (e - 23)` (24 significant bits), and
`2 ^ (-149)` below the smallest normal number `2 ^ (-126)`. -/
def float_ulp (x : ℚ) : ℚ :=
  (2 : ℚ) ^ (max (Int.log 2 |x|) (-126) - 23)

/-- The result of a single-precision operation whose exact result is `x`: the
`float` nearest to `x`, a tie going to the even significand.  A result of
`2 ^ 128` or more stands for the infinity the operation gives. -/
def round_float (x : ℚ) : ℚ :=
  round_ties_even (x / float_ulp x) * float_ulp x

/-- The initial value of `delay` in `get_input`:
`(uint_fast16_t)ceilf((1000.0f / 50.0f) * timeout) + 1`.  The `float` argument
is the rational it denotes; `1000.0f / 50.0f` is `20.0f` exactly, the product
is rounded to single precision, `ceilf` is exact.  `uint_fast16_t` is 32 bits
wide on this target and the conversion to it saturates (`VCVT`): a negative
value gives `0`, one of `2 ^ 32` or more gives `2 ^ 32 - 1`; the addition of
`1` is unsigned. -/
def get_input_delay (timeout : ℚ) : Nat :=
  (min (Int.toNat ⌈round_float ((1000 / 50 : ℚ) * timeout)⌉) (2 ^ 32 - 1) + 1) % 2 ^ 32

/-- The `do ... while(--delay && !sys.abort)` loop of the edge branch of
`get_input`, started at iteration `k` with `delay` iterations left. -/
def edge_loop (env : WaitEnv) (bit : Nat) (invert : Bool) :
    Nat → Nat → Nat → WaitOutcome
  | delay, k, events =>
    let events1 := events ||| env.irq k
    if events1 &&& bit ≠ 0 then
      { value := level_value (xor (env.level 0) invert), tests := k + 1, realtime_calls := k,
        delay_calls := k, reads := 1, event_bits := events1 }
    else
      match delay with
      | 0 =>
        { value := -1, tests := k + 1, realtime_calls := k, delay_calls := k, reads := 0,
          event_bits := events1 }
      | d + 1 =>
        if d ≠ 0 ∧ env.abort k = false then
          edge_loop env bit invert d (k + 1) events1
        else
          { value := -1, tests := k + 1, realtime_calls := k + 1, delay_calls := k + 1,
            reads := 0, event_bits := events1 }

/-- The `do ... while(--delay && !sys.abort)` loop of the level branch of
`get_input`, started at iteration `k` with `delay` iterations left; every test
reads the pin, a successful test reads it once more for the value. -/
def level_loop (env : WaitEnv) (invert : Bool) (wait_for : Bool) :
    Nat → Nat → Nat → WaitOutcome
  | delay, k, events =>
    let events1 := events ||| env.irq k
    if xor (env.level k) invert = wait_for then
      { value := level_value (xor (env.level (k + 1)) invert), tests := k + 1,
        realtime_calls := k, delay_calls := k, reads := k + 2, event_bits := events1 }
    else
      match delay with
      | 0 =>
        { value := -1, tests := k + 1, realtime_calls := k, delay_calls := k, reads := k + 1,
          event_bits := events1 }
      | d + 1 =>
        if d ≠ 0 ∧ env.abort k = false then
          level_loop env invert wait_for d (k + 1) events1
        else
          { value := -1, tests := k + 1, realtime_calls := k + 1, delay_calls := k + 1,
            reads := k + 1, event_bits := events1 }

/-- The interrupt mode an edge wait arms:
`wait_mode == WaitMode_Rise ? IRQ_Mode_Rising : IRQ_Mode_Falling`. -/
def wait_irq_mode (wait_mode : wait_mode_t) : pin_irq_mode_t :=
  if wait_mode = WaitMode_Rise then IRQ_Mode_Rising else IRQ_Mode_Falling

/-- Function `get_input`: what the wait did and the descriptor it leaves (the
interrupt configuration of the pin is reached through the descriptor). -/
def get_input (input : input_signal_t) (invert : Bool) (wait_mode : wait_mode_t)
    (timeout : ℚ) (env : WaitEnv) (events : Nat) : WaitOutcome × input_signal_t :=
  if wait_mode = WaitMode_Immediate then
    ({ value := level_value (xor (env.level 0) invert), tests := 0, realtime_calls := 0,
       delay_calls := 0, reads := 1, event_bits := events }, input)
  else
    let delay := get_input_delay timeout
    if wait_mode = WaitMode_Rise ∨ wait_mode = WaitMode_Fall then
      let irq_mode := wait_irq_mode wait_mode
      if input.cap.irq_mode &&& irq_mode ≠ 0 then
        let events1 := and_not events input.gpio_bit
        let input1 := pinEnableIRQ input irq_mode
        let r := edge_loop env input.gpio_bit invert delay 0 events1
        (r, pinEnableIRQ input1 IRQ_Mode_None)
      else
        ({ value := -1, tests := 0, realtime_calls := 0, delay_calls := 0, reads := 0,
           event_bits := events }, input)
    else
      let wait_for := decide (wait_mode ≠ WaitMode_Low)
      (level_loop env invert wait_for delay 0 events, input)

/-- Function `wait_on_input`: what the wait did and the state it leaves. -/
def wait_on_input (st : State) (type : io_port_type_t) (port : Nat) (wait_mode : wait_mode_t)
    (timeout : ℚ) (env : WaitEnv) : WaitOutcome × State :=
  let none_yet : WaitOutcome :=
    { value := -1, tests := 0, realtime_calls := 0, delay_calls := 0, reads := 0,
      event_bits := st.event_bits }
  if type = Port_Digital then
    if port < st.n_in then
      let port1 := ioports_map st.in_map port
      let r := get_input (st.aux_in.getD port1 default)
        (decide ((st.invert_in >>> port1) &&& 1 ≠ 0)) wait_mode timeout env st.event_bits
      (r.1, { st with aux_in := st.aux_in.set port1 r.2, event_bits := r.1.event_bits })
    else
      (none_yet, st)
  else if st.mcp3221_enable ∧ port < st.analog_n_in then
    ({ none_yet with value := env.adc }, st)
  else
    (none_yet, st)

/-! ## `register_interrupt_handler` -/

/-- Function `register_interrupt_handler`: the returned flag and the state it
leaves; `none` when the busy-wait `while(spin_lock);` never ends because the
flag is set and nothing running in the foreground clears it. -/
def register_interrupt_handler (st : State) (port : Nat) (irq_mode : pin_irq_mode_t)
    (interrupt_callback : Option Nat) : Option (Bool × State) :=
  let port1 := ioports_map st.in_map port
  if port1 < st.n_in ∧ (st.aux_in.getD port1 default).cap.irq_mode ≠ IRQ_Mode_None then
    let input := st.aux_in.getD port1 default
    let ok := decide ((irq_mode &&& input.cap.irq_mode) = irq_mode) && interrupt_callback.isSome
    let input1 :=
      if ok then
        pinEnableIRQ { input with mode := { input.mode with irq_mode := irq_mode },
                                  interrupt_callback := interrupt_callback } irq_mode
      else input
    if irq_mode = IRQ_Mode_None ∨ ok = false then
      if st.spin_lock then none
      else
        let input2 := pinEnableIRQ input1 IRQ_Mode_None
        let input3 := { input2 with mode := { input2.mode with irq_mode := IRQ_Mode_None },
                                    interrupt_callback := none }
        some (ok, { st with aux_in := st.aux_in.set port1 input3 })
    else
      some (ok, { st with aux_in := st.aux_in.set port1 input1 })
  else
    some (false, st)

/-! ## Settings handlers: `on_settings_loaded` and `on_setting_changed` -/

/-- The setting identifiers `on_setting_changed` distinguishes; every other
`setting_id_t` is `Setting_Other`. -/
inductive setting_id_t where
  | Settings_IoPort_InvertIn
  | Settings_IoPort_InvertOut
  | Setting_ControlInvertMask
  | Setting_Other
  deriving DecidableEq, Repr

open setting_id_t

/-- The indices a loop `do { port--; ... } while(port);` visits when entered
with the given `port`; `port` is a `uint_fast8_t`, 32 bits wide on this target,
so the decrement of `0` wraps. -/
def do_while_from : Nat → Nat → List Nat
  | 0, _ => []
  | fuel + 1, port =>
    let port1 := (port + (2 ^ 32 - 1)) % 2 ^ 32
    port1 :: (if port1 = 0 then [] else do_while_from fuel port1)

/-- The indices visited by `port = n; do { port--; ... } while(port);`: a loop
entered with `n ≥ 1` runs `n` times, one entered with `0` wraps and runs
`2 ^ 32` times. -/
def do_while_ports (n : Nat) : List Nat :=
  do_while_from (if n = 0 then 2 ^ 32 else n) n

/-- Body of the output loop of `on_settings_loaded` (`pinModeOutput` only
configures the pad). -/
def loaded_out_body (mask : Nat) (aux : List output_signal_t) (port : Nat) :
    List output_signal_t :=
  let aux1 := modifyAt
    (fun x => { x with mode := { x.mode with inverted := decide (mask &&& (1 <<< port) ≠ 0) } })
    port aux
  modifyAt (fun x => { x with level := x.mode.inverted }) port aux1

/-- The variables the input loops of the settings handlers work on: the `write`
flag, `settings.ioport.invert_in.mask`, `settings.control_invert.mask` and the
input table. -/
structure InvertSync where
  write : Bool
  invert_in : Nat
  control_invert : Nat
  aux_in : List input_signal_t
  deriving DecidableEq, Repr

/-- Body of the input loop of `on_settings_loaded`. -/
def loaded_in_body (s : InvertSync) (port : Nat) : InvertSync :=
  let s1 : InvertSync :=
    (match (s.aux_in.getD port default).aux_ctrl with
     | some cap_mask =>
       if decide (s.control_invert &&& cap_mask ≠ 0) ≠ decide (s.invert_in &&& (1 <<< port) ≠ 0) then
         { s with write := true,
                  invert_in := if s.control_invert &&& cap_mask ≠ 0 then s.invert_in ||| (1 <<< port)
                               else and_not s.invert_in (1 <<< port) }
       else s
     | none => s)
  let inverted := decide (s1.invert_in &&& (1 <<< port) ≠ 0)
  { s1 with
    aux_in := modifyAt (fun x => { x with mode := { x.mode with inverted := inverted } }) port s1.aux_in }

/-- Function `on_settings_loaded`. -/
def on_settings_loaded (st : State) : State :=
  let aux_out1 :=
    if st.n_out ≠ 0 then (do_while_ports st.n_out).foldl (loaded_out_body st.invert_out) st.aux_out
    else st.aux_out
  let s := (do_while_ports st.n_in).foldl loaded_in_body
    { write := false, invert_in := st.invert_in, control_invert := st.control_invert,
      aux_in := st.aux_in }
  { st with invert_digital_out := st.invert_out, aux_out := aux_out1, aux_in := s.aux_in,
            invert_in := s.invert_in, control_invert := s.control_invert,
            settings_writes := if s.write then st.settings_writes + 1 else st.settings_writes }

/-- Body of the loop of `case Settings_IoPort_InvertIn`. -/
def changed_in_body (s : InvertSync) (port : Nat) : InvertSync :=
  let inverted := decide (s.invert_in &&& (1 <<< port) ≠ 0)
  let aux1 := modifyAt (fun x => { x with mode := { x.mode with inverted := inverted } }) port s.aux_in
  match (aux1.getD port default).aux_ctrl with
  | some cap_mask =>
    { s with write := true, aux_in := aux1,
             control_invert := if (aux1.getD port default).mode.inverted
                               then s.control_invert ||| cap_mask
                               else and_not s.control_invert cap_mask }
  | none => { s with aux_in := aux1 }

/-- Body of the loop of `case Settings_IoPort_InvertOut`. -/
def changed_out_body (mask cached : Nat) (aux : List output_signal_t) (port : Nat) :
    List output_signal_t :=
  let aux1 := modifyAt
    (fun x => { x with mode := { x.mode with inverted := decide (mask &&& (1 <<< port) ≠ 0) } })
    port aux
  if (mask >>> port) &&& 1 ≠ (cached >>> port) &&& 1 then
    modifyAt (fun x => { x with level := !x.level }) port aux1
  else aux1

/-- Body of the loop of `case Setting_ControlInvertMask`. -/
def changed_ctrl_body (s : InvertSync) (port : Nat) : InvertSync :=
  match (s.aux_in.getD port default).aux_ctrl with
  | some cap_mask =>
    let invert_in1 := if s.control_invert &&& cap_mask ≠ 0 then s.invert_in ||| (1 <<< port)
                      else and_not s.invert_in (1 <<< port)
    { s with write := true, invert_in := invert_in1,
             aux_in := modifyAt
               (fun x => { x with mode := { x.mode with inverted := decide (invert_in1 &&& (1 <<< port) ≠ 0) } })
               port s.aux_in }
  | none => s

/-- Function `on_setting_changed`. -/
def on_setting_changed (st : State) (id : setting_id_t) : State :=
  match id with
  | Settings_IoPort_InvertIn =>
    let s := (do_while_ports st.n_in).foldl changed_in_body
      { write := false, invert_in := st.invert_in, control_invert := st.control_invert,
        aux_in := st.aux_in }
    { st with aux_in := s.aux_in, invert_in := s.invert_in, control_invert := s.control_invert,
              settings_writes := if s.write then st.settings_writes + 1 else st.settings_writes }
  | Settings_IoPort_InvertOut =>
    if st.invert_digital_out ≠ st.invert_out then
      { st with aux_out := (do_while_ports st.n_out).foldl
                  (changed_out_body st.invert_out st.invert_digital_out) st.aux_out,
                invert_digital_out := st.invert_out }
    else st
  | Setting_ControlInvertMask =>
    let s := (do_while_ports st.n_in).foldl changed_ctrl_body
      { write := false, invert_in := st.invert_in, control_invert := st.control_invert,
        aux_in := st.aux_in }
    { st with aux_in := s.aux_in, invert_in := s.invert_in, control_invert := s.control_invert,
              settings_writes := if s.write then st.settings_writes + 1 else st.settings_writes }
  | Setting_Other => st

/-! ## `get_pin_info` -/

/-- The accessor `get_pin_info` stores in `xbar_t.get_value`. -/
inductive get_value_t where
  | digital_in_state
  | digital_out_state
  deriving DecidableEq, Repr

/-- The fields of `xbar_t` that `get_pin_info` fills; `port` is the locator
(`0` for `NULL`), `get_value` is `none` for `NULL`. -/
structure xbar_t where
  function : Nat
  group : Nat
  pin : Nat
  bit : Nat
  port : Nat
  description : String
  cap : pin_cap_t
  mode : pin_mode_t
  get_value : Option get_value_t
  deriving DecidableEq, Repr

/-- The static `pin` of `get_pin_info` after `memset(&pin, 0, sizeof(xbar_t))`. -/
def xbar_zero : xbar_t :=
  { function := 0, group := 0, pin := 0, bit := 0, port := 0, description := "",
    cap := { irq_mode := 0, invert := false, claimable := false, other := 0 },
    mode := { claimed := false, inverted := false, analog := false, irq_mode := 0, other := 0 },
    get_value := none }

/-- Modelled from the spec: the macro `XBAR_SET_CAP` is defined in a header
outside the sources at hand.  The spec has the descriptor carry a capability
and a claimable flag that is `!claimed`; the capability of an output is what
its mode shows. -/
def XBAR_SET_CAP (mode : pin_mode_t) : pin_cap_t :=
  { irq_mode := mode.irq_mode, invert := mode.inverted, claimable := !mode.claimed,
    other := mode.other }

/-- What the pointer returned by `get_pin_info` points to: the static scratch
`pin` with the contents it was filled with, or the descriptor `analog_in`. -/
inductive pin_info_t where
  | scratch (pin : xbar_t)
  | analog_in
  deriving DecidableEq, Repr

/-- Function `get_pin_info`; `none` is the `NULL` it returns when nothing
matches.  The input branch overwrites `port` with the mapped slot before the
test of the output branch. -/
def get_pin_info (st : State) (type : io_port_type_t) (dir : io_port_direction_t)
    (port : Nat) : Option pin_info_t :=
  if type = Port_Digital then
    let r1 : Option xbar_t × Nat :=
      if dir = Port_Input ∧ port < st.n_in then
        let port1 := ioports_map st.in_map port
        let input := st.aux_in.getD port1 default
        (some { xbar_zero with
                mode := input.mode,
                cap := { input.cap with invert := true, claimable := !input.mode.claimed },
                function := input.id, group := input.group, pin := input.pin,
                port := input.port, description := input.description,
                get_value := some get_value_t.digital_in_state }, port1)
      else (none, port)
    if dir = Port_Output ∧ r1.2 < st.n_out then
      let port2 := ioports_map st.out_map r1.2
      let output := st.aux_out.getD port2 default
      some (pin_info_t.scratch
        { xbar_zero with
          mode := { output.mode with inverted := decide ((st.invert_out >>> port2) &&& 1 ≠ 0) },
          cap := { XBAR_SET_CAP output.mode with invert := true },
          function := output.id, group := output.group, pin := output.pin,
          bit := 1 <<< output.pin, port := output.port, description := output.description,
          get_value := some get_value_t.digital_out_state })
    else r1.1.map pin_info_t.scratch
  else if st.mcp3221_enable ∧ dir = Port_Input ∧ port = 0 then
    some pin_info_t.analog_in
  else none

/-! ## `sleep.c` -/

/-- The variables `sleep_execute` works on: the static flag `slumber`, whether
the deferred action `fall_asleep` is queued in the task scheduler, and how often
`system_set_exec_state_flag(EXEC_SLEEP)` has been called. -/
structure SleepState where
  slumber : Bool
  task_pending : Bool
  exec_sleep_calls : Nat
  deriving DecidableEq, Repr

/-- The surroundings of one call of `sleep_execute`: the result of
`task_add_delayed`, the value `hal.stream.get_rx_buffer_free()` returns before
the loop, and for the loop iteration `k` (counted from 0) the value it returns
there, the values of `sys.rt_exec_state` and `sys.rt_exec_alarm` read there,
whether the delay of the deferred action elapses while
`grbl.on_execute_realtime` runs (`due_in_hook`) and whether it elapses between
the test of the exit conditions and the test of `slumber` (`due_after_check`;
`slumber` is `volatile`). -/
structure SleepEnv where
  add_ok : Bool
  rx_initial : Nat
  rx_free : Nat → Nat
  rt_exec_state : Nat → Nat
  rt_exec_alarm : Nat → Nat
  due_in_hook : Nat → Bool
  due_after_check : Nat → Bool

/-- Function `fall_asleep`: it clears `slumber`. -/
def fall_asleep (st : SleepState) : SleepState :=
  { st with slumber := false }

/-- Modelled from the spec: `task_add_delayed` is outside the sources at hand.
The spec has it schedule a one-shot deferred action; `ok` is what it returns. -/
def task_add_delayed (st : SleepState) (ok : Bool) : Bool × SleepState :=
  (ok, if ok then { st with task_pending := true } else st)

/-- Modelled from the spec: `task_delete` is outside the sources at hand.  The
spec has it unschedule the deferred action. -/
def task_delete (st : SleepState) : SleepState :=
  { st with task_pending := false }

/-- Modelled from the spec: the task scheduler is outside the sources at hand.
The spec has the deferred action be one-shot: when its delay has elapsed and it
is still scheduled it runs once and is no longer scheduled. -/
def task_run (st : SleepState) (due : Bool) : SleepState :=
  if due ∧ st.task_pending then fall_asleep { st with task_pending := false } else st

/-- Modelled from the spec: `system_set_exec_state_flag` is outside the sources
at hand.  The spec has it set the sleep flag; the calls are counted. -/
def system_set_exec_state_flag (st : SleepState) : SleepState :=
  { st with exec_sleep_calls := st.exec_sleep_calls + 1 }

/-- The exit test of the loop of `sleep_execute` in iteration `k`. -/
def sleep_exit (env : SleepEnv) (rx_initial : Nat) (k : Nat) : Bool :=
  decide (env.rx_free k ≠ rx_initial) || decide (env.rt_exec_state k ≠ 0) ||
    decide (env.rt_exec_alarm k ≠ 0)

/-- The `do ... while(slumber)` loop of `sleep_execute` from iteration `k` on
together with the statement after it; the result carries the number of
iterations run.  `none` when `fuel` iterations did not end the loop. -/
def sleep_loop (env : SleepEnv) (rx_initial : Nat) :
    Nat → Nat → SleepState → Option (SleepState × Nat)
  | 0, _, _ => none
  | fuel + 1, k, st =>
    let st1 := task_run st (env.due_in_hook k)
    if sleep_exit env rx_initial k then
      some (task_delete { st1 with slumber := false }, k + 1)
    else
      let st2 := task_run st1 (env.due_after_check k)
      if st2.slumber then sleep_loop env rx_initial fuel (k + 1) st2
      else some (system_set_exec_state_flag st2, k + 1)

/-- Function `sleep_execute`; the result carries the number of loop iterations
run.  `none` when `fuel` iterations did not end the loop. -/
def sleep_execute (fuel : Nat) (env : SleepEnv) (st : SleepState) : Option (SleepState × Nat) :=
  let r := task_add_delayed st env.add_ok
  let st1 : SleepState := { r.2 with slumber := r.1 }
  if !st1.slumber then some (st1, 0)
  else sleep_loop env env.rx_initial fuel 0 st1

/-- Surroundings in which scheduling succeeds, 100 bytes stay free in the input
buffer except in iteration `c`, where 99 are, no real-time condition is raised,
and the delay elapses during the hook of iteration `f`. -/
def sleep_env (c f : Nat) : SleepEnv :=
  { add_ok := true, rx_initial := 100, rx_free := fun k => if k = c then 99 else 100,
    rt_exec_state := fun _ => 0, rt_exec_alarm := fun _ => 0,
    due_in_hook := fun k => decide (k = f), due_after_check := fun _ => false }

/-- The sleep variables at rest. -/
def awake : SleepState :=
  { slumber := false, task_pending := false, exec_sleep_calls := 0 }

/-! ## Views of one direction, initial states, sequences of calls -/

/-- The map of a direction: `digital.in.map` or `digital.out.map`. -/
def State.map (st : State) (dir : io_port_direction_t) : Option (List Nat) :=
  match dir with
  | Port_Input => st.in_map
  | Port_Output => st.out_map

/-- The port count of a direction: `digital.in.n_ports` or `digital.out.n_ports`. -/
def State.n_ports (st : State) (dir : io_port_direction_t) : Nat :=
  match dir with
  | Port_Input => st.n_in
  | Port_Output => st.n_out

/-- The available count of a direction: `hal.port.num_digital_in` or
`hal.port.num_digital_out`. -/
def State.available (st : State) (dir : io_port_direction_t) : Nat :=
  match dir with
  | Port_Input => st.num_digital_in
  | Port_Output => st.num_digital_out

/-- The flag `mode.claimed` of entry `port` of the pin table of a direction. -/
def State.claimed (st : State) (dir : io_port_direction_t) (port : Nat) : Bool :=
  match dir with
  | Port_Input => (st.aux_in.getD port default).mode.claimed
  | Port_Output => (st.aux_out.getD port default).mode.claimed

/-- The field `description` of entry `port` of the pin table of a direction. -/
def State.description (st : State) (dir : io_port_direction_t) (port : Nat) : String :=
  match dir with
  | Port_Input => (st.aux_in.getD port default).description
  | Port_Output => (st.aux_out.getD port default).description

/-- The field `pin` of entry `port` of the pin table of a direction. -/
def State.pin (st : State) (dir : io_port_direction_t) (port : Nat) : Nat :=
  match dir with
  | Port_Input => (st.aux_in.getD port default).pin
  | Port_Output => (st.aux_out.getD port default).pin

/-- Modelled from the spec: `ioports_add`, which `ioports_init` calls to set up
`digital`, is outside the sources at hand.  The spec has it build identity maps
per direction with every port available and nothing claimed; the port counts
are `uint8_t`. -/
def Initialized (st : State) : Prop :=
  st.in_map = some (List.range st.n_in) ∧ st.out_map = some (List.range st.n_out) ∧
  st.num_digital_in = st.n_in ∧ st.num_digital_out = st.n_out ∧
  (∀ x ∈ st.aux_in, x.mode.claimed = false) ∧ (∀ x ∈ st.aux_out, x.mode.claimed = false) ∧
  st.n_in ≤ 255 ∧ st.n_out ≤ 255

instance (st : State) : Decidable (Initialized st) := by
  unfold Initialized
  infer_instance

/-- One call of an operation the layer exposes through `hal.port`. -/
inductive Op where
  | claim (type : io_port_type_t) (dir : io_port_direction_t) (port : Nat) (description : String)
  | swap_pins (type : io_port_type_t) (dir : io_port_direction_t) (port_a port_b : Nat)
  | set_pin_description (type : io_port_type_t) (dir : io_port_direction_t) (port : Nat)
      (s : String)
  deriving DecidableEq, Repr

/-- The state a call leaves. -/
def exec (st : State) : Op → State
  | .claim type dir port description => (claim st type dir port description).2.1
  | .swap_pins type dir port_a port_b => (swap_pins st type dir port_a port_b).2
  | .set_pin_description type dir port s => set_pin_description st type dir port s

/-- The state a sequence of calls leaves. -/
def run (st : State) (ops : List Op) : State :=
  ops.foldl exec st

/-- A call is a call of `claim`. -/
def Op.isClaim : Op → Bool
  | .claim _ _ _ _ => true
  | _ => false

/-- A call of `swap_pins` that exchanges two descriptors whose `claimed` flags
differ (it moves a claimed flag to another slot); every other call is harmless
in this sense. -/
def Op.movesClaim (st : State) : Op → Bool
  | .swap_pins _ dir port_a port_b => st.claimed dir port_a != st.claimed dir port_b
  | _ => false

/-- No call of the sequence, run from `st`, moves a claimed flag. -/
def KeepsClaims : State → List Op → Bool
  | _, [] => true
  | st, op :: ops => !op.movesClaim st && KeepsClaims (exec st op) ops

/-- The pool invariant of the spec for one direction: the map is a permutation
of all physical slots, and the logical indices below the available count are
exactly the positions that hold unclaimed ports (so every claimed port sits at
or above it). -/
def PoolInvariant (st : State) (dir : io_port_direction_t) : Prop :=
  match st.map dir with
  | some m =>
    m.Perm (List.range (st.n_ports dir)) ∧
    ∀ l, l < st.n_ports dir → (l < st.available dir ↔ st.claimed dir (m.getD l 0) = false)
  | none => False

instance (st : State) (dir : io_port_direction_t) : Decidable (PoolInvariant st dir) := by
  unfold PoolInvariant
  cases st.map dir <;> infer_instance

/-! ## Concrete tables used to evaluate the functions -/

/-- An unclaimed input pin with both edge interrupts in its capability. -/
def demo_input (n : Nat) : input_signal_t :=
  { id := n, group := 0, port := 0, gpio_bit := 1 <<< n, pin := n,
    cap := { irq_mode := 3, invert := false, claimable := false, other := 0 },
    mode := { claimed := false, inverted := false, analog := false, irq_mode := 0, other := 0 },
    interrupt_callback := none, aux_ctrl := none,
    description := "", irq_enabled := 0 }

/-- An unclaimed output pin at level low. -/
def demo_output (n : Nat) : output_signal_t :=
  { id := n, group := 0, port := 0, pin := n,
    mode := { claimed := false, inverted := false, analog := false, irq_mode := 0, other := 0 },
    description := "", level := false }

/-- Default labels `P0`, `P1`, `P2` (and `P3` from there on). -/
def demo_pnum (i : Nat) : String :=
  match i with
  | 0 => "P0"
  | 1 => "P1"
  | 2 => "P2"
  | _ => "P3"

/-- A freshly initialized state over the given tables. -/
def demo_state (ins : List input_signal_t) (outs : List output_signal_t) : State :=
  { aux_in := ins, aux_out := outs,
    in_map := some (List.range ins.length), out_map := some (List.range outs.length),
    num_digital_in := ins.length, num_digital_out := outs.length,
    pnum := demo_pnum, invert_digital_out := 0, event_bits := 0, spin_lock := false,
    invert_in := 0, invert_out := 0, control_invert := 0, settings_writes := 0,
    mcp3221_enable := false,
    analog_in_mode := { claimed := false, inverted := false, analog := false, irq_mode := 0, other := 0 },
    analog_in_description := "", num_analog_in := 0, analog_n_in := 0 }

/-- Three input pins and three output pins, freshly initialized. -/
def demo3 : State :=
  demo_state [demo_input 0, demo_input 1, demo_input 2] [demo_output 0, demo_output 1, demo_output 2]

/-! ## Auxiliary definitions for the proofs -/

/-- The map a successful `claim` of the port `p` found at position `i0` leaves
when `a` ports were available, entry by entry: the claimed port lands on `a - 1`
and the entries between move down. -/
def claimed_map (m : List Nat) (i0 a p l : Nat) : Nat :=
  if l = a - 1 then p else if i0 ≤ l ∧ l < a - 1 then m.getD (l + 1) 0 else m.getD l 0

/-- The pool invariant together with the `uint8_t` bounds it is maintained
under: the port count fits a `uint8_t` and the available count does not exceed
it. -/
def PoolWF (st : State) (dir : io_port_direction_t) : Prop :=
  ∃ m, st.map dir = some m ∧ m.Perm (List.range (st.n_ports dir)) ∧
    st.n_ports dir ≤ 255 ∧ st.available dir ≤ st.n_ports dir ∧
    ∀ l, l < st.n_ports dir → (l < st.available dir ↔ st.claimed dir (m.getD l 0) = false)

/-- Surroundings in which nothing happens: the pin stays low, no edge event
arrives and `sys.abort` stays clear. -/
def quiet_env : WaitEnv :=
  { level := fun _ => false, irq := fun _ => 0, abort := fun _ => false, adc := 0 }

/-- Surroundings in which the pin is high, `sys.abort` stays clear and the edge
event of the pin with `gpio.bit = 1` arrives in slot `k` (and in no other). -/
def edge_env (k : Nat) : WaitEnv :=
  { level := fun _ => true, irq := fun j => if j = k then 1 else 0, abort := fun _ => false,
    adc := 0 }

/-- One input pin bound to the control function with mask `1`; `per_port` and
`control` are the two invert masks. -/
def demo_ctrl (per_port control : Nat) : State :=
  { demo_state [{ demo_input 0 with aux_ctrl := some 1 }] [] with
    invert_in := per_port, control_invert := control }

/-- An input descriptor with its binding replaced: armed mode, callback, and the
interrupt of the pin configured for that mode. -/
def rebind (x : input_signal_t) (irq_mode : pin_irq_mode_t) (callback : Option Nat) :
    input_signal_t :=
  { x with mode := { x.mode with irq_mode := irq_mode }, interrupt_callback := callback,
           irq_enabled := irq_mode }

/-- The two invert bits of a port disagree: the port is bound to a control
function, and whether the control invert mask holds a bit of the function mask
differs from bit `port` of the per-port input invert mask. -/
def ctrl_mismatch (s : InvertSync) (port : Nat) : Bool :=
  match (s.aux_in.getD port default).aux_ctrl with
  | some cap_mask => decide (s.control_invert &&& cap_mask ≠ 0) != s.invert_in.testBit port
  | none => false

/-! ## `ioports_init` and the pin-table indices the settings handlers visit -/

/-- The entries of `hal.port` and the settings subscription that `ioports_init`
sets (`true`) or leaves alone (`false`). -/
structure Installed where
  set_pin_description : Bool
  wait_on_input : Bool
  register_interrupt_handler : Bool
  digital_out : Bool
  claim : Bool
  swap_pins : Bool
  get_pin_info : Bool
  settings_handlers : Bool
  deriving DecidableEq, Repr

/-- Function `ioports_init`, as far as it installs handlers.  `add_ok` is what
`ioports_add`, which is outside the sources at hand, returns; `n_in` and `n_out`
are `digital.in.n_ports` and `digital.out.n_ports` as it has set them.
`ioports_add_settings(on_settings_loaded, on_setting_changed)` is called
whenever `ioports_add` succeeded, with no test of either port count. -/
def ioports_init (add_ok : Bool) (n_in n_out : Nat) : Installed :=
  { set_pin_description := true,
    wait_on_input := add_ok && decide (n_in ≠ 0),
    register_interrupt_handler := add_ok && decide (n_in ≠ 0),
    digital_out := add_ok && decide (n_out ≠ 0),
    claim := add_ok,
    swap_pins := add_ok,
    get_pin_info := add_ok,
    settings_handlers := add_ok }

/-- The values of `port` the loop bodies of a settings handler run with, in
order: `inputs` for the loops over `aux_in`, `outputs` for the loops over
`aux_out`.  Every body accesses its table at `port` and nowhere else. -/
structure PortVisits where
  inputs : List Nat
  outputs : List Nat
  deriving DecidableEq, Repr

/-- The values of `port` the two loops of `on_settings_loaded` run with: the
output loop is guarded by `if(digital.out.n_ports)`, the input loop is not. -/
def on_settings_loaded_visits (st : State) : PortVisits :=
  { outputs := if st.n_out ≠ 0 then do_while_ports st.n_out else [],
    inputs := do_while_ports st.n_in }

/-- The values of `port` the loop of `on_setting_changed` for the given
notification runs with; none of the three loops is guarded by a test of the
port count. -/
def on_setting_changed_visits (st : State) (id : setting_id_t) : PortVisits :=
  match id with
  | Settings_IoPort_InvertIn => { inputs := do_while_ports st.n_in, outputs := [] }
  | Settings_IoPort_InvertOut =>
    if st.invert_digital_out ≠ st.invert_out then
      { inputs := [], outputs := do_while_ports st.n_out }
    else { inputs := [], outputs := [] }
  | Setting_ControlInvertMask => { inputs := do_while_ports st.n_in, outputs := [] }
  | Setting_Other => { inputs := [], outputs := [] }

/-- No input pin and one output pin, freshly initialized. -/
def no_inputs : State :=
  demo_state [] [demo_output 0]

/-- One input pin and no output pin, freshly initialized, with bit 0 of
`settings.ioport.invert_out.mask` set and not yet cached. -/
def no_outputs : State :=
  { demo_state [demo_input 0] [] with invert_out := 1 }

/-! ## Auxiliary facts about tables and the shifting loop of `claim` -/

theorem getD_set_nat (m : List Nat) (i l v : Nat) :
    (m.set i v).getD l 0 = if i = l ∧ i < m.length then v else m.getD l 0 := by
  simp only [List.getD_eq_getElem?_getD, List.getElem?_set]
  by_cases h : i = l
  · subst h
    by_cases h2 : i < m.length
    · simp [h2]
    · simp [h2, List.getElem?_eq_none (by omega : m.length ≤ i)]
  · simp [h]

theorem modifyAt_length {α : Type} (f : α → α) (i : Nat) (tbl : List α) :
    (modifyAt f i tbl).length = tbl.length := by
  unfold modifyAt
  split <;> simp

theorem modifyAt_getElem? {α : Type} (f : α → α) (i j : Nat) (tbl : List α) :
    (modifyAt f i tbl)[j]? = if i = j then tbl[j]?.map f else tbl[j]? := by
  unfold modifyAt
  split
  · rename_i x hx
    rw [List.getElem?_set]
    by_cases h : i = j
    · subst h
      have : i < tbl.length := by
        by_contra hc
        rw [List.getElem?_eq_none (by omega)] at hx
        cases hx
      simp [this, hx]
    · simp [h]
  · rename_i hx
    by_cases h : i = j
    · subst h
      simp [hx]
    · simp [h]

theorem claim_shift_aux_length {α : Type} (setDesc : String → α → α) (pnum : Nat → String)
    (a : Nat) : ∀ (fuel i : Nat) (m : List Nat) (aux : List α),
      (claim_shift setDesc pnum a fuel i m aux).2.length = aux.length := by
  intro fuel
  induction fuel with
  | zero => intro i m aux; rfl
  | succ fuel ih =>
    intro i m aux
    simp only [claim_shift]
    split
    · rw [ih, modifyAt_length]
    · rfl

theorem claim_shift_aux_proj {α β : Type} (setDesc : String → α → α) (pnum : Nat → String)
    (a : Nat) (f : α → β) (hf : ∀ s y, f (setDesc s y) = f y) :
    ∀ (fuel i : Nat) (m : List Nat) (aux : List α) (x : Nat),
      ((claim_shift setDesc pnum a fuel i m aux).2[x]?).map f = (aux[x]?).map f := by
  intro fuel
  induction fuel with
  | zero => intro i m aux x; rfl
  | succ fuel ih =>
    intro i m aux x
    simp only [claim_shift]
    split
    · rw [ih, modifyAt_getElem?]
      split
      · cases aux[x]? <;> simp [hf]
      · rfl
    · rfl

theorem claim_shift_aux_frame {α : Type} (setDesc : String → α → α) (pnum : Nat → String)
    (a : Nat) : ∀ (fuel i : Nat) (m : List Nat) (aux : List α) (x : Nat), a = i + fuel →
      a < m.length → (∀ j, i ≤ j → j < a → m.getD (j + 1) 0 ≠ x) →
      (claim_shift setDesc pnum a fuel i m aux).2[x]? = aux[x]? := by
  intro fuel
  induction fuel with
  | zero => intro i m aux x _ _ _; rfl
  | succ fuel ih =>
    intro i m aux x h hlen hx
    have hi : i < a := by omega
    simp only [claim_shift, hi, if_true]
    rw [ih (i + 1) _ _ x (by omega) (by simpa using hlen)]
    · have c5 : i < m.length := by omega
      have hm0 : (m.set i (m.getD (i + 1) 0)).getD i 0 = m.getD (i + 1) 0 := by
        rw [getD_set_nat, if_pos ⟨rfl, c5⟩]
      rw [modifyAt_getElem?, hm0, if_neg (hx i (le_refl i) hi)]
    · intro j hj1 hj2
      rw [getD_set_nat]
      have c3 : ¬ (i = j + 1 ∧ i < m.length) := by omega
      simpa [c3] using hx j (by omega) hj2

theorem claim_shift_aux_desc {α : Type} (setDesc : String → α → α) (getDesc : α → String)
    (hgs : ∀ s y, getDesc (setDesc s y) = s) (pnum : Nat → String) (a : Nat) :
    ∀ (fuel i : Nat) (m : List Nat) (aux : List α), a = i + fuel → a < m.length →
      (∀ j j2, i ≤ j → j < a → i ≤ j2 → j2 < a → m.getD (j + 1) 0 = m.getD (j2 + 1) 0 → j = j2) →
      ∀ j, i ≤ j → j < a → m.getD (j + 1) 0 < aux.length →
        ((claim_shift setDesc pnum a fuel i m aux).2[m.getD (j + 1) 0]?).map getDesc =
          some (pnum j) := by
  intro fuel
  induction fuel with
  | zero => intro i m aux h _ _ j hj1 hj2; omega
  | succ fuel ih =>
    intro i m aux h hlen hinj j hj1 hj2 hjlt
    have hi : i < a := by omega
    have c5 : i < m.length := by omega
    have hm1 : ∀ t, i ≤ t → (m.set i (m.getD (i + 1) 0)).getD (t + 1) 0 = m.getD (t + 1) 0 := by
      intro t ht
      rw [getD_set_nat]
      have c3 : ¬ (i = t + 1 ∧ i < m.length) := by omega
      simp [c3]
    have hm0 : (m.set i (m.getD (i + 1) 0)).getD i 0 = m.getD (i + 1) 0 := by
      rw [getD_set_nat, if_pos ⟨rfl, c5⟩]
    simp only [claim_shift, hi, if_true]
    by_cases hji : j = i
    · subst hji
      rw [claim_shift_aux_frame setDesc pnum a fuel (j + 1) _ _ _ (by omega) (by simpa using hlen)]
      · rw [hm0, modifyAt_getElem?, if_pos rfl, List.getElem?_eq_getElem hjlt]
        simp [hgs]
      · intro t ht1 ht2 heq
        rw [hm1 t (by omega)] at heq
        have := hinj t j (by omega) ht2 (le_refl j) hi heq
        omega
    · have := ih (i + 1) (m.set i (m.getD (i + 1) 0))
        (modifyAt (setDesc (pnum i)) ((m.set i (m.getD (i + 1) 0)).getD i 0) aux) (by omega)
        (by simpa using hlen)
        (by
          intro t t2 ht1 ht2 ht3 ht4 heq
          rw [hm1 t (by omega), hm1 t2 (by omega)] at heq
          exact hinj t t2 (by omega) ht2 (by omega) ht4 heq)
        j (by omega) hj2
      rw [hm1 j (by omega)] at this
      exact this (by rw [modifyAt_length]; exact hjlt)


theorem claim_shift_map {α : Type} (setDesc : String → α → α) (pnum : Nat → String) (a : Nat) :
    ∀ (fuel i : Nat) (m : List Nat) (aux : List α), a = i + fuel → a < m.length →
      (claim_shift setDesc pnum a fuel i m aux).1.length = m.length ∧
      ∀ l, (claim_shift setDesc pnum a fuel i m aux).1.getD l 0 =
        if i ≤ l ∧ l < a then m.getD (l + 1) 0 else m.getD l 0 := by
  intro fuel
  induction fuel with
  | zero =>
    intro i m aux h _
    refine ⟨rfl, fun l => ?_⟩
    have : ¬ (i ≤ l ∧ l < a) := by omega
    simp [claim_shift, this]
  | succ fuel ih =>
    intro i m aux h hlen
    have hi : i < a := by omega
    simp only [claim_shift, hi, if_true]
    obtain ⟨h1, h2⟩ := ih (i + 1) (m.set i (m.getD (i + 1) 0))
      (modifyAt (setDesc (pnum i)) ((m.set i (m.getD (i + 1) 0)).getD i 0) aux) (by omega)
      (by simpa using hlen)
    refine ⟨by simpa using h1, fun l => ?_⟩
    rw [h2 l, getD_set_nat, getD_set_nat]
    by_cases c1 : i + 1 ≤ l ∧ l < a
    · have c2 : i ≤ l ∧ l < a := by omega
      have c3 : ¬ (i = l + 1 ∧ i < m.length) := by omega
      simp [c1, c2, c3]
    · by_cases c4 : i = l
      · subst c4
        have c5 : i < m.length := by omega
        simp [c1, hi, c5]
      · have c2 : ¬ (i ≤ l ∧ l < a) := by omega
        simp [c1, c2, c4]


theorem getD_congr_map {α β : Type} [Inhabited α] (f : α → β) (l1 l2 : List α) (x : Nat)
    (h : (l1[x]?).map f = (l2[x]?).map f) : f (l1.getD x default) = f (l2.getD x default) := by
  simp only [List.getD_eq_getElem?_getD]
  cases h1 : l1[x]? <;> cases h2 : l2[x]? <;> simp_all

theorem uint8_dec (a : Nat) (h1 : 1 ≤ a) (h2 : a ≤ 256) : (a + 255) % 256 = a - 1 := by
  omega

theorem claim_shift_set {α : Type} (setDesc : String → α → α) (pnum : Nat → String)
    (m : List Nat) (aux : List α) (a i0 p : Nat) (ha : 1 ≤ a) (hlen : a ≤ m.length)
    (hi0 : i0 < a) :
    ((claim_shift setDesc pnum (a - 1) (a - 1 - i0) i0 m aux).1.set (a - 1) p).length = m.length ∧
    ∀ l, ((claim_shift setDesc pnum (a - 1) (a - 1 - i0) i0 m aux).1.set (a - 1) p).getD l 0 =
      claimed_map m i0 a p l := by
  obtain ⟨h1, h2⟩ := claim_shift_map setDesc pnum (a - 1) (a - 1 - i0) i0 m aux (by omega) (by omega)
  refine ⟨by simpa using h1, fun l => ?_⟩
  rw [getD_set_nat, h1, h2]
  unfold claimed_map
  by_cases c : l = a - 1
  · subst c
    rw [if_pos ⟨rfl, by omega⟩, if_pos rfl]
  · rw [if_neg (by omega), if_neg c]

theorem claim_effect_in (st : State) (p : Nat) (d : String) (m : List Nat)
    (hmap : st.in_map = some m) (hp : p < st.n_in)
    (hcl : (st.aux_in.getD p default).mode.claimed = false)
    (ha1 : 1 ≤ st.num_digital_in) (ha2 : st.num_digital_in ≤ 256)
    (hlen : st.num_digital_in ≤ m.length) (hi0 : m.indexOf p < st.num_digital_in) :
    (claim st Port_Digital Port_Input p d).1 = true ∧
    (claim st Port_Digital Port_Input p d).2.2 = st.num_digital_in - 1 ∧
    (claim st Port_Digital Port_Input p d).2.1.num_digital_in = st.num_digital_in - 1 ∧
    (claim st Port_Digital Port_Input p d).2.1.aux_in.length = st.aux_in.length ∧
    (∃ m2, (claim st Port_Digital Port_Input p d).2.1.in_map = some m2 ∧ m2.length = m.length ∧
      ∀ l, m2.getD l 0 = claimed_map m (m.indexOf p) st.num_digital_in p l) ∧
    (∀ x, ((claim st Port_Digital Port_Input p d).2.1.aux_in.getD x default).mode.claimed =
      if x = p then true else (st.aux_in.getD x default).mode.claimed) ∧
    ((claim st Port_Digital Port_Input p d).2.1.aux_in.getD p default).description = d ∧
    ((∀ j j2, m.indexOf p ≤ j → j < st.num_digital_in - 1 → m.indexOf p ≤ j2 →
        j2 < st.num_digital_in - 1 → m.getD (j + 1) 0 = m.getD (j2 + 1) 0 → j = j2) →
      ∀ j, m.indexOf p ≤ j → j < st.num_digital_in - 1 → m.getD (j + 1) 0 < st.n_in →
        m.getD (j + 1) 0 ≠ p →
        ((claim st Port_Digital Port_Input p d).2.1.aux_in.getD (m.getD (j + 1) 0) default).description
          = st.pnum j) ∧
    (claim st Port_Digital Port_Input p d).2.1.out_map = st.out_map ∧
    (claim st Port_Digital Port_Input p d).2.1.aux_out = st.aux_out ∧
    (claim st Port_Digital Port_Input p d).2.1.num_digital_out = st.num_digital_out := by
  have hg : (st.in_map.isSome && decide (p < st.n_in) &&
      !(st.aux_in.getD p default).mode.claimed) = true := by
    rw [hmap, hcl]
    simp [hp]
  have hdec := uint8_dec st.num_digital_in ha1 ha2
  have hpl : p < st.aux_in.length := hp
  simp only [claim, hg, if_true, hdec]
  simp only [hmap, ioports_map_reverse, Option.getD_some]
  obtain ⟨h1, h2⟩ := claim_shift_set input_signal_t.setDescription st.pnum m st.aux_in
    st.num_digital_in (m.indexOf p) p ha1 hlen hi0
  have hlen2 := claim_shift_aux_length input_signal_t.setDescription st.pnum
    (st.num_digital_in - 1) (st.num_digital_in - 1 - m.indexOf p) (m.indexOf p) m st.aux_in
  refine ⟨trivial, trivial, trivial, ?_, ⟨_, rfl, h1, h2⟩, ?_, ?_, ?_, trivial, trivial, trivial⟩
  · rw [modifyAt_length, modifyAt_length, hlen2]
  · intro x
    have hproj := claim_shift_aux_proj input_signal_t.setDescription st.pnum
      (st.num_digital_in - 1) (fun y => y.mode.claimed) (fun _ _ => rfl)
      (st.num_digital_in - 1 - m.indexOf p) (m.indexOf p) m st.aux_in x
    by_cases hx : x = p
    · subst hx
      simp only [List.getD_eq_getElem?_getD, modifyAt_getElem?, if_true]
      rw [List.getElem?_eq_getElem (by rw [hlen2]; exact hpl)]
      simp [input_signal_t.setDescription]
    · rw [if_neg hx]
      rw [← getD_congr_map (fun y : input_signal_t => y.mode.claimed) _ _ x hproj]
      simp only [List.getD_eq_getElem?_getD, modifyAt_getElem?, if_neg (Ne.symm hx)]
  · simp only [List.getD_eq_getElem?_getD, modifyAt_getElem?, if_true]
    rw [List.getElem?_eq_getElem (by rw [hlen2]; exact hpl)]
    simp [input_signal_t.setDescription]
  · intro hinj j hj1 hj2 hjn hjp
    have hd := claim_shift_aux_desc input_signal_t.setDescription (fun y => y.description)
      (fun _ _ => rfl) st.pnum (st.num_digital_in - 1) (st.num_digital_in - 1 - m.indexOf p)
      (m.indexOf p) m st.aux_in (by omega) (by omega) hinj j hj1 hj2 hjn
    generalize m.getD (j + 1) 0 = q at hd hjp hjn ⊢
    simp only [List.getD_eq_getElem?_getD, modifyAt_getElem?, if_neg (Ne.symm hjp)] at hd ⊢
    cases hq : (claim_shift input_signal_t.setDescription st.pnum (st.num_digital_in - 1)
      (st.num_digital_in - 1 - m.indexOf p) (m.indexOf p) m st.aux_in).2[q]? with
    | none => rw [hq] at hd; simp at hd
    | some y => rw [hq] at hd; simpa using hd

theorem claim_effect_out (st : State) (p : Nat) (d : String) (m : List Nat)
    (hmap : st.out_map = some m) (hp : p < st.n_out)
    (hcl : (st.aux_out.getD p default).mode.claimed = false)
    (ha1 : 1 ≤ st.num_digital_out) (ha2 : st.num_digital_out ≤ 256)
    (hlen : st.num_digital_out ≤ m.length) (hi0 : m.indexOf p < st.num_digital_out) :
    (claim st Port_Digital Port_Output p d).1 = true ∧
    (claim st Port_Digital Port_Output p d).2.2 = st.num_digital_out - 1 ∧
    (claim st Port_Digital Port_Output p d).2.1.num_digital_out = st.num_digital_out - 1 ∧
    (claim st Port_Digital Port_Output p d).2.1.aux_out.length = st.aux_out.length ∧
    (∃ m2, (claim st Port_Digital Port_Output p d).2.1.out_map = some m2 ∧ m2.length = m.length ∧
      ∀ l, m2.getD l 0 = claimed_map m (m.indexOf p) st.num_digital_out p l) ∧
    (∀ x, ((claim st Port_Digital Port_Output p d).2.1.aux_out.getD x default).mode.claimed =
      if x = p then true else (st.aux_out.getD x default).mode.claimed) ∧
    ((claim st Port_Digital Port_Output p d).2.1.aux_out.getD p default).description = d ∧
    ((∀ j j2, m.indexOf p ≤ j → j < st.num_digital_out - 1 → m.indexOf p ≤ j2 →
        j2 < st.num_digital_out - 1 → m.getD (j + 1) 0 = m.getD (j2 + 1) 0 → j = j2) →
      ∀ j, m.indexOf p ≤ j → j < st.num_digital_out - 1 → m.getD (j + 1) 0 < st.n_out →
        m.getD (j + 1) 0 ≠ p →
        ((claim st Port_Digital Port_Output p d).2.1.aux_out.getD (m.getD (j + 1) 0) default).description
          = st.pnum j) ∧
    (claim st Port_Digital Port_Output p d).2.1.in_map = st.in_map ∧
    (claim st Port_Digital Port_Output p d).2.1.aux_in = st.aux_in ∧
    (claim st Port_Digital Port_Output p d).2.1.num_digital_in = st.num_digital_in := by
  have hg : (st.out_map.isSome && decide (p < st.n_out) &&
      !(st.aux_out.getD p default).mode.claimed) = true := by
    rw [hmap, hcl]
    simp [hp]
  have hdec := uint8_dec st.num_digital_out ha1 ha2
  have hpl : p < st.aux_out.length := hp
  simp only [claim, hg, if_true, hdec]
  simp only [hmap, ioports_map_reverse, Option.getD_some]
  obtain ⟨h1, h2⟩ := claim_shift_set output_signal_t.setDescription st.pnum m st.aux_out
    st.num_digital_out (m.indexOf p) p ha1 hlen hi0
  have hlen2 := claim_shift_aux_length output_signal_t.setDescription st.pnum
    (st.num_digital_out - 1) (st.num_digital_out - 1 - m.indexOf p) (m.indexOf p) m st.aux_out
  refine ⟨trivial, trivial, trivial, ?_, ⟨_, rfl, h1, h2⟩, ?_, ?_, ?_, trivial, trivial, trivial⟩
  · rw [modifyAt_length, modifyAt_length, hlen2]
  · intro x
    have hproj := claim_shift_aux_proj output_signal_t.setDescription st.pnum
      (st.num_digital_out - 1) (fun y => y.mode.claimed) (fun _ _ => rfl)
      (st.num_digital_out - 1 - m.indexOf p) (m.indexOf p) m st.aux_out x
    by_cases hx : x = p
    · subst hx
      simp only [List.getD_eq_getElem?_getD, modifyAt_getElem?, if_true]
      rw [List.getElem?_eq_getElem (by rw [hlen2]; exact hpl)]
      simp [output_signal_t.setDescription]
    · rw [if_neg hx]
      rw [← getD_congr_map (fun y : output_signal_t => y.mode.claimed) _ _ x hproj]
      simp only [List.getD_eq_getElem?_getD, modifyAt_getElem?, if_neg (Ne.symm hx)]
  · simp only [List.getD_eq_getElem?_getD, modifyAt_getElem?, if_true]
    rw [List.getElem?_eq_getElem (by rw [hlen2]; exact hpl)]
    simp [output_signal_t.setDescription]
  · intro hinj j hj1 hj2 hjn hjp
    have hd := claim_shift_aux_desc output_signal_t.setDescription (fun y => y.description)
      (fun _ _ => rfl) st.pnum (st.num_digital_out - 1) (st.num_digital_out - 1 - m.indexOf p)
      (m.indexOf p) m st.aux_out (by omega) (by omega) hinj j hj1 hj2 hjn
    generalize m.getD (j + 1) 0 = q at hd hjp hjn ⊢
    simp only [List.getD_eq_getElem?_getD, modifyAt_getElem?, if_neg (Ne.symm hjp)] at hd ⊢
    cases hq : (claim_shift output_signal_t.setDescription st.pnum (st.num_digital_out - 1)
      (st.num_digital_out - 1 - m.indexOf p) (m.indexOf p) m st.aux_out).2[q]? with
    | none => rw [hq] at hd; simp at hd
    | some y => rw [hq] at hd; simpa using hd


/-- The flag returned by `claim` for a digital port is the guard of its branch. -/
theorem claim_digital_flag (st : State) (dir : io_port_direction_t) (p : Nat) (d : String) :
    (claim st Port_Digital dir p d).1 =
      ((st.map dir).isSome && decide (p < st.n_ports dir) && !st.claimed dir p) := by
  cases dir <;> simp only [claim, State.map, State.n_ports, State.claimed] <;> split <;> simp_all

/-- A failed `claim` changes nothing. -/
theorem claim_fail_unchanged (st : State) (type : io_port_type_t) (dir : io_port_direction_t)
    (p : Nat) (d : String) (h : (claim st type dir p d).1 = false) :
    (claim st type dir p d).2 = (st, p) := by
  cases type <;> cases dir <;> simp only [claim] at h ⊢ <;> split <;> simp_all

/-- The effect of a successful digital `claim` on the views of its direction. -/
theorem claim_effect (st : State) (dir : io_port_direction_t) (p : Nat) (d : String)
    (m : List Nat) (hmap : st.map dir = some m) (hp : p < st.n_ports dir)
    (hcl : st.claimed dir p = false) (ha1 : 1 ≤ st.available dir) (ha2 : st.available dir ≤ 256)
    (hlen : st.available dir ≤ m.length) (hi0 : m.indexOf p < st.available dir) :
    (claim st Port_Digital dir p d).1 = true ∧
    (claim st Port_Digital dir p d).2.2 = st.available dir - 1 ∧
    (claim st Port_Digital dir p d).2.1.available dir = st.available dir - 1 ∧
    (claim st Port_Digital dir p d).2.1.n_ports dir = st.n_ports dir ∧
    (∃ m2, (claim st Port_Digital dir p d).2.1.map dir = some m2 ∧ m2.length = m.length ∧
      ∀ l, m2.getD l 0 = claimed_map m (m.indexOf p) (st.available dir) p l) ∧
    (∀ x, (claim st Port_Digital dir p d).2.1.claimed dir x =
      if x = p then true else st.claimed dir x) ∧
    (claim st Port_Digital dir p d).2.1.description dir p = d ∧
    ((∀ j j2, m.indexOf p ≤ j → j < st.available dir - 1 → m.indexOf p ≤ j2 →
        j2 < st.available dir - 1 → m.getD (j + 1) 0 = m.getD (j2 + 1) 0 → j = j2) →
      ∀ j, m.indexOf p ≤ j → j < st.available dir - 1 → m.getD (j + 1) 0 < st.n_ports dir →
        m.getD (j + 1) 0 ≠ p →
        (claim st Port_Digital dir p d).2.1.description dir (m.getD (j + 1) 0) = st.pnum j) := by
  cases dir
  · obtain ⟨h1, h2, h3, h4, h5, h6, h7, h8, -⟩ :=
      claim_effect_in st p d m hmap hp hcl ha1 ha2 hlen hi0
    exact ⟨h1, h2, h3, h4, h5, h6, h7, h8⟩
  · obtain ⟨h1, h2, h3, h4, h5, h6, h7, h8, -⟩ :=
      claim_effect_out st p d m hmap hp hcl ha1 ha2 hlen hi0
    exact ⟨h1, h2, h3, h4, h5, h6, h7, h8⟩

/-- A call of `claim` leaves the views of every direction it is not aimed at
untouched. -/
theorem claim_other_dir (st : State) (type : io_port_type_t) (dir dir2 : io_port_direction_t)
    (p : Nat) (d : String) (h : type = Port_Analog ∨ dir2 ≠ dir) :
    (claim st type dir p d).2.1.map dir2 = st.map dir2 ∧
    (claim st type dir p d).2.1.n_ports dir2 = st.n_ports dir2 ∧
    (claim st type dir p d).2.1.available dir2 = st.available dir2 ∧
    (∀ x, (claim st type dir p d).2.1.claimed dir2 x = st.claimed dir2 x) ∧
    (∀ x, (claim st type dir p d).2.1.description dir2 x = st.description dir2 x) := by
  cases type <;> cases dir <;> cases dir2 <;>
    simp only [claim, State.map, State.n_ports, State.available, State.claimed,
      State.description, State.n_in, State.n_out] <;>
    split <;> simp_all



theorem perm_range_facts (m : List Nat) (n : Nat) (h : m.Perm (List.range n)) :
    m.length = n ∧ (∀ l, l < n → m.getD l 0 < n) ∧
    (∀ l l2, l < n → l2 < n → m.getD l 0 = m.getD l2 0 → l = l2) ∧
    (∀ p, p < n → m.indexOf p < n ∧ m.getD (m.indexOf p) 0 = p) := by
  have hlen : m.length = n := by simpa using h.length_eq
  have hnd : m.Nodup := h.nodup_iff.mpr (List.nodup_range n)
  refine ⟨hlen, ?_, ?_, ?_⟩
  · intro l hl
    have hl2 : l < m.length := by omega
    rw [List.getD_eq_getElem _ _ hl2]
    have : m[l] ∈ List.range n := h.subset (List.getElem_mem hl2)
    simpa using this
  · intro l l2 hl hl2 heq
    have h1 : l < m.length := by omega
    have h2 : l2 < m.length := by omega
    rw [List.getD_eq_getElem _ _ h1, List.getD_eq_getElem _ _ h2] at heq
    exact (List.Nodup.getElem_inj_iff hnd).mp heq
  · intro p hp
    have hmem : p ∈ m := h.symm.subset (by simpa using hp)
    have hi : m.indexOf p < m.length := List.indexOf_lt_length.mpr hmem
    refine ⟨by omega, ?_⟩
    rw [List.getD_eq_getElem _ _ hi]
    exact List.getElem_indexOf hi

theorem perm_range_of_pointwise (m : List Nat) (n : Nat) (hlen : m.length = n)
    (hb : ∀ l, l < n → m.getD l 0 < n)
    (hinj : ∀ l l2, l < n → l2 < n → m.getD l 0 = m.getD l2 0 → l = l2) :
    m.Perm (List.range n) := by
  have hnd : m.Nodup := by
    rw [List.nodup_iff_getElem?_ne_getElem?]
    intro i j hij hj heq
    have hi : i < m.length := by omega
    rw [List.getElem?_eq_getElem hi, List.getElem?_eq_getElem hj] at heq
    have := hinj i j (by omega) (by omega)
      (by rw [List.getD_eq_getElem _ _ hi, List.getD_eq_getElem _ _ hj]; exact Option.some.inj heq)
    omega
  have hsub : m ⊆ List.range n := by
    intro x hx
    obtain ⟨i, hi, rfl⟩ := List.getElem_of_mem hx
    have := hb i (by omega)
    rw [List.getD_eq_getElem _ _ hi] at this
    simpa using this
  exact (List.subperm_of_subset hnd hsub).perm_of_length_le (by simp [hlen])

theorem claimed_map_perm (m m2 : List Nat) (n a i0 p : Nat) (hperm : m.Perm (List.range n))
    (hi0 : i0 < a) (ha : a ≤ n) (hp : m.getD i0 0 = p) (hlen : m2.length = m.length)
    (h2 : ∀ l, m2.getD l 0 = claimed_map m i0 a p l) : m2.Perm (List.range n) := by
  obtain ⟨hl, hb, hinj, -⟩ := perm_range_facts m n hperm
  have key : ∀ l, l < n → ∃ s, s < n ∧ m2.getD l 0 = m.getD s 0 ∧
      s = (if l = a - 1 then i0 else if i0 ≤ l ∧ l < a - 1 then l + 1 else l) := by
    intro l hln
    rw [h2 l]
    unfold claimed_map
    by_cases c1 : l = a - 1
    · exact ⟨i0, by omega, by rw [if_pos c1, hp], by rw [if_pos c1]⟩
    · by_cases c2 : i0 ≤ l ∧ l < a - 1
      · exact ⟨l + 1, by omega, by rw [if_neg c1, if_pos c2], by rw [if_neg c1, if_pos c2]⟩
      · exact ⟨l, hln, by rw [if_neg c1, if_neg c2], by rw [if_neg c1, if_neg c2]⟩
  apply perm_range_of_pointwise m2 n (by omega)
  · intro l hln
    obtain ⟨s, hs, he, -⟩ := key l hln
    rw [he]
    exact hb s hs
  · intro l l2 hln hln2 heq
    obtain ⟨s, hs, he, hs2⟩ := key l hln
    obtain ⟨t, ht, he2, ht2⟩ := key l2 hln2
    rw [he, he2] at heq
    have hst := hinj s t hs ht heq
    subst hst
    rw [hs2] at ht2
    split_ifs at ht2 <;> omega

theorem modifyAt_getD_proj {α β : Type} [Inhabited α] (f : α → β) (g : α → α)
    (hfg : ∀ y, f (g y) = f y) (i x : Nat) (tbl : List α) :
    f ((modifyAt g i tbl).getD x default) = f (tbl.getD x default) := by
  apply getD_congr_map
  rw [modifyAt_getElem?]
  split
  · cases tbl[x]? <;> simp [hfg]
  · rfl

theorem swap_in_length (aux : List input_signal_t) (a b : Nat) :
    (swap_in aux a b).length = aux.length := by
  simp [swap_in, modifyAt_length]

theorem swap_out_length (aux : List output_signal_t) (a b : Nat) :
    (swap_out aux a b).length = aux.length := by
  simp [swap_out, modifyAt_length]

/-- Entry by entry, `swap_pins` exchanges two input descriptors and leaves each
description where it was. -/
theorem swap_in_getD (aux : List input_signal_t) (a b x : Nat) (ha : a < aux.length)
    (hb : b < aux.length) (hab : a ≠ b) :
    (swap_in aux a b).getD x default =
      if x = b then { aux.getD a default with description := (aux.getD b default).description }
      else if x = a then { aux.getD b default with description := (aux.getD a default).description }
      else aux.getD x default := by
  simp only [swap_in, List.getD_eq_getElem?_getD, List.getElem?_set, modifyAt_getElem?,
    modifyAt_length, List.length_set]
  by_cases h1 : x = b
  · subst h1
    simp [ha, hb, hab, List.getElem?_eq_getElem]
  · by_cases h2 : x = a
    · subst h2
      simp [hb, hab, Ne.symm hab, List.getElem?_eq_getElem, ha]
    · simp [h1, h2, Ne.symm h1, Ne.symm h2]

/-- Entry by entry, `swap_pins` exchanges two output descriptors and leaves each
description where it was. -/
theorem swap_out_getD (aux : List output_signal_t) (a b x : Nat) (ha : a < aux.length)
    (hb : b < aux.length) (hab : a ≠ b) :
    (swap_out aux a b).getD x default =
      if x = b then { aux.getD a default with description := (aux.getD b default).description }
      else if x = a then { aux.getD b default with description := (aux.getD a default).description }
      else aux.getD x default := by
  simp only [swap_out, List.getD_eq_getElem?_getD, List.getElem?_set, modifyAt_getElem?,
    modifyAt_length, List.length_set]
  by_cases h1 : x = b
  · subst h1
    simp [ha, hb, hab, List.getElem?_eq_getElem]
  · by_cases h2 : x = a
    · subst h2
      simp [hb, hab, Ne.symm hab, List.getElem?_eq_getElem, ha]
    · simp [h1, h2, Ne.symm h1, Ne.symm h2]

/-- What `swap_pins` does on the input side: the exchange is made when the two
ports differ, are in range and carry no callback, and the flag is `false`
whenever the ports differ. -/
theorem swap_pins_input (st : State) (a b : Nat) :
    swap_pins st Port_Digital Port_Input a b =
      if a = b then (true, st)
      else if a < st.n_in ∧ b < st.n_in ∧ (st.aux_in.getD a default).interrupt_callback = none ∧
          (st.aux_in.getD b default).interrupt_callback = none then
        (false, { st with aux_in := swap_in st.aux_in a b })
      else (false, st) := by
  have hio : (Port_Input == Port_Output) = false := rfl
  have hoi : (Port_Output == Port_Input) = false := rfl
  unfold swap_pins
  simp only [State.n_in, State.n_out]
  by_cases hab : a = b
  · simp [-List.getD_eq_getElem?_getD, hio, hoi, State.n_out, State.n_in, hab]
  · by_cases h1 : a < st.aux_in.length ∧ b < st.aux_in.length ∧
        (st.aux_in.getD a default).interrupt_callback = none ∧
        (st.aux_in.getD b default).interrupt_callback = none
    · obtain ⟨h1a, h1b, h1c, h1d⟩ := h1
      simp [-List.getD_eq_getElem?_getD, hio, hoi, State.n_out, State.n_in, hab, h1a, h1b, h1c, h1d]
    · simp only [hab, if_neg h1]
      simp only [not_and] at h1
      by_cases h1a : a < st.aux_in.length
      · by_cases h1b : b < st.aux_in.length
        · by_cases h1c : (st.aux_in.getD a default).interrupt_callback = none
          · have h1d := h1 h1a h1b h1c
            simp [-List.getD_eq_getElem?_getD, hio, hoi, State.n_out, State.n_in, hab, h1a, h1b, h1c, h1d]
          · simp [-List.getD_eq_getElem?_getD, hio, hoi, State.n_out, State.n_in, hab, h1a, h1b, h1c]
        · simp [-List.getD_eq_getElem?_getD, hio, hoi, State.n_out, State.n_in, hab, h1a, h1b]
      · simp [-List.getD_eq_getElem?_getD, hio, hoi, State.n_out, State.n_in, hab, h1a]

/-- What `swap_pins` does on the output side. -/
theorem swap_pins_output (st : State) (a b : Nat) :
    swap_pins st Port_Digital Port_Output a b =
      if a = b then (true, st)
      else if a < st.n_out ∧ b < st.n_out then
        (true, { st with aux_out := swap_out st.aux_out a b })
      else (false, st) := by
  have hio : (Port_Input == Port_Output) = false := rfl
  have hoi : (Port_Output == Port_Input) = false := rfl
  unfold swap_pins
  simp only [State.n_in, State.n_out]
  by_cases hab : a = b
  · simp [-List.getD_eq_getElem?_getD, hio, hoi, State.n_out, State.n_in, hab]
  · by_cases h1a : a < st.aux_out.length
    · by_cases h1b : b < st.aux_out.length
      · simp [-List.getD_eq_getElem?_getD, hio, hoi, State.n_out, State.n_in, hab, h1a, h1b]
      · simp [-List.getD_eq_getElem?_getD, hio, hoi, State.n_out, State.n_in, hab, h1a, h1b]
    · simp [-List.getD_eq_getElem?_getD, hio, hoi, State.n_out, State.n_in, hab, h1a]

/-- What `swap_pins` does for a port type other than digital. -/
theorem swap_pins_analog (st : State) (dir : io_port_direction_t) (a b : Nat) :
    swap_pins st Port_Analog dir a b = (decide (a = b), st) := by
  unfold swap_pins
  simp

/-- A call of `swap_pins` touches neither map nor counter nor table length, and
the claimed flags stay where they are unless two ports with different flags are
exchanged. -/
theorem swap_pins_views (st : State) (type : io_port_type_t) (dir dir2 : io_port_direction_t)
    (a b : Nat) :
    (swap_pins st type dir a b).2.map dir2 = st.map dir2 ∧
    (swap_pins st type dir a b).2.n_ports dir2 = st.n_ports dir2 ∧
    (swap_pins st type dir a b).2.available dir2 = st.available dir2 ∧
    (st.claimed dir a = st.claimed dir b →
      ∀ x, (swap_pins st type dir a b).2.claimed dir2 x = st.claimed dir2 x) := by
  cases type
  · rw [swap_pins_analog]
    exact ⟨rfl, rfl, rfl, fun _ _ => rfl⟩
  · cases dir
    · rw [swap_pins_input]
      split_ifs with hab h1
      · exact ⟨rfl, rfl, rfl, fun _ _ => rfl⟩
      · obtain ⟨ha, hb, -, -⟩ := h1
        cases dir2
        · refine ⟨rfl, ?_, rfl, ?_⟩
          · simp [State.n_ports, State.n_in, swap_in_length]
          · intro hcl x
            simp only [State.claimed] at hcl ⊢
            rw [swap_in_getD _ _ _ _ ha hb hab]
            split_ifs with c1 c2
            · subst c1; exact hcl
            · subst c2; exact hcl.symm
            · rfl
        · exact ⟨rfl, rfl, rfl, fun _ _ => rfl⟩
      · exact ⟨rfl, rfl, rfl, fun _ _ => rfl⟩
    · rw [swap_pins_output]
      split_ifs with hab h1
      · exact ⟨rfl, rfl, rfl, fun _ _ => rfl⟩
      · obtain ⟨ha, hb⟩ := h1
        cases dir2
        · exact ⟨rfl, rfl, rfl, fun _ _ => rfl⟩
        · refine ⟨rfl, ?_, rfl, ?_⟩
          · simp [State.n_ports, State.n_out, swap_out_length]
          · intro hcl x
            simp only [State.claimed] at hcl ⊢
            rw [swap_out_getD _ _ _ _ ha hb hab]
            split_ifs with c1 c2
            · subst c1; exact hcl
            · subst c2; exact hcl.symm
            · rfl
      · exact ⟨rfl, rfl, rfl, fun _ _ => rfl⟩

/-- A call of `set_pin_description` touches neither map nor counter nor table
length nor any claimed flag. -/
theorem set_pin_description_views (st : State) (type : io_port_type_t)
    (dir dir2 : io_port_direction_t) (p : Nat) (s : String) :
    (set_pin_description st type dir p s).map dir2 = st.map dir2 ∧
    (set_pin_description st type dir p s).n_ports dir2 = st.n_ports dir2 ∧
    (set_pin_description st type dir p s).available dir2 = st.available dir2 ∧
    (∀ x, (set_pin_description st type dir p s).claimed dir2 x = st.claimed dir2 x) := by
  have hin : ∀ (i x : Nat) (tbl : List input_signal_t),
      ((modifyAt (fun y : input_signal_t => { y with description := s }) i tbl).getD x
        default).mode.claimed = (tbl.getD x default).mode.claimed :=
    fun i x tbl => modifyAt_getD_proj (fun y : input_signal_t => y.mode.claimed)
      (fun y : input_signal_t => { y with description := s }) (fun _ => rfl) i x tbl
  have hout : ∀ (i x : Nat) (tbl : List output_signal_t),
      ((modifyAt (fun y : output_signal_t => { y with description := s }) i tbl).getD x
        default).mode.claimed = (tbl.getD x default).mode.claimed :=
    fun i x tbl => modifyAt_getD_proj (fun y : output_signal_t => y.mode.claimed)
      (fun y : output_signal_t => { y with description := s }) (fun _ => rfl) i x tbl
  have hio : (Port_Input == Port_Output) = false := rfl
  have hoi : (Port_Output == Port_Input) = false := rfl
  unfold set_pin_description
  cases type <;> cases dir <;> cases dir2 <;>
    simp only [State.map, State.n_ports, State.available, State.claimed, State.n_in,
      State.n_out] <;>
    split_ifs <;>
    simp [-List.getD_eq_getElem?_getD, modifyAt_length, hin, hout]

/-- The pool invariant only depends on the four views of a direction. -/
theorem PoolWF_of_views (st st2 : State) (dir : io_port_direction_t) (h : PoolWF st dir)
    (h1 : st2.map dir = st.map dir) (h2 : st2.n_ports dir = st.n_ports dir)
    (h3 : st2.available dir = st.available dir)
    (h4 : ∀ x, st2.claimed dir x = st.claimed dir x) : PoolWF st2 dir := by
  obtain ⟨m, hm, hperm, hn, ha, hb⟩ := h
  refine ⟨m, by rw [h1, hm], by rw [h2]; exact hperm, by rw [h2]; exact hn,
    by rw [h2, h3]; exact ha, ?_⟩
  intro l hl
  rw [h2] at hl
  rw [h3, h4]
  exact hb l hl

/-- In a well-formed pool an unclaimed in-range port sits below the available
count, at the position the reverse lookup finds. -/
theorem PoolWF_unclaimed_pos (st : State) (dir : io_port_direction_t) (m : List Nat) (p : Nat)
    (hm : st.map dir = some m) (h : PoolWF st dir) (hp : p < st.n_ports dir)
    (hcl : st.claimed dir p = false) :
    m.indexOf p < st.available dir ∧ m.getD (m.indexOf p) 0 = p ∧ m.length = st.n_ports dir := by
  obtain ⟨m2, hm2, hperm, hn, ha, hb⟩ := h
  rw [hm] at hm2
  cases hm2
  obtain ⟨hl, -, -, hidx⟩ := perm_range_facts m _ hperm
  obtain ⟨hi1, hi2⟩ := hidx p hp
  refine ⟨?_, hi2, hl⟩
  rw [hb _ hi1, hi2]
  exact hcl

/-- A call of `claim` keeps a well-formed pool well formed. -/
theorem claim_preserves_wf (st : State) (type : io_port_type_t) (dir dir2 : io_port_direction_t)
    (p : Nat) (d : String) (h : PoolWF st dir2) : PoolWF (claim st type dir p d).2.1 dir2 := by
  by_cases hc : type = Port_Analog ∨ dir2 ≠ dir
  · obtain ⟨h1, h2, h3, h4, -⟩ := claim_other_dir st type dir dir2 p d hc
    exact PoolWF_of_views st _ dir2 h h1 h2 h3 h4
  · have ht : type = Port_Digital := by
      cases type
      · exact absurd (Or.inl rfl) hc
      · rfl
    have hd : dir2 = dir := by
      by_contra hne
      exact hc (Or.inr hne)
    subst ht
    subst hd
    cases hflag : (claim st Port_Digital dir2 p d).1
    · rw [claim_fail_unchanged st _ _ p d hflag]
      exact h
    · rw [claim_digital_flag] at hflag
      simp only [Bool.and_eq_true, decide_eq_true_eq, Bool.not_eq_true', Option.isSome_iff_exists]
        at hflag
      obtain ⟨⟨⟨m, hm⟩, hp⟩, hcl⟩ := hflag
      obtain ⟨hi0, hpi, hlen⟩ := PoolWF_unclaimed_pos st dir2 m p hm h hp hcl
      obtain ⟨m0, hm0, hperm, hn, ha, hb⟩ := h
      rw [hm] at hm0
      cases hm0
      obtain ⟨-, hbd, hinj, -⟩ := perm_range_facts m _ hperm
      obtain ⟨-, -, e3, e4, ⟨m2, e5, e6, e7⟩, e8, -, -⟩ :=
        claim_effect st dir2 p d m hm hp hcl (by omega) (by omega) (by omega) hi0
      refine ⟨m2, e5, ?_, by rw [e4]; exact hn, by rw [e3, e4]; omega, ?_⟩
      · rw [e4]
        exact claimed_map_perm m m2 _ _ _ p hperm hi0 ha hpi e6 e7
      · intro l hl
        rw [e4] at hl
        rw [e3, e8, e7]
        unfold claimed_map
        by_cases c1 : l = st.available dir2 - 1
        · rw [if_pos c1, if_pos rfl]
          simp
          omega
        · rw [if_neg c1]
          by_cases c2 : m.indexOf p ≤ l ∧ l < st.available dir2 - 1
          · rw [if_pos c2]
            have hne : m.getD (l + 1) 0 ≠ p := by
              intro he
              rw [← hpi] at he
              have := hinj (l + 1) (m.indexOf p) (by omega) (by omega) he
              omega
            rw [if_neg hne, ← hb (l + 1) (by omega)]
            omega
          · rw [if_neg c2]
            have hne : m.getD l 0 ≠ p := by
              intro he
              rw [← hpi] at he
              have := hinj l (m.indexOf p) hl (by omega) he
              omega
            rw [if_neg hne, ← hb l hl]
            omega

/-- A call that does not move a claimed flag keeps a well-formed pool well
formed. -/
theorem exec_preserves_wf (st : State) (op : Op) (dir : io_port_direction_t)
    (h : PoolWF st dir) (hk : op.movesClaim st = false) : PoolWF (exec st op) dir := by
  cases op with
  | claim type d p s => exact claim_preserves_wf st type d dir p s h
  | swap_pins type d a b =>
    obtain ⟨h1, h2, h3, h4⟩ := swap_pins_views st type d dir a b
    simp only [Op.movesClaim, bne_eq_false_iff_eq] at hk
    exact PoolWF_of_views st _ dir h h1 h2 h3 (h4 hk)
  | set_pin_description type d p s =>
    obtain ⟨h1, h2, h3, h4⟩ := set_pin_description_views st type d dir p s
    exact PoolWF_of_views st _ dir h h1 h2 h3 h4

/-- A freshly initialized state has well-formed pools. -/
theorem Initialized_wf (st : State) (h : Initialized st) (dir : io_port_direction_t) :
    PoolWF st dir := by
  obtain ⟨h1, h2, h3, h4, h5, h6, h7, h8⟩ := h
  cases dir
  · refine ⟨_, h1, List.Perm.refl _, h7, le_of_eq h3, ?_⟩
    intro l hl
    simp only [State.n_ports, State.available, State.claimed, State.n_in] at hl ⊢
    have hr : (List.range st.aux_in.length).getD l 0 = l := by
      rw [List.getD_eq_getElem _ _ (by simpa using hl)]
      simp
    rw [hr, List.getD_eq_getElem _ _ hl]
    have := h5 _ (List.getElem_mem hl)
    simp only [h3, State.n_in, hl, this]
  · refine ⟨_, h2, List.Perm.refl _, h8, le_of_eq h4, ?_⟩
    intro l hl
    simp only [State.n_ports, State.available, State.claimed, State.n_out] at hl ⊢
    have hr : (List.range st.aux_out.length).getD l 0 = l := by
      rw [List.getD_eq_getElem _ _ (by simpa using hl)]
      simp
    rw [hr, List.getD_eq_getElem _ _ hl]
    have := h6 _ (List.getElem_mem hl)
    simp only [h4, State.n_out, hl, this]

/-- Well-formed pools stay well formed along a sequence of calls none of which
moves a claimed flag. -/
theorem run_preserves_wf (ops : List Op) : ∀ (st : State), (∀ dir, PoolWF st dir) →
    KeepsClaims st ops = true → ∀ dir, PoolWF (run st ops) dir := by
  induction ops with
  | nil => intro st h _ dir; exact h dir
  | cons op ops ih =>
    intro st h hk dir
    simp only [KeepsClaims, Bool.and_eq_true, Bool.not_eq_true'] at hk
    obtain ⟨hk1, hk2⟩ := hk
    exact ih (exec st op) (fun d => exec_preserves_wf st op d (h d) hk1) hk2 dir

/-- A sequence of `claim` calls moves no claimed flag. -/
theorem KeepsClaims_of_claims (ops : List Op) : ∀ (st : State),
    (∀ op ∈ ops, op.isClaim = true) → KeepsClaims st ops = true := by
  induction ops with
  | nil => intro st _; rfl
  | cons op ops ih =>
    intro st h
    simp only [KeepsClaims, Bool.and_eq_true, Bool.not_eq_true']
    refine ⟨?_, ih _ (fun o ho => h o (List.mem_cons_of_mem _ ho))⟩
    have := h op (List.mem_cons_self _ _)
    cases op <;> simp_all [Op.isClaim, Op.movesClaim]

/-- A well-formed pool satisfies the pool invariant of the spec. -/
theorem PoolWF_invariant (st : State) (dir : io_port_direction_t) (h : PoolWF st dir) :
    PoolInvariant st dir := by
  obtain ⟨m, hm, hperm, -, -, hb⟩ := h
  unfold PoolInvariant
  rw [hm]
  exact ⟨hperm, hb⟩

/-! ## C1: the flag returned by `swap_pins` -/

/-- C1 (defect of the code).  On two different in-range input ports without a
registered callback `swap_pins` exchanges the two descriptors and all the same
returns `false`: the input branch sets `ok`, and the test of the output branch
that follows (an `if`, not an `else if`) overwrites it.  The same call on the
output side returns `true`. -/
theorem swap_pins_input_exchanges_and_returns_false :
    (0 : Nat) ≠ 1 ∧ 0 < demo3.n_in ∧ 1 < demo3.n_in ∧
    (demo3.aux_in.getD 0 default).interrupt_callback = none ∧
    (demo3.aux_in.getD 1 default).interrupt_callback = none ∧
    (swap_pins demo3 Port_Digital Port_Input 0 1).1 = false ∧
    (swap_pins demo3 Port_Digital Port_Input 0 1).2.aux_in =
      [demo_input 1, demo_input 0, demo_input 2] ∧
    (swap_pins demo3 Port_Digital Port_Input 0 1).2.aux_in ≠ demo3.aux_in ∧
    (swap_pins demo3 Port_Digital Port_Output 0 1).1 = true := by
  decide

/-! ## C2: what a successful `claim` does -/

theorem getElem?_of_getD_eq (m m2 : List Nat) (l l2 : Nat) (h : m2.getD l 0 = m.getD l2 0)
    (h1 : l < m2.length) (h2 : l2 < m.length) : m2[l]? = m[l2]? := by
  rw [List.getD_eq_getElem _ _ h1, List.getD_eq_getElem _ _ h2] at h
  rw [List.getElem?_eq_getElem h1, List.getElem?_eq_getElem h2, h]

/-- C2.  A `claim` of a port `p` that is below the port count, not claimed and
at position `i0` of the map, `i0` below the available count, in a pool whose
map is a permutation of the physical slots: it returns `true`; the available
count drops by one; the index written back is the new available count; the
entries of positions `i0 + 1 .. available - 1` move down by one while the
positions below `i0` and from the old available count on keep their entries;
the entry at the new available count is `p`; every moved port is relabelled
with the default label of its new index; `p` is marked claimed and carries the
description of the caller. -/
theorem claim_success (st : State) (dir : io_port_direction_t) (p i0 : Nat)
    (description : String) (m : List Nat)
    (hmap : st.map dir = some m) (hperm : m.Perm (List.range (st.n_ports dir)))
    (hn : st.n_ports dir ≤ 255) (ha : st.available dir ≤ st.n_ports dir)
    (hp : p < st.n_ports dir) (hcl : st.claimed dir p = false)
    (hpos : m[i0]? = some p) (hi0 : i0 < st.available dir) :
    (claim st Port_Digital dir p description).1 = true ∧
    (claim st Port_Digital dir p description).2.1.available dir + 1 = st.available dir ∧
    (claim st Port_Digital dir p description).2.2 =
      (claim st Port_Digital dir p description).2.1.available dir ∧
    (∃ m2, (claim st Port_Digital dir p description).2.1.map dir = some m2 ∧
      m2.length = m.length ∧
      (∀ l, l < i0 → m2[l]? = m[l]?) ∧
      (∀ l, i0 ≤ l → l + 1 < st.available dir → m2[l]? = m[l + 1]?) ∧
      (∀ l, st.available dir ≤ l → m2[l]? = m[l]?) ∧
      m2[st.available dir - 1]? = some p) ∧
    (∀ l q, i0 ≤ l → l + 1 < st.available dir → m[l + 1]? = some q →
      (claim st Port_Digital dir p description).2.1.description dir q = st.pnum l) ∧
    (claim st Port_Digital dir p description).2.1.claimed dir p = true ∧
    (claim st Port_Digital dir p description).2.1.description dir p = description := by
  obtain ⟨hlen, hbd, hinj, -⟩ := perm_range_facts m _ hperm
  have hnd : m.Nodup := hperm.nodup_iff.mpr (List.nodup_range _)
  have hi0l : i0 < m.length := by omega
  have hmi : m[i0] = p := by
    rw [List.getElem?_eq_getElem hi0l] at hpos
    exact Option.some.inj hpos
  have hidx : m.indexOf p = i0 := by
    rw [← hmi]
    exact List.indexOf_getElem hnd i0 hi0l
  have hpi : m.getD i0 0 = p := by
    rw [List.getD_eq_getElem _ _ hi0l, hmi]
  obtain ⟨e1, e2, e3, e4, ⟨m2, e5, e6, e7⟩, e8, e9, e10⟩ :=
    claim_effect st dir p description m hmap hp hcl (by omega) (by omega) (by omega)
      (by rw [hidx]; exact hi0)
  rw [hidx] at e7 e10
  refine ⟨e1, by rw [e3]; omega, by rw [e2, e3], ⟨m2, e5, e6, ?_, ?_, ?_, ?_⟩, ?_, ?_, e9⟩
  · intro l hl
    apply getElem?_of_getD_eq m m2 l l _ (by omega) (by omega)
    rw [e7]
    unfold claimed_map
    rw [if_neg (by omega), if_neg (by omega)]
  · intro l hl1 hl2
    apply getElem?_of_getD_eq m m2 l (l + 1) _ (by omega) (by omega)
    rw [e7]
    unfold claimed_map
    rw [if_neg (by omega), if_pos (by omega)]
  · intro l hl
    by_cases hln : l < m.length
    · apply getElem?_of_getD_eq m m2 l l _ (by omega) hln
      rw [e7]
      unfold claimed_map
      rw [if_neg (by omega), if_neg (by omega)]
    · rw [List.getElem?_eq_none (by omega), List.getElem?_eq_none (by omega)]
  · have h1 : st.available dir - 1 < m2.length := by omega
    rw [List.getElem?_eq_getElem h1, ← List.getD_eq_getElem _ 0 h1, e7]
    unfold claimed_map
    rw [if_pos rfl]
  · intro l q hl1 hl2 hq
    have hl3 : l + 1 < m.length := by omega
    have hq2 : m.getD (l + 1) 0 = q := by
      rw [List.getD_eq_getElem _ _ hl3]
      rw [List.getElem?_eq_getElem hl3] at hq
      exact Option.some.inj hq
    rw [← hq2]
    apply e10
    · intro j j2 hj1 hj2 hj3 hj4 heq
      have := hinj (j + 1) (j2 + 1) (by omega) (by omega) heq
      omega
    · exact hl1
    · omega
    · exact hbd _ (by omega)
    · intro he
      rw [← hpi] at he
      have := hinj (l + 1) i0 (by omega) (by omega) he
      omega
  · rw [e8, if_pos rfl]

/-- Witness for C2: claiming output port 1 of three fresh output ports. -/
theorem claim_success_witness :
    (claim demo3 Port_Digital Port_Output 1 "probe").1 = true ∧
    (claim demo3 Port_Digital Port_Output 1 "probe").2.2 = 2 ∧
    (claim demo3 Port_Digital Port_Output 1 "probe").2.1.map Port_Output = some [0, 2, 1] ∧
    (claim demo3 Port_Digital Port_Output 1 "probe").2.1.description Port_Output 2 = "P1" := by
  have h := claim_success demo3 Port_Output 1 1 "probe" [0, 1, 2] rfl (by decide) (by decide)
    (by decide) (by decide) rfl rfl (by decide)
  exact ⟨h.1, by decide, by decide, h.2.2.2.2.1 1 2 (by decide) (by decide) rfl⟩

/-! ## C3: the pool invariant along sequences of calls -/

/-- C3 (the claim as stated fails).  From three fresh output ports, claiming
port 0 and then exchanging slots 0 and 1 with `swap_pins` leaves the map
`[1, 2, 0]` with two ports available while the claimed flag now sits on slot 1:
position 0, below the available count, holds a claimed port, and the claimed
flag is gone from the slot at position 2.  The pool invariant is broken in a
state reached by the exposed operations. -/
theorem claim_then_swap_breaks_pool_invariant :
    Initialized demo3 ∧
    (run demo3 [.claim Port_Digital Port_Output 0 "probe",
                .swap_pins Port_Digital Port_Output 0 1]).map Port_Output = some [1, 2, 0] ∧
    (run demo3 [.claim Port_Digital Port_Output 0 "probe",
                .swap_pins Port_Digital Port_Output 0 1]).available Port_Output = 2 ∧
    (run demo3 [.claim Port_Digital Port_Output 0 "probe",
                .swap_pins Port_Digital Port_Output 0 1]).claimed Port_Output 1 = true ∧
    (run demo3 [.claim Port_Digital Port_Output 0 "probe",
                .swap_pins Port_Digital Port_Output 0 1]).claimed Port_Output 0 = false ∧
    ¬ PoolInvariant (run demo3 [.claim Port_Digital Port_Output 0 "probe",
                                .swap_pins Port_Digital Port_Output 0 1]) Port_Output := by
  decide

/-- C3 (amended).  In every state reached from initialization by a sequence of
`claim`, `swap_pins` and `set_pin_description` calls in which `swap_pins` is
never applied to two ports whose claimed flags differ, for each direction the
map is a permutation of all physical slots and the logical indices below the
available count are exactly the positions holding unclaimed ports. -/
theorem pool_invariant_reachable (st : State) (ops : List Op) (hinit : Initialized st)
    (hkeep : KeepsClaims st ops = true) (dir : io_port_direction_t) :
    PoolInvariant (run st ops) dir :=
  PoolWF_invariant _ dir (run_preserves_wf ops st (Initialized_wf st hinit) hkeep dir)

/-- Witness for C3 (amended): a claim, a swap of two unclaimed ports, a relabel
and a second claim. -/
theorem pool_invariant_reachable_witness :
    PoolInvariant (run demo3 [.claim Port_Digital Port_Output 0 "probe",
                              .swap_pins Port_Digital Port_Output 1 2,
                              .set_pin_description Port_Digital Port_Output 0 "spare",
                              .claim Port_Digital Port_Output 2 "relay"]) Port_Output :=
  pool_invariant_reachable demo3 _ (by decide) (by decide) Port_Output

/-! ## C4: when `claim` fails -/

/-- A call of `claim` never clears a claimed flag. -/
theorem claim_keeps_claimed (st : State) (type : io_port_type_t) (dir dir2 : io_port_direction_t)
    (p x : Nat) (d : String) (h : st.claimed dir2 x = true) :
    (claim st type dir p d).2.1.claimed dir2 x = true := by
  have hin := fun q => claim_shift_aux_proj input_signal_t.setDescription st.pnum
      ((st.num_digital_in + 255) % 256) (fun y => y.mode.claimed) (fun _ _ => rfl)
      ((st.num_digital_in + 255) % 256 - ioports_map_reverse st.in_map p)
      (ioports_map_reverse st.in_map p) (st.in_map.getD []) st.aux_in q
  have hout := fun q => claim_shift_aux_proj output_signal_t.setDescription st.pnum
      ((st.num_digital_out + 255) % 256) (fun y => y.mode.claimed) (fun _ _ => rfl)
      ((st.num_digital_out + 255) % 256 - ioports_map_reverse st.out_map p)
      (ioports_map_reverse st.out_map p) (st.out_map.getD []) st.aux_out q
  cases type <;> cases dir <;> cases dir2 <;>
    simp only [claim, State.claimed] at h ⊢ <;> split <;> try exact h
  · -- digital input on input
    simp only [List.getD_eq_getElem?_getD, modifyAt_getElem?] at h ⊢
    have := hin x
    revert this h
    cases st.aux_in[x]? <;>
      cases (claim_shift input_signal_t.setDescription st.pnum ((st.num_digital_in + 255) % 256)
        ((st.num_digital_in + 255) % 256 - ioports_map_reverse st.in_map p)
        (ioports_map_reverse st.in_map p) (st.in_map.getD []) st.aux_in).2[x]? <;>
      by_cases hx : p = x <;>
      (simp [hx, input_signal_t.setDescription]; try (intro h1 h2; simp_all))
  · -- digital output on output
    simp only [List.getD_eq_getElem?_getD, modifyAt_getElem?] at h ⊢
    have := hout x
    revert this h
    cases st.aux_out[x]? <;>
      cases (claim_shift output_signal_t.setDescription st.pnum ((st.num_digital_out + 255) % 256)
        ((st.num_digital_out + 255) % 256 - ioports_map_reverse st.out_map p)
        (ioports_map_reverse st.out_map p) (st.out_map.getD []) st.aux_out).2[x]? <;>
      by_cases hx : p = x <;>
      (simp [hx, output_signal_t.setDescription]; try (intro h1 h2; simp_all))

/-- A successful digital `claim` sets the claimed flag of its port. -/
theorem claim_sets_claimed (st : State) (dir : io_port_direction_t) (p : Nat) (d : String)
    (h : (claim st Port_Digital dir p d).1 = true) :
    (claim st Port_Digital dir p d).2.1.claimed dir p = true := by
  have hin := claim_shift_aux_length input_signal_t.setDescription st.pnum
      ((st.num_digital_in + 255) % 256)
      ((st.num_digital_in + 255) % 256 - ioports_map_reverse st.in_map p)
      (ioports_map_reverse st.in_map p) (st.in_map.getD []) st.aux_in
  have hout := claim_shift_aux_length output_signal_t.setDescription st.pnum
      ((st.num_digital_out + 255) % 256)
      ((st.num_digital_out + 255) % 256 - ioports_map_reverse st.out_map p)
      (ioports_map_reverse st.out_map p) (st.out_map.getD []) st.aux_out
  cases dir <;> simp only [claim, State.claimed] at h ⊢ <;> split
  · rename_i hg
    simp only [Bool.and_eq_true, decide_eq_true_eq, State.n_in] at hg
    simp only [List.getD_eq_getElem?_getD, modifyAt_getElem?, if_true]
    rw [List.getElem?_eq_getElem (by rw [hin]; exact hg.1.2)]
    simp [input_signal_t.setDescription]
  · rename_i hg
    rw [if_neg hg] at h
    cases h
  · rename_i hg
    simp only [Bool.and_eq_true, decide_eq_true_eq, State.n_out] at hg
    simp only [List.getD_eq_getElem?_getD, modifyAt_getElem?, if_true]
    rw [List.getElem?_eq_getElem (by rw [hout]; exact hg.1.2)]
    simp [output_signal_t.setDescription]
  · rename_i hg
    rw [if_neg hg] at h
    cases h

/-- A claimed flag survives every sequence of `claim` calls. -/
theorem run_claims_keeps_claimed (ops : List Op) : ∀ (st : State) (dir : io_port_direction_t)
    (x : Nat), (∀ op ∈ ops, op.isClaim = true) → st.claimed dir x = true →
    (run st ops).claimed dir x = true := by
  induction ops with
  | nil => intro st dir x _ h; exact h
  | cons op ops ih =>
    intro st dir x hc h
    have h1 := hc op (List.mem_cons_self _ _)
    cases op with
    | claim type d p s =>
      exact ih _ dir x (fun o ho => hc o (List.mem_cons_of_mem _ ho))
        (claim_keeps_claimed st type d dir p x s h)
    | swap_pins type d a b => simp [Op.isClaim] at h1
    | set_pin_description type d p s => simp [Op.isClaim] at h1

/-- C4.  For either direction a digital `claim` fails exactly when the port is
not below the port count, or is already claimed, or the direction has no map;
a failed `claim` leaves the whole state (map, available count, claimed flags,
descriptions) and the port variable of the caller as they were; and after a
successful `claim` of a port every later `claim` of the same port fails,
whatever `claim` calls were made in between. -/
theorem claim_failure (st : State) (dir : io_port_direction_t) (p : Nat) (d : String) :
    ((claim st Port_Digital dir p d).1 = false ↔
      (¬ p < st.n_ports dir ∨ st.claimed dir p = true ∨ st.map dir = none)) ∧
    ((claim st Port_Digital dir p d).1 = false →
      (claim st Port_Digital dir p d).2.1 = st ∧ (claim st Port_Digital dir p d).2.2 = p) ∧
    ((claim st Port_Digital dir p d).1 = true →
      ∀ (ops : List Op) (d2 : String), (∀ op ∈ ops, op.isClaim = true) →
        (claim (run (claim st Port_Digital dir p d).2.1 ops) Port_Digital dir p d2).1 = false) := by
  refine ⟨?_, ?_, ?_⟩
  · rw [claim_digital_flag]
    cases st.map dir <;> cases st.claimed dir p <;> by_cases hp : p < st.n_ports dir <;> simp [hp]
  · intro h
    have := claim_fail_unchanged st Port_Digital dir p d h
    rw [this]
    exact ⟨rfl, rfl⟩
  · intro h ops d2 hops
    have h1 := claim_sets_claimed st dir p d h
    have h2 := run_claims_keeps_claimed ops _ dir p hops h1
    rw [claim_digital_flag, h2]
    simp

/-- Witness for C4: after output port 1 was claimed, and two more `claim`
calls were made, claiming port 1 again fails. -/
theorem claim_failure_witness :
    (claim demo3 Port_Digital Port_Output 1 "probe").1 = true ∧
    (claim (run (claim demo3 Port_Digital Port_Output 1 "probe").2.1
      [.claim Port_Digital Port_Output 0 "relay", .claim Port_Digital Port_Input 1 "door"])
      Port_Digital Port_Output 1 "again").1 = false :=
  ⟨by decide, (claim_failure demo3 Port_Output 1 "probe").2.2 (by decide) _ "again" (by decide)⟩

/-! ## C5: the index returned by `claim` is permanent -/

/-- A `claim` call on a well-formed pool leaves every map entry at or above the
available count where it is, and the available count does not grow. -/
theorem claim_keeps_above (st : State) (type : io_port_type_t) (dir dir2 : io_port_direction_t)
    (p k : Nat) (d : String) (h : PoolWF st dir2) (hk : st.available dir2 ≤ k) :
    (claim st type dir p d).2.1.available dir2 ≤ k ∧
    ioports_map ((claim st type dir p d).2.1.map dir2) k = ioports_map (st.map dir2) k := by
  by_cases hc : type = Port_Analog ∨ dir2 ≠ dir
  · obtain ⟨h1, -, h3, -, -⟩ := claim_other_dir st type dir dir2 p d hc
    rw [h1, h3]
    exact ⟨hk, rfl⟩
  · have ht : type = Port_Digital := by
      cases type
      · exact absurd (Or.inl rfl) hc
      · rfl
    have hd : dir2 = dir := by
      by_contra hne
      exact hc (Or.inr hne)
    subst ht
    subst hd
    cases hflag : (claim st Port_Digital dir2 p d).1
    · rw [claim_fail_unchanged st _ _ p d hflag]
      exact ⟨hk, rfl⟩
    · rw [claim_digital_flag] at hflag
      simp only [Bool.and_eq_true, decide_eq_true_eq, Bool.not_eq_true', Option.isSome_iff_exists]
        at hflag
      obtain ⟨⟨⟨m, hm⟩, hp⟩, hcl⟩ := hflag
      obtain ⟨hi0, hpi, hlen⟩ := PoolWF_unclaimed_pos st dir2 m p hm h hp hcl
      obtain ⟨m0, hm0, hperm, hn, ha, hb⟩ := h
      obtain ⟨-, -, e3, -, ⟨m2, e5, -, e7⟩, -, -, -⟩ :=
        claim_effect st dir2 p d m hm hp hcl (by omega) (by omega) (by omega) hi0
      refine ⟨by rw [e3]; omega, ?_⟩
      rw [e5, hm]
      simp only [ioports_map]
      rw [e7]
      unfold claimed_map
      rw [if_neg (by omega), if_neg (by omega)]

/-- A sequence of `claim` calls on well-formed pools leaves every map entry at
or above the available count where it is. -/
theorem run_claims_keeps_above (ops : List Op) : ∀ (st : State) (dir : io_port_direction_t)
    (k : Nat), (∀ op ∈ ops, op.isClaim = true) → PoolWF st dir → st.available dir ≤ k →
    ioports_map ((run st ops).map dir) k = ioports_map (st.map dir) k := by
  induction ops with
  | nil => intro st dir k _ _ _; rfl
  | cons op ops ih =>
    intro st dir k hc hwf hk
    have h1 := hc op (List.mem_cons_self _ _)
    cases op with
    | claim type d p s =>
      obtain ⟨h2, h3⟩ := claim_keeps_above st type d dir p k s hwf hk
      have := ih (claim st type d p s).2.1 dir k (fun o ho => hc o (List.mem_cons_of_mem _ ho))
        (claim_preserves_wf st type d dir p s hwf) h2
      simp only [run, List.foldl_cons, exec] at this ⊢
      rw [this, h3]
    | swap_pins type d a b => simp [Op.isClaim] at h1
    | set_pin_description type d p s => simp [Op.isClaim] at h1

/-- C5.  The index returned by a successful `claim` is a permanent address: in
a state reached from initialization by `claim` calls, if `claim` of port `p`
succeeds and writes back the index `k`, then after every later sequence of
`claim` calls (successful or failed, on either direction) the map of that
direction still sends `k` to `p`, which is the slot `digital_out`,
`wait_on_input` and `get_pin_info` resolve `k` to. -/
theorem claimed_index_permanent (st0 : State) (ops0 ops : List Op) (dir : io_port_direction_t)
    (p : Nat) (d : String) (hinit : Initialized st0) (h0 : ∀ op ∈ ops0, op.isClaim = true)
    (hops : ∀ op ∈ ops, op.isClaim = true)
    (hok : (claim (run st0 ops0) Port_Digital dir p d).1 = true) :
    ioports_map ((run (claim (run st0 ops0) Port_Digital dir p d).2.1 ops).map dir)
      (claim (run st0 ops0) Port_Digital dir p d).2.2 = p := by
  have hwf : PoolWF (run st0 ops0) dir :=
    run_preserves_wf ops0 st0 (Initialized_wf st0 hinit) (KeepsClaims_of_claims ops0 st0 h0) dir
  have hwf2 := claim_preserves_wf (run st0 ops0) Port_Digital dir dir p d hwf
  have hflag := hok
  rw [claim_digital_flag] at hflag
  simp only [Bool.and_eq_true, decide_eq_true_eq, Bool.not_eq_true', Option.isSome_iff_exists]
    at hflag
  obtain ⟨⟨⟨m, hm⟩, hp⟩, hcl⟩ := hflag
  obtain ⟨hi0, hpi, hlen⟩ := PoolWF_unclaimed_pos _ dir m p hm hwf hp hcl
  obtain ⟨m0, hm0, hperm, hn, ha, hb⟩ := hwf
  obtain ⟨-, e2, e3, -, ⟨m2, e5, -, e7⟩, -, -, -⟩ :=
    claim_effect (run st0 ops0) dir p d m hm hp hcl (by omega) (by omega) (by omega) hi0
  rw [run_claims_keeps_above ops _ dir _ hops hwf2 (by rw [e2, e3]), e5, e2]
  simp only [ioports_map]
  rw [e7]
  unfold claimed_map
  rw [if_pos rfl]

/-- Witness for C5: output port 0 is claimed after another claim and receives
index 1; two later claims leave index 1 on port 0. -/
theorem claimed_index_permanent_witness :
    (claim (run demo3 [.claim Port_Digital Port_Output 2 "relay"]) Port_Digital Port_Output 0
      "probe").2.2 = 1 ∧
    ioports_map ((run (claim (run demo3 [.claim Port_Digital Port_Output 2 "relay"]) Port_Digital
      Port_Output 0 "probe").2.1
        [.claim Port_Digital Port_Output 1 "door", .claim Port_Digital Port_Input 0 "limit"]).map
        Port_Output)
      (claim (run demo3 [.claim Port_Digital Port_Output 2 "relay"]) Port_Digital Port_Output 0
        "probe").2.2 = 0 :=
  ⟨by decide, claimed_index_permanent demo3 _ _ Port_Output 0 "probe" (by decide) (by decide)
    (by decide) (by decide)⟩

/-! ## C6: the map and its reverse lookup -/

/-- C6.  In every state reached from initialization by `claim` calls, for each
direction the map and its reverse lookup are inverse to each other over the
whole map: the reverse lookup of the entry at a logical index below the port
count is that index, and the entry at the reverse lookup of a physical slot
below the port count is that slot. -/
theorem map_reverse_inverse (st0 : State) (ops : List Op) (dir : io_port_direction_t)
    (hinit : Initialized st0) (hops : ∀ op ∈ ops, op.isClaim = true) :
    (∀ l, l < (run st0 ops).n_ports dir →
      ioports_map_reverse ((run st0 ops).map dir) (ioports_map ((run st0 ops).map dir) l) = l) ∧
    (∀ s, s < (run st0 ops).n_ports dir →
      ioports_map ((run st0 ops).map dir) (ioports_map_reverse ((run st0 ops).map dir) s) = s) := by
  obtain ⟨m, hm, hperm, -, -, -⟩ :=
    run_preserves_wf ops st0 (Initialized_wf st0 hinit) (KeepsClaims_of_claims ops st0 hops) dir
  obtain ⟨hlen, -, -, hidx⟩ := perm_range_facts m _ hperm
  have hnd : m.Nodup := hperm.nodup_iff.mpr (List.nodup_range _)
  rw [hm]
  simp only [ioports_map, ioports_map_reverse]
  refine ⟨?_, fun s hs => (hidx s hs).2⟩
  intro l hl
  have hl2 : l < m.length := by omega
  rw [List.getD_eq_getElem _ _ hl2]
  exact List.indexOf_getElem hnd l hl2

/-- Witness for C6: after two claims on three output ports the map is
`[1, 0, 2]`; looking up index 0 and back gives 0. -/
theorem map_reverse_inverse_witness :
    (run demo3 [.claim Port_Digital Port_Output 2 "relay",
                .claim Port_Digital Port_Output 0 "probe"]).map Port_Output = some [1, 0, 2] ∧
    ioports_map_reverse
      ((run demo3 [.claim Port_Digital Port_Output 2 "relay",
                   .claim Port_Digital Port_Output 0 "probe"]).map Port_Output)
      (ioports_map
        ((run demo3 [.claim Port_Digital Port_Output 2 "relay",
                     .claim Port_Digital Port_Output 0 "probe"]).map Port_Output) 0) = 0 :=
  ⟨by decide, (map_reverse_inverse demo3 _ Port_Output (by decide) (by decide)).1 0 (by decide)⟩

/-! ## Auxiliary facts about the edge loop of `get_input` -/

theorem testBit_and_not (x y i : Nat) :
    (and_not x y).testBit i = (x.testBit i && !y.testBit i) := by
  unfold and_not
  rw [Nat.testBit_xor, Nat.testBit_and]
  cases x.testBit i <;> cases y.testBit i <;> rfl

theorem and_not_and_self (x b : Nat) : and_not x b &&& b = 0 := by
  apply Nat.eq_of_testBit_eq
  intro i
  simp [testBit_and_not]

theorem or_and_eq_zero (x y b : Nat) (hx : x &&& b = 0) (hy : y &&& b = 0) :
    (x ||| y) &&& b = 0 := by
  rw [Nat.and_distrib_right, hx, hy]
  rfl

theorem or_and_ne_zero (x y b : Nat) (hy : y &&& b ≠ 0) : (x ||| y) &&& b ≠ 0 := by
  intro h
  apply hy
  apply Nat.eq_of_testBit_eq
  intro i
  have := congrArg (fun n => n.testBit i) h
  simp only [Nat.testBit_and, Nat.testBit_or, Nat.zero_testBit] at this ⊢
  cases hxi : x.testBit i <;> cases hyi : y.testBit i <;> cases hbi : b.testBit i <;> simp_all

/-- The edge loop when the event of the pin arrives in slot `k + j` and not
before, `sys.abort` stays clear and the budget covers `j + 1` tests: the test
of iteration `k + j` finds the bit and the loop stops there. -/
theorem edge_loop_event (env : WaitEnv) (bit : Nat) (invert : Bool)
    (ha : ∀ j, env.abort j = false) :
    ∀ (j delay k events : Nat), j + 1 ≤ delay → events &&& bit = 0 →
      (∀ i, i < j → env.irq (k + i) &&& bit = 0) → env.irq (k + j) &&& bit ≠ 0 →
      (edge_loop env bit invert delay k events).value =
        level_value (xor (env.level 0) invert) ∧
      (edge_loop env bit invert delay k events).tests = k + j + 1 ∧
      (edge_loop env bit invert delay k events).realtime_calls = k + j ∧
      (edge_loop env bit invert delay k events).delay_calls = k + j ∧
      (edge_loop env bit invert delay k events).reads = 1 := by
  intro j
  induction j with
  | zero =>
    intro delay k events _ _ _ hat
    have h1 : (events ||| env.irq k) &&& bit ≠ 0 := or_and_ne_zero _ _ _ hat
    unfold edge_loop
    simp only [h1, ne_eq, not_false_eq_true, if_true]
    exact ⟨trivial, trivial, rfl, rfl, trivial⟩
  | succ j ih =>
    intro delay k events hd he hbefore hat
    have h1 : (events ||| env.irq k) &&& bit = 0 :=
      or_and_eq_zero _ _ _ he (by simpa using hbefore 0 (by omega))
    obtain ⟨d, rfl⟩ : ∃ d, delay = d + 1 := ⟨delay - 1, by omega⟩
    unfold edge_loop
    simp only [h1, ne_eq, not_true_eq_false, if_false, ha k, and_true]
    have hd0 : d ≠ 0 := by omega
    simp only [hd0, not_false_eq_true, if_true]
    obtain ⟨i1, i2, i3, i4, i5⟩ := ih d (k + 1) (events ||| env.irq k) (by omega) h1
      (fun i hi => by
        have := hbefore (i + 1) (by omega)
        rwa [show k + (i + 1) = k + 1 + i by omega] at this)
      (by rwa [show k + (j + 1) = k + 1 + j by omega] at hat)
    exact ⟨i1, by rw [i2]; omega, by rw [i3]; omega, by rw [i4]; omega, i5⟩

/-- A value less than half a unit above an integer rounds to that integer. -/
theorem round_ties_even_of_lt (x : ℚ) (f : ℤ) (h1 : (f : ℚ) ≤ x) (h2 : 2 * (x - f) < 1) :
    round_ties_even x = f := by
  have hf : ⌊x⌋ = f := by
    rw [Int.floor_eq_iff]
    exact ⟨h1, by linarith⟩
  unfold round_ties_even
  rw [hf, if_pos h2]

/-- The spacing of the single-precision numbers in the binade of `x`. -/
theorem float_ulp_eq (x : ℚ) (e : ℤ) (h1 : (2 : ℚ) ^ e ≤ x) (h2 : x < (2 : ℚ) ^ (e + 1))
    (he : -126 ≤ e) : float_ulp x = (2 : ℚ) ^ (e - 23) := by
  have hx : 0 < x := lt_of_lt_of_le (zpow_pos (by norm_num) e) h1
  have hlog : Int.log 2 x = e := by
    apply le_antisymm
    · have h := (Int.lt_zpow_iff_log_lt (b := 2) (by norm_num) hx).1 (by exact_mod_cast h2)
      omega
    · exact (Int.zpow_le_iff_le_log (b := 2) (by norm_num) hx).1 (by exact_mod_cast h1)
  unfold float_ulp
  rw [abs_of_pos hx, hlog, max_eq_left he]

/-- Rounding to single precision of a value whose binade is known and which lies
less than half a spacing above a multiple of the spacing. -/
theorem round_float_of_lt (x : ℚ) (e f : ℤ) (h1 : (2 : ℚ) ^ e ≤ x) (h2 : x < (2 : ℚ) ^ (e + 1))
    (he : -126 ≤ e) (h3 : (f : ℚ) ≤ x / (2 : ℚ) ^ (e - 23))
    (h4 : 2 * (x / (2 : ℚ) ^ (e - 23) - f) < 1) :
    round_float x = f * (2 : ℚ) ^ (e - 23) := by
  unfold round_float
  rw [float_ulp_eq x e h1 h2 he, round_ties_even_of_lt _ f h3 h4]

theorem round_float_zero : round_float 0 = 0 := by
  simp [round_float, round_ties_even]

theorem round_float_twenty : round_float 20 = 20 := by
  rw [round_float_of_lt 20 4 10485760 (by norm_num) (by norm_num) (by norm_num) (by norm_num)
    (by norm_num)]
  norm_num

/-- Twenty times the single-precision number nearest to one tenth,
`13421773 / 2 ^ 27`, is `2 + 2 ^ (-25)` exactly and rounds to `2`. -/
theorem round_float_tenth : round_float (20 * (13421773 / 134217728)) = 2 := by
  rw [round_float_of_lt _ 1 8388608 (by norm_num) (by norm_num) (by norm_num) (by norm_num)
    (by norm_num)]
  norm_num

theorem get_input_delay_one : get_input_delay 1 = 21 := by
  unfold get_input_delay
  have h : (1000 / 50 : ℚ) * 1 = 20 := by norm_num
  rw [h, round_float_twenty]
  norm_num
  rfl

/-! ## C9: disarming with `register_interrupt_handler` -/

/-- C9 (the claim as stated fails).  Called with mode `IRQ_Mode_None` and no
callback on an in-range input port that supports interrupts,
`register_interrupt_handler` disarms the port but returns `false`. -/
theorem register_none_without_callback_returns_false :
    0 < demo3.n_in ∧
    (register_interrupt_handler demo3 0 IRQ_Mode_None none).map Prod.fst = some false := by
  decide

/-- C9 (amended).  With the busy flag clear, `register_interrupt_handler` called
with mode `IRQ_Mode_None` on an input port whose pin is in the table: if the
capability of the pin has some interrupt mode, the port is left with armed mode
`IRQ_Mode_None`, no callback and its interrupt disabled, whatever the binding
was before, and the returned flag is `true` exactly when a callback argument
was passed; if the capability has no interrupt mode, the call returns `false`
and changes nothing. -/
theorem register_none (st : State) (port : Nat) (interrupt_callback : Option Nat)
    (hport : ioports_map st.in_map port < st.n_in) (hlock : st.spin_lock = false) :
    ((st.aux_in.getD (ioports_map st.in_map port) default).cap.irq_mode ≠ IRQ_Mode_None →
      ∃ st2, register_interrupt_handler st port IRQ_Mode_None interrupt_callback =
          some (interrupt_callback.isSome, st2) ∧
        ((st2.aux_in.getD (ioports_map st.in_map port) default).mode.irq_mode = IRQ_Mode_None ∧
         (st2.aux_in.getD (ioports_map st.in_map port) default).interrupt_callback = none ∧
         (st2.aux_in.getD (ioports_map st.in_map port) default).irq_enabled = IRQ_Mode_None)) ∧
    ((st.aux_in.getD (ioports_map st.in_map port) default).cap.irq_mode = IRQ_Mode_None →
      register_interrupt_handler st port IRQ_Mode_None interrupt_callback = some (false, st)) := by
  constructor
  · intro hcap
    have hz : ∀ x : Nat, IRQ_Mode_None &&& x = IRQ_Mode_None := by
      intro x
      simp [IRQ_Mode_None]
    have hl : ioports_map st.in_map port < st.aux_in.length := hport
    unfold register_interrupt_handler
    simp only [hport, hcap, ne_eq, not_false_eq_true, and_self, if_true, hlock, hz, true_or,
      decide_True, Bool.true_and, Bool.false_eq_true, if_false]
    refine ⟨_, rfl, ?_⟩
    simp only [List.getD_eq_getElem?_getD, List.getElem?_set, hl, if_true, Option.getD_some,
      pinEnableIRQ]
    exact ⟨trivial, trivial, trivial⟩
  · intro hcap
    unfold register_interrupt_handler
    simp only [hcap, ne_eq, not_true_eq_false, and_false, if_false]

/-- Witness for C9 (amended): disarming input port 0 with a callback argument
returns `true` and leaves no callback. -/
theorem register_none_witness :
    ∃ st2, register_interrupt_handler demo3 0 IRQ_Mode_None (some 7) = some (true, st2) ∧
      (st2.aux_in.getD 0 default).interrupt_callback = none := by
  obtain ⟨st2, h1, h2⟩ := (register_none demo3 0 (some 7) (by decide) rfl).1 (by decide)
  exact ⟨st2, h1, h2.2.1⟩

/-- An edge wait on an in-range digital input whose capability includes the
edge is the edge loop, started with the full budget after the pending bit of
the pin has been cleared. -/
theorem wait_on_input_edge (st : State) (port : Nat) (wait_mode : wait_mode_t) (timeout : ℚ)
    (env : WaitEnv) (hmode : wait_mode = WaitMode_Rise ∨ wait_mode = WaitMode_Fall)
    (hport : port < st.n_in)
    (hcap : (st.aux_in.getD (ioports_map st.in_map port) default).cap.irq_mode &&&
      wait_irq_mode wait_mode ≠ 0) :
    (wait_on_input st Port_Digital port wait_mode timeout env).1 =
      edge_loop env (st.aux_in.getD (ioports_map st.in_map port) default).gpio_bit
        (decide ((st.invert_in >>> ioports_map st.in_map port) &&& 1 ≠ 0))
        (get_input_delay timeout) 0
        (and_not st.event_bits (st.aux_in.getD (ioports_map st.in_map port) default).gpio_bit) := by
  have hni : wait_mode ≠ WaitMode_Immediate := by
    rcases hmode with h | h <;> rw [h] <;> decide
  unfold wait_on_input get_input
  simp only [if_true, hport, if_neg hni, if_pos hmode, hcap, ne_eq, not_false_eq_true]

theorem and_not_idem (x b : Nat) : and_not (and_not x b) b = and_not x b := by
  apply Nat.eq_of_testBit_eq
  intro i
  simp only [testBit_and_not]
  cases x.testBit i <;> cases b.testBit i <;> rfl

/-- The budget of a wait in 50 ms ticks: twenty per second, the product rounded
to single precision, plus one. -/
theorem get_input_delay_eq (timeout : ℚ)
    (hfit : ⌈round_float (20 * timeout)⌉₊ + 1 < 2 ^ 32) :
    get_input_delay timeout = ⌈round_float (20 * timeout)⌉₊ + 1 := by
  unfold get_input_delay
  have h20 : (1000 / 50 : ℚ) = 20 := by norm_num
  rw [h20]
  have hc : Int.toNat ⌈round_float (20 * timeout)⌉ = ⌈round_float (20 * timeout)⌉₊ := rfl
  rw [hc, min_eq_left (by omega)]
  exact Nat.mod_eq_of_lt hfit

/-- The budget for the single-precision number nearest to a tenth of a second:
the product rounds down to `2`, so the budget is `3`, not `ceil(2 + 2 ^ (-25)) + 1`. -/
theorem get_input_delay_tenth : get_input_delay (13421773 / 134217728) = 3 := by
  rw [get_input_delay_eq _ (by rw [round_float_tenth]; norm_num), round_float_tenth]
  norm_num

/-! ## C7: an edge wait that times out -/

/-- C8.  A rising-edge or falling-edge wait on an in-range input port whose
capability includes that edge, the abort signal never set: if the event of the
pin arrives so that the pending bit is first found set at the `k`-th test, and
`k` does not exceed the iteration budget (`get_input_delay`: the product of
twenty and the timeout rounded to single precision, its ceiling, plus one), the
wait returns the level of the pin
XOR its invert bit as read at that test, after exactly `k` tests, `k - 1`
housekeeping calls and `k - 1` suspensions, and with that single read of the
pin.  The pending-event set the call starts from does not matter: a bit left
over from before the call is cleared first and the tests only see events that
arrive after it, so the outcome is that of the same call started with the bit
of the pin already clear. -/
theorem wait_edge_event (st : State) (port : Nat) (wait_mode : wait_mode_t) (timeout : ℚ)
    (env : WaitEnv) (k : Nat) (hmode : wait_mode = WaitMode_Rise ∨ wait_mode = WaitMode_Fall)
    (hport : port < st.n_in)
    (hcap : (st.aux_in.getD (ioports_map st.in_map port) default).cap.irq_mode &&&
      wait_irq_mode wait_mode ≠ 0)
    (hk1 : 1 ≤ k) (hk : k ≤ get_input_delay timeout)
    (hbefore : ∀ j, j + 1 < k → env.irq j &&&
      (st.aux_in.getD (ioports_map st.in_map port) default).gpio_bit = 0)
    (hat : env.irq (k - 1) &&&
      (st.aux_in.getD (ioports_map st.in_map port) default).gpio_bit ≠ 0)
    (habort : ∀ j, env.abort j = false) :
    (wait_on_input st Port_Digital port wait_mode timeout env).1.value =
      level_value (xor (env.level 0)
        (decide ((st.invert_in >>> ioports_map st.in_map port) &&& 1 ≠ 0))) ∧
    (wait_on_input st Port_Digital port wait_mode timeout env).1.tests = k ∧
    (wait_on_input st Port_Digital port wait_mode timeout env).1.realtime_calls = k - 1 ∧
    (wait_on_input st Port_Digital port wait_mode timeout env).1.delay_calls = k - 1 ∧
    (wait_on_input st Port_Digital port wait_mode timeout env).1.reads = 1 ∧
    (wait_on_input st Port_Digital port wait_mode timeout env).1 =
      (wait_on_input
        { st with
          event_bits :=
            (and_not st.event_bits (st.aux_in.getD (ioports_map st.in_map port) default).gpio_bit) }
        Port_Digital port wait_mode timeout env).1 := by
  have hstale : (wait_on_input st Port_Digital port wait_mode timeout env).1 =
      (wait_on_input
        { st with
          event_bits :=
            (and_not st.event_bits (st.aux_in.getD (ioports_map st.in_map port) default).gpio_bit) }
        Port_Digital port wait_mode timeout env).1 := by
    rw [wait_on_input_edge st port wait_mode timeout env hmode hport hcap,
      wait_on_input_edge
        { st with
          event_bits :=
            (and_not st.event_bits (st.aux_in.getD (ioports_map st.in_map port) default).gpio_bit) }
        port wait_mode timeout env hmode hport hcap]
    simp only [and_not_idem]
  obtain ⟨h1, h2, h3, h4, h5⟩ := edge_loop_event env
    (st.aux_in.getD (ioports_map st.in_map port) default).gpio_bit
    (decide ((st.invert_in >>> ioports_map st.in_map port) &&& 1 ≠ 0)) habort (k - 1)
    (get_input_delay timeout) 0
    (and_not st.event_bits (st.aux_in.getD (ioports_map st.in_map port) default).gpio_bit)
    (by omega) (and_not_and_self st.event_bits _)
    (fun i hi => by rw [Nat.zero_add]; exact hbefore i (by omega))
    (by rw [Nat.zero_add]; exact hat)
  refine ⟨?_, ?_, ?_, ?_, ?_, hstale⟩ <;>
    rw [wait_on_input_edge st port wait_mode timeout env hmode hport hcap]
  · exact h1
  · rw [h2]; omega
  · rw [h3]; omega
  · rw [h4]; omega
  · exact h5

/-- Witness for C8: input port 0 starts with a stale pending bit; the event
arrives during the second suspension, so the third test finds it and the wait
returns the high level after three tests and two suspensions.  This holds for
a timeout of one second and for one of a tenth of a second, whose budget of
three iterations the third test just fits. -/
theorem wait_edge_event_witness :
    ({ demo3 with event_bits := 1 } : State).event_bits &&& (demo_input 0).gpio_bit ≠ 0 ∧
    (wait_on_input { demo3 with event_bits := 1 } Port_Digital 0 WaitMode_Rise 1
      (edge_env 2)).1.value = 1 ∧
    (wait_on_input { demo3 with event_bits := 1 } Port_Digital 0 WaitMode_Rise 1
      (edge_env 2)).1.tests = 3 ∧
    (wait_on_input { demo3 with event_bits := 1 } Port_Digital 0 WaitMode_Rise 1
      (edge_env 2)).1.delay_calls = 2 ∧
    get_input_delay (13421773 / 134217728) = 3 ∧
    (wait_on_input { demo3 with event_bits := 1 } Port_Digital 0 WaitMode_Rise
      (13421773 / 134217728) (edge_env 2)).1.value = 1 ∧
    (wait_on_input { demo3 with event_bits := 1 } Port_Digital 0 WaitMode_Rise
      (13421773 / 134217728) (edge_env 2)).1.tests = 3 := by
  have hirq : ∀ j, j + 1 < 3 → (edge_env 2).irq j &&&
      (({ demo3 with event_bits := 1 } : State).aux_in.getD
        (ioports_map ({ demo3 with event_bits := 1 } : State).in_map 0) default).gpio_bit = 0 :=
    fun j hj => by
      have : j = 0 ∨ j = 1 := by omega
      rcases this with h | h <;> subst h <;> decide
  have h := wait_edge_event { demo3 with event_bits := 1 } 0 WaitMode_Rise 1 (edge_env 2) 3
    (Or.inl rfl) (by decide) (by decide) (by decide) (by rw [get_input_delay_one]; decide)
    hirq (by decide) (fun _ => rfl)
  have h' := wait_edge_event { demo3 with event_bits := 1 } 0 WaitMode_Rise
    (13421773 / 134217728) (edge_env 2) 3
    (Or.inl rfl) (by decide) (by decide) (by decide) (by rw [get_input_delay_tenth])
    hirq (by decide) (fun _ => rfl)
  exact ⟨by decide, h.1, h.2.1, h.2.2.2.1, get_input_delay_tenth, h'.1, h'.2.1⟩

/-! ## Auxiliary facts about the loops of the settings handlers -/

theorem do_while_from_self (n : Nat) (h : n + 1 ≤ 2 ^ 32) :
    do_while_from (n + 1) (n + 1) = (List.range (n + 1)).reverse := by
  induction n with
  | zero => rfl
  | succ n ih =>
    have h1 : (n + 1 + 1 + (2 ^ 32 - 1)) % 2 ^ 32 = n + 1 := by omega
    rw [do_while_from]
    simp only [h1]
    rw [if_neg (by omega), ih (by omega), List.range_succ (n := n + 1), List.reverse_append]
    rfl

/-- A loop `port = n; do { port--; ... } while(port);` over at least one port
visits `n - 1, ..., 0`. -/
theorem do_while_ports_eq (n : Nat) (h1 : 1 ≤ n) (h2 : n ≤ 255) :
    do_while_ports n = (List.range n).reverse := by
  obtain ⟨k, rfl⟩ : ∃ k, n = k + 1 := ⟨n - 1, by omega⟩
  unfold do_while_ports
  rw [if_neg (by omega)]
  exact do_while_from_self k (by omega)

theorem and_bit_ne_zero_iff (x p : Nat) : x &&& (1 <<< p) ≠ 0 ↔ x.testBit p = true := by
  rw [Nat.one_shiftLeft]
  constructor
  · intro h
    by_contra hc
    apply h
    apply Nat.eq_of_testBit_eq
    intro i
    rw [Nat.testBit_and, Nat.testBit_two_pow, Nat.zero_testBit]
    by_cases hi : p = i
    · subst hi
      simp [hc]
    · simp [hi]
  · intro h hz
    have := congrArg (fun n => n.testBit p) hz
    simp [Nat.testBit_and, Nat.testBit_two_pow, h] at this

theorem or_bit_of_set (x p : Nat) (h : x &&& (1 <<< p) ≠ 0) : x ||| (1 <<< p) = x := by
  rw [and_bit_ne_zero_iff] at h
  rw [Nat.one_shiftLeft]
  apply Nat.eq_of_testBit_eq
  intro i
  rw [Nat.testBit_or, Nat.testBit_two_pow]
  by_cases hi : p = i
  · subst hi
    simp [h]
  · simp [hi]

theorem and_not_of_clear (x b : Nat) (h : x &&& b = 0) : and_not x b = x := by
  unfold and_not
  rw [h]
  exact Nat.xor_zero x

/-- Writing the `inverted` flag of an entry leaves every control binding. -/
theorem modify_inverted_aux_ctrl (b : Bool) (i x : Nat) (tbl : List input_signal_t) :
    ((modifyAt (fun y : input_signal_t => { y with mode := { y.mode with inverted := b } }) i
      tbl).getD x default).aux_ctrl = (tbl.getD x default).aux_ctrl :=
  modifyAt_getD_proj (fun y : input_signal_t => y.aux_ctrl)
    (fun y : input_signal_t => { y with mode := { y.mode with inverted := b } })
    (fun _ => rfl) i x tbl

/-- The body of the control-invert loop of `on_setting_changed` and the body of
the input loop of `on_settings_loaded` do the same to the two masks. -/
theorem loaded_ctrl_body_masks (s t : InvertSync) (p : Nat)
    (h1 : s.invert_in = t.invert_in) (h2 : s.control_invert = t.control_invert)
    (h3 : ∀ x, (s.aux_in.getD x default).aux_ctrl = (t.aux_in.getD x default).aux_ctrl) :
    (loaded_in_body s p).invert_in = (changed_ctrl_body t p).invert_in ∧
    (loaded_in_body s p).control_invert = (changed_ctrl_body t p).control_invert ∧
    ∀ x, ((loaded_in_body s p).aux_in.getD x default).aux_ctrl =
      ((changed_ctrl_body t p).aux_in.getD x default).aux_ctrl := by
  unfold loaded_in_body changed_ctrl_body
  rw [← h3 p]
  cases hc : (s.aux_in.getD p default).aux_ctrl with
  | none =>
    simp only []
    exact ⟨h1, h2, fun x => by rw [modify_inverted_aux_ctrl]; exact h3 x⟩
  | some c =>
    simp only []
    rw [← h1, ← h2]
    refine ⟨?_, ?_, ?_⟩
    · by_cases hcc : s.control_invert &&& c ≠ 0
      · by_cases hii : s.invert_in &&& (1 <<< p) ≠ 0
        · simp only [hcc, hii, decide_True, ne_eq, not_true_eq_false, if_false, if_true]
          exact (or_bit_of_set _ _ hii).symm
        · simp only [hcc, hii, decide_True, decide_False, ne_eq, not_false_eq_true, if_true,
            Bool.true_eq_false]
      · by_cases hii : s.invert_in &&& (1 <<< p) ≠ 0
        · simp only [hcc, hii, decide_True, decide_False, ne_eq, not_false_eq_true, if_true,
            if_false, Bool.false_eq_true]
        · simp only [hcc, hii, decide_False, ne_eq, not_true_eq_false, if_false]
          exact (and_not_of_clear _ _ (not_not.mp hii)).symm
    · split <;> rfl
    · intro x
      rw [modify_inverted_aux_ctrl, modify_inverted_aux_ctrl]
      split <;> exact h3 x

/-- Run over the same ports, the two loops leave the same masks. -/
theorem loaded_ctrl_fold_masks (ports : List Nat) : ∀ (s t : InvertSync),
    s.invert_in = t.invert_in → s.control_invert = t.control_invert →
    (∀ x, (s.aux_in.getD x default).aux_ctrl = (t.aux_in.getD x default).aux_ctrl) →
    (ports.foldl loaded_in_body s).invert_in = (ports.foldl changed_ctrl_body t).invert_in ∧
    (ports.foldl loaded_in_body s).control_invert =
      (ports.foldl changed_ctrl_body t).control_invert := by
  induction ports with
  | nil => intro s t h1 h2 _; exact ⟨h1, h2⟩
  | cons p ports ih =>
    intro s t h1 h2 h3
    obtain ⟨e1, e2, e3⟩ := loaded_ctrl_body_masks s t p h1 h2 h3
    exact ih _ _ e1 e2 e3

/-- One pass of the control-invert loop: bindings stay, the per-port mask aside
nothing but `write` is decided by whether the port is bound. -/
theorem changed_ctrl_body_write (s : InvertSync) (p : Nat) :
    (changed_ctrl_body s p).write =
      (s.write || (s.aux_in.getD p default).aux_ctrl.isSome) ∧
    ∀ x, ((changed_ctrl_body s p).aux_in.getD x default).aux_ctrl =
      (s.aux_in.getD x default).aux_ctrl := by
  unfold changed_ctrl_body
  cases hc : (s.aux_in.getD p default).aux_ctrl with
  | none => simp
  | some c =>
    simp only [Option.isSome_some, Bool.or_true, true_and]
    intro x
    rw [modify_inverted_aux_ctrl]

theorem changed_ctrl_fold_write (ports : List Nat) : ∀ (s : InvertSync),
    (ports.foldl changed_ctrl_body s).write =
      (s.write || ports.any (fun p => (s.aux_in.getD p default).aux_ctrl.isSome)) := by
  induction ports with
  | nil => intro s; simp
  | cons p ports ih =>
    intro s
    obtain ⟨h1, h2⟩ := changed_ctrl_body_write s p
    rw [List.foldl_cons, ih, h1]
    simp only [h2, List.any_cons, Bool.or_assoc]

/-- One pass of the input-invert loop: the per-port mask and the bindings stay,
`write` is set when the port is bound, and the function mask of a bound port is
set or cleared in the control mask after the per-port bit. -/
theorem changed_in_body_effect (s : InvertSync) (p : Nat) :
    (changed_in_body s p).invert_in = s.invert_in ∧
    (changed_in_body s p).write = (s.write || (s.aux_in.getD p default).aux_ctrl.isSome) ∧
    (∀ x, ((changed_in_body s p).aux_in.getD x default).aux_ctrl =
      (s.aux_in.getD x default).aux_ctrl) ∧
    (∀ i, (changed_in_body s p).control_invert.testBit i =
      match (s.aux_in.getD p default).aux_ctrl with
      | some c => if c.testBit i then decide (s.invert_in &&& (1 <<< p) ≠ 0)
                  else s.control_invert.testBit i
      | none => s.control_invert.testBit i) := by
  unfold changed_in_body
  simp only [modify_inverted_aux_ctrl]
  cases hc : (s.aux_in.getD p default).aux_ctrl with
  | none =>
    simp only [Option.isSome_none, Bool.or_false]
    exact ⟨trivial, trivial, fun x => modify_inverted_aux_ctrl _ _ _ _, fun _ => trivial⟩
  | some c =>
    simp only [Option.isSome_some, Bool.or_true]
    refine ⟨trivial, trivial, fun x => modify_inverted_aux_ctrl _ _ _ _, ?_⟩
    intro i
    have hp : p < s.aux_in.length := by
      by_contra hlt
      rw [List.getD_eq_default _ _ (by omega)] at hc
      cases hc
    have hinv : ((modifyAt (fun x : input_signal_t =>
        { x with mode := { x.mode with inverted := decide (s.invert_in &&& (1 <<< p) ≠ 0) } }) p
        s.aux_in).getD p default).mode.inverted = decide (s.invert_in &&& (1 <<< p) ≠ 0) := by
      simp only [List.getD_eq_getElem?_getD, modifyAt_getElem?, if_true,
        List.getElem?_eq_getElem hp, Option.map_some', Option.getD_some]
    rw [hinv]
    by_cases hb : s.invert_in &&& (1 <<< p) ≠ 0
    · rw [decide_eq_true hb]
      simp only [if_true, Nat.testBit_or]
      cases c.testBit i <;> simp
    · rw [decide_eq_false hb]
      simp only [Bool.false_eq_true, if_false, testBit_and_not]
      cases c.testBit i <;> simp

theorem changed_in_fold_write (ports : List Nat) : ∀ (s : InvertSync),
    (ports.foldl changed_in_body s).write =
      (s.write || ports.any (fun p => (s.aux_in.getD p default).aux_ctrl.isSome)) ∧
    (ports.foldl changed_in_body s).invert_in = s.invert_in := by
  induction ports with
  | nil => intro s; simp
  | cons p ports ih =>
    intro s
    obtain ⟨h0, h1, h2, -⟩ := changed_in_body_effect s p
    obtain ⟨i1, i2⟩ := ih (changed_in_body s p)
    rw [List.foldl_cons, i1, i2, h1, h0]
    simp only [h2, List.any_cons, Bool.or_assoc, and_self]

/-- The control mask the input-invert loop leaves after the ports
`n - 1, ..., 0`: a bit of the function mask of a bound port follows the
per-port bit of the lowest-numbered bound port whose function mask holds it,
and a bit in no function mask keeps its value. -/
theorem changed_in_fold_control (n : Nat) : ∀ (s : InvertSync),
    (∀ p c i, p < n → (s.aux_in.getD p default).aux_ctrl = some c → c.testBit i = true →
      (∀ q c2, q < p → (s.aux_in.getD q default).aux_ctrl = some c2 → c2.testBit i = false) →
      ((List.range n).reverse.foldl changed_in_body s).control_invert.testBit i =
        decide (s.invert_in &&& (1 <<< p) ≠ 0)) ∧
    (∀ i, (∀ q c2, q < n → (s.aux_in.getD q default).aux_ctrl = some c2 → c2.testBit i = false) →
      ((List.range n).reverse.foldl changed_in_body s).control_invert.testBit i =
        s.control_invert.testBit i) := by
  induction n with
  | zero =>
    intro s
    exact ⟨fun p c i hp => absurd hp (Nat.not_lt_zero p), fun i _ => rfl⟩
  | succ n ih =>
    intro s
    obtain ⟨h0, -, h2, h3⟩ := changed_in_body_effect s n
    obtain ⟨i1, i2⟩ := ih (changed_in_body s n)
    have hlist : (List.range (n + 1)).reverse = n :: (List.range n).reverse := by
      rw [List.range_succ, List.reverse_append]
      rfl
    rw [hlist]
    simp only [List.foldl_cons]
    constructor
    · intro p c i hp hc hci hlow
      by_cases hpn : p = n
      · subst hpn
        rw [i2 i (fun q c2 hq hq2 => hlow q c2 hq (by rw [← h2 q]; exact hq2)), h3 i, hc]
        simp only [hci, if_true]
      · rw [i1 p c i (by omega) (by rw [h2 p]; exact hc) hci
          (fun q c2 hq hq2 => hlow q c2 hq (by rw [← h2 q]; exact hq2)), h0]
    · intro i hnone
      rw [i2 i (fun q c2 hq hq2 => hnone q c2 (by omega) (by rw [← h2 q]; exact hq2)), h3 i]
      cases hc : (s.aux_in.getD n default).aux_ctrl with
      | none => rfl
      | some c =>
        simp only [hnone n c (by omega) hc, Bool.false_eq_true, if_false]

theorem any_reverse_range (n : Nat) (f : Nat → Bool) :
    (List.range n).reverse.any f = true ↔ ∃ p, p < n ∧ f p = true := by
  simp [List.any_eq_true]

/-! ## C10: `on_setting_changed` against the reconciliation of `on_settings_loaded` -/

/-- C10 (the claim as stated fails).  One input port bound to the control
function with mask `1`.  With the per-port bit set and the control bit clear,
`on_settings_loaded` clears the per-port bit (the control bit wins), while the
input-invert-changed notification keeps the per-port bit and sets the control
bit: the masks differ.  With both bits clear, so that nothing disagrees, the
control-invert-changed and the input-invert-changed notification still
schedule a settings write-back, which `on_settings_loaded` does not. -/
theorem setting_changed_differs_from_loaded :
    1 ≤ (demo_ctrl 1 0).n_in ∧
    (on_settings_loaded (demo_ctrl 1 0)).invert_in = 0 ∧
    (on_settings_loaded (demo_ctrl 1 0)).control_invert = 0 ∧
    (on_setting_changed (demo_ctrl 1 0) Settings_IoPort_InvertIn).invert_in = 1 ∧
    (on_setting_changed (demo_ctrl 1 0) Settings_IoPort_InvertIn).control_invert = 1 ∧
    (on_settings_loaded (demo_ctrl 0 0)).settings_writes = 0 ∧
    (on_setting_changed (demo_ctrl 0 0) Setting_ControlInvertMask).settings_writes = 1 ∧
    (on_setting_changed (demo_ctrl 0 0) Settings_IoPort_InvertIn).settings_writes = 1 := by
  decide

/-- C10 (amended).  With at least one input port: on the control-invert-changed
notification `on_setting_changed` leaves the per-port input invert mask and the
control-function invert mask exactly as the input reconciliation of
`on_settings_loaded` would leave them from the same state (the control bit
wins).  On the input-invert-changed notification it leaves the per-port mask as
it is and overwrites the control-function mask from it: every bit of the
function mask of a control-bound port takes the per-port bit of that port (of
the lowest-numbered such port when function masks overlap), and bits outside
every function mask stay.  On both notifications a settings write-back is
scheduled exactly when some input port is control-bound, whether or not any two
bits disagreed. -/
theorem setting_changed_invert_sync (st : State) (h1 : 1 ≤ st.n_in) (h2 : st.n_in ≤ 255) :
    ((on_setting_changed st Setting_ControlInvertMask).invert_in =
        (on_settings_loaded st).invert_in ∧
      (on_setting_changed st Setting_ControlInvertMask).control_invert =
        (on_settings_loaded st).control_invert) ∧
    ((on_setting_changed st Settings_IoPort_InvertIn).invert_in = st.invert_in ∧
      (∀ p c i, p < st.n_in → (st.aux_in.getD p default).aux_ctrl = some c → c.testBit i = true →
        (∀ q c2, q < p → (st.aux_in.getD q default).aux_ctrl = some c2 → c2.testBit i = false) →
        (on_setting_changed st Settings_IoPort_InvertIn).control_invert.testBit i =
          decide (st.invert_in &&& (1 <<< p) ≠ 0)) ∧
      (∀ i, (∀ q c2, q < st.n_in → (st.aux_in.getD q default).aux_ctrl = some c2 →
          c2.testBit i = false) →
        (on_setting_changed st Settings_IoPort_InvertIn).control_invert.testBit i =
          st.control_invert.testBit i)) ∧
    (∀ id, id = Settings_IoPort_InvertIn ∨ id = Setting_ControlInvertMask →
      (on_setting_changed st id).settings_writes =
        if ∃ p, p < st.n_in ∧ (st.aux_in.getD p default).aux_ctrl.isSome = true
        then st.settings_writes + 1 else st.settings_writes) := by
  have hports := do_while_ports_eq st.n_in h1 h2
  refine ⟨?_, ⟨?_, ?_, ?_⟩, ?_⟩
  · have := loaded_ctrl_fold_masks (do_while_ports st.n_in)
      { write := false, invert_in := st.invert_in, control_invert := st.control_invert,
        aux_in := st.aux_in }
      { write := false, invert_in := st.invert_in, control_invert := st.control_invert,
        aux_in := st.aux_in } rfl rfl (fun _ => rfl)
    simp only [on_setting_changed, on_settings_loaded]
    exact ⟨this.1.symm, this.2.symm⟩
  · simp only [on_setting_changed]
    exact (changed_in_fold_write _ _).2
  · intro p c i hp hc hci hlow
    simp only [on_setting_changed]
    rw [hports]
    exact (changed_in_fold_control st.n_in _).1 p c i hp hc hci hlow
  · intro i hnone
    simp only [on_setting_changed]
    rw [hports]
    exact (changed_in_fold_control st.n_in _).2 i hnone
  · intro id hid
    have hany := any_reverse_range st.n_in
      (fun p => (st.aux_in.getD p default).aux_ctrl.isSome)
    rcases hid with rfl | rfl
    · simp only [on_setting_changed]
      rw [(changed_in_fold_write _ _).1, hports]
      simp only [Bool.false_or, hany]
    · simp only [on_setting_changed]
      rw [changed_ctrl_fold_write, hports]
      simp only [Bool.false_or, hany]

/-- Witness for C10 (amended): one bound port whose per-port bit is set and
whose control bit is clear; the control-invert-changed notification clears the
per-port bit as `on_settings_loaded` does, and the write counter goes up. -/
theorem setting_changed_invert_sync_witness :
    (on_setting_changed (demo_ctrl 1 0) Setting_ControlInvertMask).invert_in =
      (on_settings_loaded (demo_ctrl 1 0)).invert_in ∧
    (on_settings_loaded (demo_ctrl 1 0)).invert_in = 0 ∧
    (on_setting_changed (demo_ctrl 1 0) Setting_ControlInvertMask).settings_writes = 1 :=
  ⟨(setting_changed_invert_sync (demo_ctrl 1 0) (by decide) (by decide)).1.1, by decide,
    by decide⟩

/-! ## C13: what `swap_pins` exchanges -/

/-- C13.  For in-range ports `a ≠ b` on which `swap_pins` makes the exchange
(input ports without a registered callback, or output ports): afterwards slot
`a` holds the former descriptor of slot `b` in every field but the description
(capability, locator, mode with its claimed flag, ...) and slot `b` the former
descriptor of slot `a`, the description of slot `a` and that of slot `b` are the
ones they were, every other slot is as before, and so is the table of the other
direction. -/
theorem swap_pins_exchange (st : State) (a b : Nat) (hab : a ≠ b) :
    (a < st.n_in → b < st.n_in → (st.aux_in.getD a default).interrupt_callback = none →
      (st.aux_in.getD b default).interrupt_callback = none →
      (swap_pins st Port_Digital Port_Input a b).2.aux_in.getD a default =
        { st.aux_in.getD b default with description := (st.aux_in.getD a default).description } ∧
      (swap_pins st Port_Digital Port_Input a b).2.aux_in.getD b default =
        { st.aux_in.getD a default with description := (st.aux_in.getD b default).description } ∧
      (∀ x, x ≠ a → x ≠ b →
        (swap_pins st Port_Digital Port_Input a b).2.aux_in.getD x default =
          st.aux_in.getD x default) ∧
      (swap_pins st Port_Digital Port_Input a b).2.aux_in.length = st.aux_in.length ∧
      (swap_pins st Port_Digital Port_Input a b).2.aux_out = st.aux_out) ∧
    (a < st.n_out → b < st.n_out →
      (swap_pins st Port_Digital Port_Output a b).2.aux_out.getD a default =
        { st.aux_out.getD b default with
          description := (st.aux_out.getD a default).description } ∧
      (swap_pins st Port_Digital Port_Output a b).2.aux_out.getD b default =
        { st.aux_out.getD a default with
          description := (st.aux_out.getD b default).description } ∧
      (∀ x, x ≠ a → x ≠ b →
        (swap_pins st Port_Digital Port_Output a b).2.aux_out.getD x default =
          st.aux_out.getD x default) ∧
      (swap_pins st Port_Digital Port_Output a b).2.aux_out.length = st.aux_out.length ∧
      (swap_pins st Port_Digital Port_Output a b).2.aux_in = st.aux_in) := by
  constructor
  · intro ha hb hca hcb
    rw [swap_pins_input, if_neg hab, if_pos ⟨ha, hb, hca, hcb⟩]
    refine ⟨?_, ?_, ?_, swap_in_length _ _ _, rfl⟩
    · show (swap_in st.aux_in a b).getD a default = _
      rw [swap_in_getD _ _ _ _ ha hb hab, if_neg hab, if_pos rfl]
    · show (swap_in st.aux_in a b).getD b default = _
      rw [swap_in_getD _ _ _ _ ha hb hab, if_pos rfl]
    · intro x hxa hxb
      show (swap_in st.aux_in a b).getD x default = _
      rw [swap_in_getD _ _ _ _ ha hb hab, if_neg hxb, if_neg hxa]
  · intro ha hb
    rw [swap_pins_output, if_neg hab, if_pos ⟨ha, hb⟩]
    refine ⟨?_, ?_, ?_, swap_out_length _ _ _, rfl⟩
    · show (swap_out st.aux_out a b).getD a default = _
      rw [swap_out_getD _ _ _ _ ha hb hab, if_neg hab, if_pos rfl]
    · show (swap_out st.aux_out a b).getD b default = _
      rw [swap_out_getD _ _ _ _ ha hb hab, if_pos rfl]
    · intro x hxa hxb
      show (swap_out st.aux_out a b).getD x default = _
      rw [swap_out_getD _ _ _ _ ha hb hab, if_neg hxb, if_neg hxa]

/-- Witness for C13: output slots 0 and 2 of a state in which slot 0 was
claimed as `probe`; the claimed flag moves to slot 2, the description stays. -/
theorem swap_pins_exchange_witness :
    ((swap_pins (claim demo3 Port_Digital Port_Output 0 "probe").2.1 Port_Digital Port_Output
      0 2).2.aux_out.getD 2 default).mode.claimed = true ∧
    ((swap_pins (claim demo3 Port_Digital Port_Output 0 "probe").2.1 Port_Digital Port_Output
      0 2).2.aux_out.getD 0 default).description = "probe" := by
  have h := (swap_pins_exchange (claim demo3 Port_Digital Port_Output 0 "probe").2.1 0 2
    (by decide)).2 (by decide) (by decide)
  refine ⟨?_, ?_⟩
  · rw [h.2.1]
    decide
  · rw [h.1]
    decide

/-! ## Auxiliary facts about `wait_on_input` -/

theorem set_getD_self {α : Type} (l : List α) (i : Nat) (d : α) : l.set i (l.getD i d) = l := by
  by_cases h : i < l.length
  · apply List.ext_getElem?
    intro j
    rw [List.getElem?_set, List.getD_eq_getElem _ _ h]
    by_cases hj : i = j
    · subst hj
      simp [h]
    · simp [hj]
  · exact List.set_eq_of_length_le (by omega)

/-- The C expression `(mask >> port) & 0x01` is bit `port` of the mask. -/
theorem shift_and_one_ne_zero (m p : Nat) :
    decide ((m >>> p) &&& 1 ≠ 0) = m.testBit p := by
  rw [← Nat.decide_shiftRight_mod_two_eq_one, Nat.and_one_is_mod]
  rcases Nat.mod_two_eq_zero_or_one (m >>> p) with h | h <;> simp [h]

/-- The budget of a wait with timeout `0` is one iteration. -/
theorem get_input_delay_zero : get_input_delay 0 = 1 := by
  unfold get_input_delay
  rw [mul_zero, round_float_zero]
  norm_num

/-- The descriptor a capable pin has: a slot outside the table has no
capability. -/
theorem capable_in_range (aux : List input_signal_t) (p m : Nat)
    (h : (aux.getD p default).cap.irq_mode &&& m ≠ 0) : p < aux.length := by
  by_contra hc
  rw [List.getD_eq_default _ _ (by omega)] at h
  exact h (Nat.zero_and m)

/-! ## C16: an immediate read -/

/-- C16.  For every timeout, `wait_on_input` with mode `WaitMode_Immediate` on an
in-range digital input port returns the level of the pin XOR the invert bit of
the pin the port maps to (bit `map(port)` of `settings.ioport.invert_in.mask`),
with one read of the pin, no loop test, no housekeeping call and no suspension,
and it leaves the whole state, the pending-event set and every interrupt
arming included, as it was; for a port not below the input port count it
returns `-1`, again leaving the state as it was. -/
theorem wait_immediate (st : State) (port : Nat) (timeout : ℚ) (env : WaitEnv) :
    (port < st.n_in →
      (wait_on_input st Port_Digital port WaitMode_Immediate timeout env).1.value =
        level_value (xor (env.level 0) (st.invert_in.testBit (ioports_map st.in_map port))) ∧
      (wait_on_input st Port_Digital port WaitMode_Immediate timeout env).1.realtime_calls = 0 ∧
      (wait_on_input st Port_Digital port WaitMode_Immediate timeout env).1.delay_calls = 0 ∧
      (wait_on_input st Port_Digital port WaitMode_Immediate timeout env).1.tests = 0 ∧
      (wait_on_input st Port_Digital port WaitMode_Immediate timeout env).1.reads = 1 ∧
      (wait_on_input st Port_Digital port WaitMode_Immediate timeout env).2 = st) ∧
    (¬ port < st.n_in →
      (wait_on_input st Port_Digital port WaitMode_Immediate timeout env).1.value = -1 ∧
      (wait_on_input st Port_Digital port WaitMode_Immediate timeout env).1.realtime_calls = 0 ∧
      (wait_on_input st Port_Digital port WaitMode_Immediate timeout env).1.delay_calls = 0 ∧
      (wait_on_input st Port_Digital port WaitMode_Immediate timeout env).2 = st) := by
  constructor
  · intro hport
    unfold wait_on_input get_input
    simp only [if_true, hport, shift_and_one_ne_zero, set_getD_self]
    exact ⟨trivial, trivial, trivial, trivial, trivial, trivial⟩
  · intro hport
    unfold wait_on_input
    simp only [if_true, hport, if_false]
    exact ⟨trivial, trivial, trivial, trivial⟩

/-- Witness for C16: an immediate read of input port 1 of the demo state, whose
pin is low and not inverted, gives `0`. -/
theorem wait_immediate_witness :
    (wait_on_input demo3 Port_Digital 1 WaitMode_Immediate 5 quiet_env).1.value = 0 ∧
    (wait_on_input demo3 Port_Digital 7 WaitMode_Immediate 5 quiet_env).1.value = -1 := by
  have h1 := (wait_immediate demo3 1 5 quiet_env).1 (by decide)
  have h2 := (wait_immediate demo3 7 5 quiet_env).2 (by decide)
  exact ⟨by rw [h1.1]; decide, h2.1⟩

/-- A level wait on an in-range digital input is the level loop, started with
the full budget. -/
theorem wait_on_input_level (st : State) (port : Nat) (wait_mode : wait_mode_t) (timeout : ℚ)
    (env : WaitEnv) (hmode : wait_mode = WaitMode_High ∨ wait_mode = WaitMode_Low)
    (hport : port < st.n_in) :
    (wait_on_input st Port_Digital port wait_mode timeout env).1 =
      level_loop env (st.invert_in.testBit (ioports_map st.in_map port))
        (decide (wait_mode ≠ WaitMode_Low)) (get_input_delay timeout) 0 st.event_bits := by
  have hni : wait_mode ≠ WaitMode_Immediate := by
    rcases hmode with h | h <;> rw [h] <;> decide
  have hne : ¬ (wait_mode = WaitMode_Rise ∨ wait_mode = WaitMode_Fall) := by
    rcases hmode with h | h <;> rw [h] <;> decide
  unfold wait_on_input get_input
  simp only [if_true, hport, if_neg hni, if_neg hne, shift_and_one_ne_zero]

/-- An edge wait on a pin whose capability lacks the edge does nothing. -/
theorem wait_on_input_incapable (st : State) (port : Nat) (wait_mode : wait_mode_t)
    (timeout : ℚ) (env : WaitEnv)
    (hmode : wait_mode = WaitMode_Rise ∨ wait_mode = WaitMode_Fall) (hport : port < st.n_in)
    (hcap : (st.aux_in.getD (ioports_map st.in_map port) default).cap.irq_mode &&&
      wait_irq_mode wait_mode = 0) :
    wait_on_input st Port_Digital port wait_mode timeout env =
      ({ value := -1, tests := 0, realtime_calls := 0, delay_calls := 0, reads := 0,
         event_bits := st.event_bits }, st) := by
  have hni : wait_mode ≠ WaitMode_Immediate := by
    rcases hmode with h | h <;> rw [h] <;> decide
  unfold wait_on_input get_input
  simp only [if_true, hport, if_neg hni, if_pos hmode, hcap, ne_eq, not_true_eq_false, if_false,
    set_getD_self]

/-- The pin an edge wait on a capable port leaves: its interrupt is disabled. -/
theorem wait_on_input_edge_state (st : State) (port : Nat) (wait_mode : wait_mode_t)
    (timeout : ℚ) (env : WaitEnv)
    (hmode : wait_mode = WaitMode_Rise ∨ wait_mode = WaitMode_Fall) (hport : port < st.n_in)
    (hcap : (st.aux_in.getD (ioports_map st.in_map port) default).cap.irq_mode &&&
      wait_irq_mode wait_mode ≠ 0) :
    (wait_on_input st Port_Digital port wait_mode timeout env).2.aux_in =
      st.aux_in.set (ioports_map st.in_map port)
        { st.aux_in.getD (ioports_map st.in_map port) default with
          irq_enabled := IRQ_Mode_None } := by
  have hni : wait_mode ≠ WaitMode_Immediate := by
    rcases hmode with h | h <;> rw [h] <;> decide
  unfold wait_on_input get_input
  simp only [if_true, hport, if_neg hni, if_pos hmode, hcap, ne_eq, not_false_eq_true,
    pinEnableIRQ]

/-! ## C18: the budget of a wait with timeout zero -/

/-- C18.  With timeout `0` the iteration budget of a wait is exactly `1`, and
every wait other than an immediate read (a rising-edge or falling-edge wait on
a port whose capability includes the edge, a wait for high, a wait for low) on
an in-range input port whose condition is not met at the first test calls the
housekeeping hook once, suspends for one tick, and then returns `-1` after that
single test: it neither returns right after the failed test nor tests again. -/
theorem wait_zero_timeout (st : State) (port : Nat) (wait_mode : wait_mode_t) (env : WaitEnv)
    (hport : port < st.n_in) (hmode : wait_mode ≠ WaitMode_Immediate)
    (hedge : wait_mode = WaitMode_Rise ∨ wait_mode = WaitMode_Fall →
      (st.aux_in.getD (ioports_map st.in_map port) default).cap.irq_mode &&&
        wait_irq_mode wait_mode ≠ 0 ∧
      env.irq 0 &&& (st.aux_in.getD (ioports_map st.in_map port) default).gpio_bit = 0)
    (hlevel : wait_mode = WaitMode_High ∨ wait_mode = WaitMode_Low →
      xor (env.level 0) (st.invert_in.testBit (ioports_map st.in_map port)) ≠
        decide (wait_mode ≠ WaitMode_Low)) :
    get_input_delay 0 = 1 ∧
    (wait_on_input st Port_Digital port wait_mode 0 env).1.value = -1 ∧
    (wait_on_input st Port_Digital port wait_mode 0 env).1.tests = 1 ∧
    (wait_on_input st Port_Digital port wait_mode 0 env).1.realtime_calls = 1 ∧
    (wait_on_input st Port_Digital port wait_mode 0 env).1.delay_calls = 1 := by
  refine ⟨get_input_delay_zero, ?_⟩
  by_cases he : wait_mode = WaitMode_Rise ∨ wait_mode = WaitMode_Fall
  · obtain ⟨hcap, hmiss⟩ := hedge he
    rw [wait_on_input_edge st port wait_mode 0 env he hport hcap, get_input_delay_zero]
    have h1 : (and_not st.event_bits
        (st.aux_in.getD (ioports_map st.in_map port) default).gpio_bit ||| env.irq 0) &&&
        (st.aux_in.getD (ioports_map st.in_map port) default).gpio_bit = 0 :=
      or_and_eq_zero _ _ _ (and_not_and_self _ _) hmiss
    unfold edge_loop
    simp only [h1, ne_eq, not_true_eq_false, if_false, false_and]
    exact ⟨trivial, trivial, trivial, trivial⟩
  · have hl : wait_mode = WaitMode_High ∨ wait_mode = WaitMode_Low := by
      cases wait_mode <;> simp_all
    have hmiss := hlevel hl
    rw [wait_on_input_level st port wait_mode 0 env hl hport, get_input_delay_zero]
    unfold level_loop
    simp only [hmiss, ne_eq, not_true_eq_false, if_false, false_and]
    exact ⟨trivial, trivial, trivial, trivial⟩

/-- Witness for C18: a wait for high with timeout zero on input port 0, whose
pin stays low. -/
theorem wait_zero_timeout_witness :
    (wait_on_input demo3 Port_Digital 0 WaitMode_High 0 quiet_env).1.value = -1 ∧
    (wait_on_input demo3 Port_Digital 0 WaitMode_High 0 quiet_env).1.delay_calls = 1 := by
  have h := wait_zero_timeout demo3 0 WaitMode_High quiet_env (by decide) (by decide)
    (fun he => by rcases he with h | h <;> cases h) (fun _ => by decide)
  exact ⟨h.2.1, h.2.2.2.2⟩

/-! ## C19: an edge wait leaves the interrupt of the pin disabled -/

/-- C19.  A rising-edge or falling-edge wait on an in-range input port: when the
capability of the pin includes the edge, the interrupt of the pin is disabled
(`IRQ_Mode_None`) when `wait_on_input` returns, whatever happened in between
(event seen, budget used up, abort); when the capability does not include the
edge, the wait returns `-1` without a single test, housekeeping call or
suspension and leaves the whole state, the pending-event set and the interrupt
arming of the pin included, as it was. -/
theorem wait_edge_disarms (st : State) (port : Nat) (wait_mode : wait_mode_t) (timeout : ℚ)
    (env : WaitEnv) (hmode : wait_mode = WaitMode_Rise ∨ wait_mode = WaitMode_Fall)
    (hport : port < st.n_in) :
    ((st.aux_in.getD (ioports_map st.in_map port) default).cap.irq_mode &&&
        wait_irq_mode wait_mode ≠ 0 →
      ((wait_on_input st Port_Digital port wait_mode timeout env).2.aux_in.getD
        (ioports_map st.in_map port) default).irq_enabled = IRQ_Mode_None) ∧
    ((st.aux_in.getD (ioports_map st.in_map port) default).cap.irq_mode &&&
        wait_irq_mode wait_mode = 0 →
      (wait_on_input st Port_Digital port wait_mode timeout env).1.value = -1 ∧
      (wait_on_input st Port_Digital port wait_mode timeout env).1.tests = 0 ∧
      (wait_on_input st Port_Digital port wait_mode timeout env).1.realtime_calls = 0 ∧
      (wait_on_input st Port_Digital port wait_mode timeout env).1.delay_calls = 0 ∧
      (wait_on_input st Port_Digital port wait_mode timeout env).2 = st) := by
  constructor
  · intro hcap
    have hr := capable_in_range _ _ _ hcap
    rw [wait_on_input_edge_state st port wait_mode timeout env hmode hport hcap,
      List.getD_eq_getElem?_getD, List.getElem?_set]
    simp [hr]
  · intro hcap
    rw [wait_on_input_incapable st port wait_mode timeout env hmode hport hcap]
    exact ⟨rfl, rfl, rfl, rfl, rfl⟩

/-- Witness for C19: a rising-edge wait on input port 0 whose interrupt was
enabled before; the event arrives and the interrupt ends up disabled. -/
theorem wait_edge_disarms_witness :
    ((wait_on_input
      { demo3 with aux_in := [{ demo_input 0 with irq_enabled := 1 }, demo_input 1, demo_input 2] }
      Port_Digital 0 WaitMode_Rise 1 (edge_env 0)).2.aux_in.getD 0 default).irq_enabled =
      IRQ_Mode_None :=
  (wait_edge_disarms
    { demo3 with aux_in := [{ demo_input 0 with irq_enabled := 1 }, demo_input 1, demo_input 2] }
    0 WaitMode_Rise 1 (edge_env 0) (Or.inl rfl) (by decide)).1 (by decide)

theorem getD_set_eq {α : Type} (l : List α) (i x : Nat) (v d : α) :
    (l.set i v).getD x d = if i = x ∧ i < l.length then v else l.getD x d := by
  simp only [List.getD_eq_getElem?_getD, List.getElem?_set]
  by_cases h : i = x
  · subst h
    by_cases h2 : i < l.length
    · simp [h2]
    · simp [h2, List.getElem?_eq_none (by omega : l.length ≤ i)]
  · simp [h]

/-- What `register_interrupt_handler` does, by cases on the capability of the
pin and on the request. -/
theorem register_interrupt_handler_eq (st : State) (port : Nat) (irq_mode : pin_irq_mode_t)
    (interrupt_callback : Option Nat)
    (hport : ioports_map st.in_map port < st.n_in) (hlock : st.spin_lock = false) :
    register_interrupt_handler st port irq_mode interrupt_callback =
      if (st.aux_in.getD (ioports_map st.in_map port) default).cap.irq_mode = IRQ_Mode_None then
        some (false, st)
      else if irq_mode ≠ IRQ_Mode_None ∧
          irq_mode &&& (st.aux_in.getD (ioports_map st.in_map port) default).cap.irq_mode =
            irq_mode ∧ interrupt_callback.isSome = true then
        some (true, { st with
          aux_in := (st.aux_in.set (ioports_map st.in_map port)
            (rebind (st.aux_in.getD (ioports_map st.in_map port) default) irq_mode
              interrupt_callback)) })
      else
        some (decide (irq_mode &&&
            (st.aux_in.getD (ioports_map st.in_map port) default).cap.irq_mode = irq_mode) &&
            interrupt_callback.isSome,
          { st with
            aux_in := (st.aux_in.set (ioports_map st.in_map port)
              (rebind (st.aux_in.getD (ioports_map st.in_map port) default) IRQ_Mode_None
                none)) }) := by
  generalize hp : ioports_map st.in_map port = p1 at hport ⊢
  unfold register_interrupt_handler
  simp only [hp]
  generalize st.aux_in.getD p1 default = inp
  by_cases hcap : inp.cap.irq_mode = IRQ_Mode_None
  · simp only [hcap, ne_eq, not_true_eq_false, and_false, if_false, if_true]
  · simp only [hport, hcap, ne_eq, not_false_eq_true, and_self, if_true, if_false, hlock,
      Bool.false_eq_true]
    by_cases hsub : irq_mode &&& inp.cap.irq_mode = irq_mode
    · cases hcb : interrupt_callback.isSome
      · simp [hsub, pinEnableIRQ, rebind]
      · by_cases hnone : irq_mode = IRQ_Mode_None
        · subst hnone
          simp [hsub, pinEnableIRQ, rebind]
        · simp [hsub, hnone, pinEnableIRQ, rebind]
    · simp [hsub, pinEnableIRQ, rebind]

/-- Replacing the binding of one pin keeps every armed mode within its
capability when the new mode is. -/
theorem rebind_table (aux : List input_signal_t) (p : Nat) (m : pin_irq_mode_t)
    (cb : Option Nat) (hp : p < aux.length)
    (hm : m &&& (aux.getD p default).cap.irq_mode = m) :
    ((aux.set p (rebind (aux.getD p default) m cb)).getD p default).mode.irq_mode = m ∧
    ((aux.set p (rebind (aux.getD p default) m cb)).getD p default).interrupt_callback = cb ∧
    ((aux.set p (rebind (aux.getD p default) m cb)).getD p default).irq_enabled = m ∧
    (∀ x, ((aux.set p (rebind (aux.getD p default) m cb)).getD x default).cap =
      (aux.getD x default).cap) ∧
    (∀ x, x ≠ p → (aux.set p (rebind (aux.getD p default) m cb)).getD x default =
      aux.getD x default) ∧
    (∀ x, (aux.getD x default).mode.irq_mode &&& (aux.getD x default).cap.irq_mode =
        (aux.getD x default).mode.irq_mode →
      ((aux.set p (rebind (aux.getD p default) m cb)).getD x default).mode.irq_mode &&&
        ((aux.set p (rebind (aux.getD p default) m cb)).getD x default).cap.irq_mode =
        ((aux.set p (rebind (aux.getD p default) m cb)).getD x default).mode.irq_mode) := by
  have hself : (aux.set p (rebind (aux.getD p default) m cb)).getD p default =
      rebind (aux.getD p default) m cb := by
    rw [getD_set_eq, if_pos ⟨rfl, hp⟩]
  have hother : ∀ x, x ≠ p → (aux.set p (rebind (aux.getD p default) m cb)).getD x default =
      aux.getD x default := by
    intro x hx
    rw [getD_set_eq, if_neg (fun h => hx h.1.symm)]
  refine ⟨by rw [hself]; rfl, by rw [hself]; rfl, by rw [hself]; rfl, ?_, hother, ?_⟩
  · intro x
    by_cases hx : x = p
    · subst hx
      rw [hself]
      rfl
    · rw [hother x hx]
  · intro x hsub
    by_cases hx : x = p
    · subst hx
      rw [hself]
      exact hm
    · rw [hother x hx]
      exact hsub

/-! ## C17: the binding `register_interrupt_handler` leaves -/

/-- C17.  With the busy flag clear, for an input port whose pin is in the table
and whose binding so far respects the data model (armed mode within the
capability, no callback without an armed mode): after
`register_interrupt_handler(port, mode, callback)` the pin is armed with exactly
`(mode, callback)`, its interrupt enabled for `mode`, when `mode` is a non-empty
subset of the capability of the pin and a callback is passed, and only then;
for every other input the binding afterwards is `(IRQ_Mode_None, no callback)`.
The capability and every other pin are left alone, so the armed mode of every
pin stays a subset of its capability. -/
theorem register_binding (st : State) (port : Nat) (irq_mode : pin_irq_mode_t)
    (interrupt_callback : Option Nat)
    (hport : ioports_map st.in_map port < st.n_in) (hlock : st.spin_lock = false)
    (hprior : (st.aux_in.getD (ioports_map st.in_map port) default).mode.irq_mode &&&
        (st.aux_in.getD (ioports_map st.in_map port) default).cap.irq_mode =
        (st.aux_in.getD (ioports_map st.in_map port) default).mode.irq_mode ∧
      ((st.aux_in.getD (ioports_map st.in_map port) default).mode.irq_mode = IRQ_Mode_None →
        (st.aux_in.getD (ioports_map st.in_map port) default).interrupt_callback = none)) :
    ∃ ok st2, register_interrupt_handler st port irq_mode interrupt_callback = some (ok, st2) ∧
      ((irq_mode ≠ IRQ_Mode_None ∧
          irq_mode &&& (st.aux_in.getD (ioports_map st.in_map port) default).cap.irq_mode =
            irq_mode ∧ interrupt_callback.isSome = true) →
        (st2.aux_in.getD (ioports_map st.in_map port) default).mode.irq_mode = irq_mode ∧
        (st2.aux_in.getD (ioports_map st.in_map port) default).interrupt_callback =
          interrupt_callback ∧
        (st2.aux_in.getD (ioports_map st.in_map port) default).irq_enabled = irq_mode) ∧
      (¬ (irq_mode ≠ IRQ_Mode_None ∧
          irq_mode &&& (st.aux_in.getD (ioports_map st.in_map port) default).cap.irq_mode =
            irq_mode ∧ interrupt_callback.isSome = true) →
        (st2.aux_in.getD (ioports_map st.in_map port) default).mode.irq_mode = IRQ_Mode_None ∧
        (st2.aux_in.getD (ioports_map st.in_map port) default).interrupt_callback = none) ∧
      (∀ x, (st2.aux_in.getD x default).cap = (st.aux_in.getD x default).cap) ∧
      (∀ x, x ≠ ioports_map st.in_map port →
        st2.aux_in.getD x default = st.aux_in.getD x default) ∧
      (∀ x, (st.aux_in.getD x default).mode.irq_mode &&& (st.aux_in.getD x default).cap.irq_mode =
          (st.aux_in.getD x default).mode.irq_mode →
        (st2.aux_in.getD x default).mode.irq_mode &&& (st2.aux_in.getD x default).cap.irq_mode =
          (st2.aux_in.getD x default).mode.irq_mode) := by
  rw [register_interrupt_handler_eq st port irq_mode interrupt_callback hport hlock]
  have hl : ioports_map st.in_map port < st.aux_in.length := hport
  by_cases hcap : (st.aux_in.getD (ioports_map st.in_map port) default).cap.irq_mode =
      IRQ_Mode_None
  · rw [if_pos hcap]
    refine ⟨false, st, rfl, ?_, ?_, fun _ => rfl, fun _ _ => rfl, fun _ h => h⟩
    · intro hc
      exfalso
      apply hc.1
      rw [← hc.2.1, hcap]
      exact Nat.and_zero _
    · intro _
      have hm : (st.aux_in.getD (ioports_map st.in_map port) default).mode.irq_mode =
          IRQ_Mode_None := by
        rw [← hprior.1, hcap]
        exact Nat.and_zero _
      exact ⟨hm, hprior.2 hm⟩
  · rw [if_neg hcap]
    by_cases hc : irq_mode ≠ IRQ_Mode_None ∧
        irq_mode &&& (st.aux_in.getD (ioports_map st.in_map port) default).cap.irq_mode =
          irq_mode ∧ interrupt_callback.isSome = true
    · rw [if_pos hc]
      obtain ⟨r1, r2, r3, r4, r5, r6⟩ := rebind_table st.aux_in _ irq_mode interrupt_callback hl
        hc.2.1
      exact ⟨true, _, rfl, fun _ => ⟨r1, r2, r3⟩, fun h => absurd hc h, r4, r5, r6⟩
    · rw [if_neg hc]
      obtain ⟨r1, r2, r3, r4, r5, r6⟩ := rebind_table st.aux_in _ IRQ_Mode_None none hl
        (Nat.zero_and _)
      exact ⟨_, _, rfl, fun h => absurd h hc, fun _ => ⟨r1, r2⟩, r4, r5, r6⟩

/-- Witness for C17: arming input port 1 for rising edges with a callback. -/
theorem register_binding_witness :
    ∃ ok st2, register_interrupt_handler demo3 1 IRQ_Mode_Rising (some 7) = some (ok, st2) ∧
      (st2.aux_in.getD 1 default).mode.irq_mode = IRQ_Mode_Rising ∧
      (st2.aux_in.getD 1 default).interrupt_callback = some 7 := by
  obtain ⟨ok, st2, h1, h2, -⟩ := register_binding demo3 1 IRQ_Mode_Rising (some 7) (by decide) rfl
    (by decide)
  exact ⟨ok, st2, h1, (h2 (by decide)).1, (h2 (by decide)).2.1⟩

/-! ## Auxiliary facts about the loops of the settings handlers, continued -/

theorem range_succ_reverse (n : Nat) :
    (List.range (n + 1)).reverse = n :: (List.range n).reverse := by
  rw [List.range_succ, List.reverse_append]
  rfl

theorem modifyAt_getD {α : Type} [Inhabited α] (f : α → α) (i q : Nat) (l : List α) :
    (modifyAt f i l).getD q default =
      if i = q ∧ i < l.length then f (l.getD q default) else l.getD q default := by
  simp only [List.getD_eq_getElem?_getD, modifyAt_getElem?]
  by_cases h : i = q
  · subst h
    by_cases h2 : i < l.length
    · simp [h2, List.getElem?_eq_getElem h2]
    · simp [h2, List.getElem?_eq_none (by omega : l.length ≤ i)]
  · simp [h]

/-- One pass of the output-invert loop: the level of the visited port is
complemented when its bit differs between the two masks, every other level
stays, and so does the length of the table. -/
theorem changed_out_body_level (mask cached : Nat) (aux : List output_signal_t) (p : Nat) :
    (changed_out_body mask cached aux p).length = aux.length ∧
    ∀ q, ((changed_out_body mask cached aux p).getD q default).level =
      if q = p ∧ p < aux.length ∧ mask.testBit p ≠ cached.testBit p
      then !(aux.getD q default).level else (aux.getD q default).level := by
  have hbits : ((mask >>> p) &&& 1 ≠ (cached >>> p) &&& 1) ↔ mask.testBit p ≠ cached.testBit p := by
    rw [← shift_and_one_ne_zero mask p, ← shift_and_one_ne_zero cached p,
      Nat.and_one_is_mod, Nat.and_one_is_mod]
    rcases Nat.mod_two_eq_zero_or_one (mask >>> p) with h | h <;>
      rcases Nat.mod_two_eq_zero_or_one (cached >>> p) with h' | h' <;> simp [h, h']
  unfold changed_out_body
  by_cases hd : mask.testBit p ≠ cached.testBit p
  · rw [if_pos (hbits.mpr hd)]
    refine ⟨by rw [modifyAt_length, modifyAt_length], fun q => ?_⟩
    rw [modifyAt_getD, modifyAt_getD, modifyAt_length]
    by_cases hq : p = q ∧ p < aux.length
    · rw [if_pos hq, if_pos hq, if_pos ⟨hq.1.symm, hq.2, hd⟩]
    · rw [if_neg hq, if_neg hq, if_neg (fun h => hq ⟨h.1.symm, h.2.1⟩)]
  · rw [if_neg (fun h => hd (hbits.mp h))]
    refine ⟨modifyAt_length _ _ _, fun q => ?_⟩
    have hr : ¬ (q = p ∧ p < aux.length ∧ mask.testBit p ≠ cached.testBit p) :=
      fun h => hd h.2.2
    rw [if_neg hr, modifyAt_getD]
    split <;> rfl

/-- The levels the output-invert loop leaves after the ports `n - 1, ..., 0`,
all of them in the table. -/
theorem changed_out_fold_level (mask cached : Nat) (n : Nat) :
    ∀ (aux : List output_signal_t), n ≤ aux.length →
      ((List.range n).reverse.foldl (changed_out_body mask cached) aux).length = aux.length ∧
      ∀ q, (((List.range n).reverse.foldl (changed_out_body mask cached) aux).getD q
          default).level =
        if q < n ∧ mask.testBit q ≠ cached.testBit q then !(aux.getD q default).level
        else (aux.getD q default).level := by
  induction n with
  | zero =>
    intro aux _
    refine ⟨rfl, fun q => ?_⟩
    rw [if_neg (fun h => absurd h.1 (Nat.not_lt_zero q))]
    rfl
  | succ n ih =>
    intro aux hn
    obtain ⟨b1, b2⟩ := changed_out_body_level mask cached aux n
    obtain ⟨i1, i2⟩ := ih (changed_out_body mask cached aux n) (by omega)
    rw [range_succ_reverse, List.foldl_cons]
    refine ⟨by rw [i1, b1], fun q => ?_⟩
    rw [i2 q, b2 q]
    by_cases hq : q = n
    · subst hq
      have hlt : q < aux.length := by omega
      by_cases hd : mask.testBit q ≠ cached.testBit q
      · simp [hd, hlt]
      · simp [hd]
    · by_cases hc : q < n
      · simp [hq, hc, Nat.lt_succ_of_lt hc]
      · simp [hq, hc, show ¬ q < n + 1 by omega]

/-! ## C15: the output-invert-changed notification -/

/-- C15.  With at least one output port, on the output-invert-changed
notification the output level of every output port is the complement of its
level before the call when its bit in the new output invert mask differs from
its bit in the cached mask, and its level before the call otherwise;
afterwards the cached mask is the new mask, and handling the same notification
once more changes nothing, no level in particular. -/
theorem setting_changed_invert_out (st : State) (h1 : 1 ≤ st.n_out) (h2 : st.n_out ≤ 255) :
    (∀ p, p < st.n_out →
      ((on_setting_changed st Settings_IoPort_InvertOut).aux_out.getD p default).level =
        if st.invert_out.testBit p ≠ st.invert_digital_out.testBit p
        then !(st.aux_out.getD p default).level else (st.aux_out.getD p default).level) ∧
    (on_setting_changed st Settings_IoPort_InvertOut).invert_digital_out = st.invert_out ∧
    (on_setting_changed st Settings_IoPort_InvertOut).invert_out = st.invert_out ∧
    on_setting_changed (on_setting_changed st Settings_IoPort_InvertOut)
      Settings_IoPort_InvertOut = on_setting_changed st Settings_IoPort_InvertOut := by
  have hports := do_while_ports_eq st.n_out h1 h2
  by_cases hm : st.invert_digital_out ≠ st.invert_out
  · have hst : on_setting_changed st Settings_IoPort_InvertOut =
        { st with
          aux_out := ((List.range st.n_out).reverse.foldl
            (changed_out_body st.invert_out st.invert_digital_out) st.aux_out),
          invert_digital_out := st.invert_out } := by
      simp only [on_setting_changed, if_pos hm, hports]
    rw [hst]
    refine ⟨?_, rfl, rfl, ?_⟩
    · intro p hp
      have := (changed_out_fold_level st.invert_out st.invert_digital_out st.n_out st.aux_out
        (le_refl _)).2 p
      simp only [hp, true_and] at this
      exact this
    · simp only [on_setting_changed, ne_eq, not_true_eq_false, if_false]
  · have hme : st.invert_digital_out = st.invert_out := not_not.mp hm
    have hst : on_setting_changed st Settings_IoPort_InvertOut = st := by
      simp only [on_setting_changed, if_neg hm]
    rw [hst]
    refine ⟨?_, hme, rfl, hst⟩
    intro p _
    rw [hme, if_neg (fun h => h rfl)]

/-- Witness for C15: three output ports at level low, cached mask `0`, new mask
`5`: ports 0 and 2 go high, port 1 stays low. -/
theorem setting_changed_invert_out_witness :
    ((on_setting_changed { demo3 with invert_out := 5 } Settings_IoPort_InvertOut).aux_out.getD 2
      default).level = true ∧
    ((on_setting_changed { demo3 with invert_out := 5 } Settings_IoPort_InvertOut).aux_out.getD 1
      default).level = false := by
  have h := (setting_changed_invert_out { demo3 with invert_out := 5 } (by decide)
    (by decide)).1
  exact ⟨by rw [h 2 (by decide)]; decide, by rw [h 1 (by decide)]; decide⟩

theorem and_bit_decide (x p : Nat) : decide (x &&& (1 <<< p) ≠ 0) = x.testBit p := by
  by_cases h : x &&& (1 <<< p) ≠ 0
  · rw [decide_eq_true h, (and_bit_ne_zero_iff x p).mp h]
  · rw [decide_eq_false h]
    cases hb : x.testBit p
    · rfl
    · exact absurd ((and_bit_ne_zero_iff x p).mpr hb) h

theorem testBit_or_bit (x p q : Nat) :
    (x ||| (1 <<< p)).testBit q = (x.testBit q || decide (p = q)) := by
  rw [Nat.testBit_or, Nat.one_shiftLeft, Nat.testBit_two_pow]

theorem testBit_and_not_bit (x p q : Nat) :
    (and_not x (1 <<< p)).testBit q = (x.testBit q && !decide (p = q)) := by
  rw [testBit_and_not, Nat.one_shiftLeft, Nat.testBit_two_pow]

/-- One pass of the input loop of `on_settings_loaded`. -/
theorem loaded_in_body_effect (s : InvertSync) (p : Nat) :
    (loaded_in_body s p).control_invert = s.control_invert ∧
    (∀ x, ((loaded_in_body s p).aux_in.getD x default).aux_ctrl =
      (s.aux_in.getD x default).aux_ctrl) ∧
    (loaded_in_body s p).aux_in.length = s.aux_in.length ∧
    (∀ q, (loaded_in_body s p).invert_in.testBit q =
      if q = p then
        (match (s.aux_in.getD p default).aux_ctrl with
         | some c => decide (s.control_invert &&& c ≠ 0)
         | none => s.invert_in.testBit p)
      else s.invert_in.testBit q) ∧
    (loaded_in_body s p).write = (s.write || ctrl_mismatch s p) ∧
    (∀ q, ((loaded_in_body s p).aux_in.getD q default).mode.inverted =
      if q = p ∧ p < s.aux_in.length then (loaded_in_body s p).invert_in.testBit p
      else (s.aux_in.getD q default).mode.inverted) := by
  unfold loaded_in_body ctrl_mismatch
  cases hc : (s.aux_in.getD p default).aux_ctrl with
  | none =>
    simp only [Bool.or_false]
    refine ⟨trivial, fun x => modify_inverted_aux_ctrl _ _ _ _, modifyAt_length _ _ _, ?_, trivial,
      ?_⟩
    · intro q
      split
      · rename_i h; rw [h]
      · rfl
    · intro q
      rw [modifyAt_getD, and_bit_decide]
      by_cases hq : p = q ∧ p < s.aux_in.length
      · rw [if_pos hq, if_pos (show q = p ∧ p < s.aux_in.length from ⟨hq.1.symm, hq.2⟩)]
      · rw [if_neg hq,
          if_neg (show ¬ (q = p ∧ p < s.aux_in.length) from fun h => hq ⟨h.1.symm, h.2⟩)]
  | some c =>
    simp only [and_bit_decide]
    by_cases hm : decide (s.control_invert &&& c ≠ 0) ≠ s.invert_in.testBit p
    · simp only [hm, ne_eq, not_false_eq_true, if_true]
      have hmb : (decide (s.control_invert &&& c ≠ 0) != s.invert_in.testBit p) = true := by
        simpa using hm
      refine ⟨trivial, fun x => modify_inverted_aux_ctrl _ _ _ _, modifyAt_length _ _ _, ?_,
        by rw [hmb]; simp, ?_⟩
      · intro q
        by_cases hcc : s.control_invert &&& c ≠ 0
        · simp only [hcc, ne_eq, not_false_eq_true, if_true, testBit_or_bit, decide_True]
          by_cases hq : q = p
          · subst hq; simp
          · simp [hq, Ne.symm hq]
        · simp only [hcc, if_false, testBit_and_not_bit, decide_False]
          by_cases hq : q = p
          · subst hq; simp
          · simp [hq, Ne.symm hq]
      · intro q
        rw [modifyAt_getD]
        by_cases hq : p = q ∧ p < s.aux_in.length
        · rw [if_pos hq, if_pos (show q = p ∧ p < s.aux_in.length from ⟨hq.1.symm, hq.2⟩)]
        · rw [if_neg hq,
            if_neg (show ¬ (q = p ∧ p < s.aux_in.length) from fun h => hq ⟨h.1.symm, h.2⟩)]
    · simp only [hm, ne_eq, if_false]
      have hme : decide (s.control_invert &&& c ≠ 0) = s.invert_in.testBit p := not_not.mp hm
      have hmb : (decide (s.control_invert &&& c ≠ 0) != s.invert_in.testBit p) = false := by
        rw [hme]; simp
      refine ⟨trivial, fun x => modify_inverted_aux_ctrl _ _ _ _, modifyAt_length _ _ _, ?_,
        by rw [hmb]; simp, ?_⟩
      · intro q
        by_cases hq : q = p
        · subst hq
          rw [if_pos rfl]
          exact hme.symm
        · rw [if_neg hq]
      · intro q
        rw [modifyAt_getD]
        by_cases hq : p = q ∧ p < s.aux_in.length
        · rw [if_pos hq, if_pos (show q = p ∧ p < s.aux_in.length from ⟨hq.1.symm, hq.2⟩)]
        · rw [if_neg hq,
            if_neg (show ¬ (q = p ∧ p < s.aux_in.length) from fun h => hq ⟨h.1.symm, h.2⟩)]

theorem ctrl_mismatch_iff (s : InvertSync) (p : Nat) :
    ctrl_mismatch s p = true ↔
      ∃ c, (s.aux_in.getD p default).aux_ctrl = some c ∧
        decide (s.control_invert &&& c ≠ 0) ≠ s.invert_in.testBit p := by
  unfold ctrl_mismatch
  cases (s.aux_in.getD p default).aux_ctrl with
  | none => simp
  | some c => simp

/-- The input loop of `on_settings_loaded` over the ports `n - 1, ..., 0`, all
of them in the table. -/
theorem loaded_in_fold (n : Nat) : ∀ (s : InvertSync), n ≤ s.aux_in.length →
    ((List.range n).reverse.foldl loaded_in_body s).control_invert = s.control_invert ∧
    (∀ x, (((List.range n).reverse.foldl loaded_in_body s).aux_in.getD x default).aux_ctrl =
      (s.aux_in.getD x default).aux_ctrl) ∧
    ((List.range n).reverse.foldl loaded_in_body s).aux_in.length = s.aux_in.length ∧
    (∀ q, ((List.range n).reverse.foldl loaded_in_body s).invert_in.testBit q =
      if q < n then
        (match (s.aux_in.getD q default).aux_ctrl with
         | some c => decide (s.control_invert &&& c ≠ 0)
         | none => s.invert_in.testBit q)
      else s.invert_in.testBit q) ∧
    ((List.range n).reverse.foldl loaded_in_body s).write =
      (s.write || (List.range n).reverse.any (ctrl_mismatch s)) ∧
    (∀ q, (((List.range n).reverse.foldl loaded_in_body s).aux_in.getD q default).mode.inverted =
      if q < n then ((List.range n).reverse.foldl loaded_in_body s).invert_in.testBit q
      else (s.aux_in.getD q default).mode.inverted) := by
  induction n with
  | zero =>
    intro s _
    simp
  | succ n ih =>
    intro s hn
    obtain ⟨b1, b2, b3, b4, b5, b6⟩ := loaded_in_body_effect s n
    obtain ⟨i1, i2, i3, i4, i5, i6⟩ := ih (loaded_in_body s n) (by omega)
    rw [range_succ_reverse, List.foldl_cons]
    have hbit : ∀ q, ((List.range n).reverse.foldl loaded_in_body (loaded_in_body s n)).invert_in.testBit q =
        if q < n + 1 then
          (match (s.aux_in.getD q default).aux_ctrl with
           | some c => decide (s.control_invert &&& c ≠ 0)
           | none => s.invert_in.testBit q)
        else s.invert_in.testBit q := by
      intro q
      rw [i4 q, b2 q, b1, b4 q]
      by_cases hq : q = n
      · subst hq
        rw [if_neg (lt_irrefl q), if_pos rfl, if_pos (Nat.lt_succ_self q)]
      · by_cases hc : q < n
        · rw [if_pos hc, if_pos (Nat.lt_succ_of_lt hc), if_neg hq]
        · rw [if_neg hc, if_neg hq, if_neg (show ¬ q < n + 1 by omega)]
    refine ⟨by rw [i1, b1], fun x => by rw [i2 x, b2 x], by rw [i3, b3], hbit, ?_, ?_⟩
    · rw [i5, b5, List.any_cons, Bool.or_assoc]
      congr 2
      rw [Bool.eq_iff_iff, any_reverse_range, any_reverse_range]
      have hsame : ∀ p, p < n → (ctrl_mismatch (loaded_in_body s n) p = ctrl_mismatch s p) := by
        intro p hp
        unfold ctrl_mismatch
        rw [b2 p, b1, b4 p, if_neg (show ¬ p = n by omega)]
      constructor
      · rintro ⟨p, hp, h⟩
        exact ⟨p, hp, by rw [← hsame p hp]; exact h⟩
      · rintro ⟨p, hp, h⟩
        exact ⟨p, hp, by rw [hsame p hp]; exact h⟩
    · intro q
      rw [i6 q, b6 q]
      by_cases hq : q = n
      · subst hq
        have hlt : q < s.aux_in.length := by omega
        rw [if_neg (lt_irrefl q), if_pos (show q = q ∧ q < s.aux_in.length from ⟨rfl, hlt⟩),
          if_pos (Nat.lt_succ_self q), i4 q, if_neg (lt_irrefl q)]
      · by_cases hc : q < n
        · rw [if_pos hc, if_pos (Nat.lt_succ_of_lt hc)]
        · rw [if_neg hc, if_neg (show ¬ q < n + 1 by omega),
            if_neg (show ¬ (q = n ∧ n < s.aux_in.length) from fun h => hq h.1)]

/-! ## C14: the input reconciliation of `on_settings_loaded` -/

/-- C14.  With at least one input port, after `on_settings_loaded`: for every
input port `p` bound to a control function, bit `p` of the per-port input
invert mask tells whether the control invert mask holds a bit of the mask of
that function; the control invert mask is as before; the per-port bit of every
port not bound to a control function (and every bit beyond the ports) is as
before; the cached `inverted` flag of every input port is its bit in the
resulting mask; and `settings_write_global` is called, once, exactly when the
two bits of some control-bound port disagreed before the call. -/
theorem settings_loaded_inputs (st : State) (h1 : 1 ≤ st.n_in) (h2 : st.n_in ≤ 255) :
    (∀ p c, p < st.n_in → (st.aux_in.getD p default).aux_ctrl = some c →
      (on_settings_loaded st).invert_in.testBit p = decide (st.control_invert &&& c ≠ 0)) ∧
    (on_settings_loaded st).control_invert = st.control_invert ∧
    (∀ p, (st.aux_in.getD p default).aux_ctrl = none →
      (on_settings_loaded st).invert_in.testBit p = st.invert_in.testBit p) ∧
    (∀ p, p < st.n_in →
      ((on_settings_loaded st).aux_in.getD p default).mode.inverted =
        (on_settings_loaded st).invert_in.testBit p) ∧
    ((∃ p c, p < st.n_in ∧ (st.aux_in.getD p default).aux_ctrl = some c ∧
        decide (st.control_invert &&& c ≠ 0) ≠ st.invert_in.testBit p) →
      (on_settings_loaded st).settings_writes = st.settings_writes + 1) ∧
    ((¬ ∃ p c, p < st.n_in ∧ (st.aux_in.getD p default).aux_ctrl = some c ∧
        decide (st.control_invert &&& c ≠ 0) ≠ st.invert_in.testBit p) →
      (on_settings_loaded st).settings_writes = st.settings_writes) := by
  have hports := do_while_ports_eq st.n_in h1 h2
  obtain ⟨f1, -, -, f4, f5, f6⟩ := loaded_in_fold st.n_in
    { write := false, invert_in := st.invert_in, control_invert := st.control_invert,
      aux_in := st.aux_in } (le_refl _)
  simp only [on_settings_loaded, hports]
  have hiff : ((List.range st.n_in).reverse.any (ctrl_mismatch
      { write := false, invert_in := st.invert_in, control_invert := st.control_invert,
        aux_in := st.aux_in }) = true) ↔
      ∃ p c, p < st.n_in ∧ (st.aux_in.getD p default).aux_ctrl = some c ∧
        decide (st.control_invert &&& c ≠ 0) ≠ st.invert_in.testBit p := by
    rw [any_reverse_range]
    constructor
    · rintro ⟨p, hp, hm⟩
      obtain ⟨c, hc, hd⟩ := (ctrl_mismatch_iff _ p).mp hm
      exact ⟨p, c, hp, hc, hd⟩
    · rintro ⟨p, c, hp, hc, hd⟩
      exact ⟨p, hp, (ctrl_mismatch_iff _ p).mpr ⟨c, hc, hd⟩⟩
  refine ⟨?_, f1, ?_, ?_, ?_, ?_⟩
  · intro p c hp hc
    rw [f4 p, if_pos hp]
    simp only [hc]
  · intro p hc
    rw [f4 p]
    simp only [hc, ite_self]
  · intro p hp
    rw [f6 p, if_pos hp]
  · intro hex
    rw [f5, Bool.false_or, hiff.mpr hex, if_pos rfl]
  · intro hex
    have hf : (List.range st.n_in).reverse.any (ctrl_mismatch
        { write := false, invert_in := st.invert_in, control_invert := st.control_invert,
          aux_in := st.aux_in }) = false := by
      rw [Bool.eq_false_iff]
      exact fun h => hex (hiff.mp h)
    rw [f5, Bool.false_or, hf]
    rfl

/-- Witness for C14: one bound port whose per-port bit is set while the control
bit is clear: the per-port bit is cleared, the flag follows, one write-back. -/
theorem settings_loaded_inputs_witness :
    (on_settings_loaded (demo_ctrl 1 0)).invert_in.testBit 0 = false ∧
    ((on_settings_loaded (demo_ctrl 1 0)).aux_in.getD 0 default).mode.inverted = false ∧
    (on_settings_loaded (demo_ctrl 1 0)).settings_writes = 1 := by
  have h := settings_loaded_inputs (demo_ctrl 1 0) (by decide) (by decide)
  refine ⟨?_, ?_, by decide⟩
  · rw [h.1 0 1 (by decide) rfl]
    decide
  · rw [h.2.2.2.1 0 (by decide), h.1 0 1 (by decide) rfl]
    decide

/-! ## C20: `get_pin_info` and `claim` -/

/-- What `get_pin_info` returns for a digital input below the port count. -/
theorem get_pin_info_input (st : State) (l : Nat) (hl : l < st.n_in) :
    get_pin_info st Port_Digital Port_Input l =
      some (pin_info_t.scratch
        { xbar_zero with
          mode := (st.aux_in.getD (ioports_map st.in_map l) default).mode,
          cap := { (st.aux_in.getD (ioports_map st.in_map l) default).cap with
                   invert := true,
                   claimable := !(st.aux_in.getD (ioports_map st.in_map l) default).mode.claimed },
          function := (st.aux_in.getD (ioports_map st.in_map l) default).id,
          group := (st.aux_in.getD (ioports_map st.in_map l) default).group,
          pin := (st.aux_in.getD (ioports_map st.in_map l) default).pin,
          port := (st.aux_in.getD (ioports_map st.in_map l) default).port,
          description := (st.aux_in.getD (ioports_map st.in_map l) default).description,
          get_value := some get_value_t.digital_in_state }) := by
  simp only [get_pin_info, if_true, hl, and_true, true_and, reduceCtorEq, false_and, if_false,
    Option.map_some']

/-- What `get_pin_info` returns for a digital output below the port count. -/
theorem get_pin_info_output (st : State) (l : Nat) (hl : l < st.n_out) :
    get_pin_info st Port_Digital Port_Output l =
      some (pin_info_t.scratch
        { xbar_zero with
          mode := { (st.aux_out.getD (ioports_map st.out_map l) default).mode with
                    inverted := decide ((st.invert_out >>> ioports_map st.out_map l) &&& 1 ≠ 0) },
          cap := { XBAR_SET_CAP (st.aux_out.getD (ioports_map st.out_map l) default).mode with
                   invert := true },
          function := (st.aux_out.getD (ioports_map st.out_map l) default).id,
          group := (st.aux_out.getD (ioports_map st.out_map l) default).group,
          pin := (st.aux_out.getD (ioports_map st.out_map l) default).pin,
          bit := 1 <<< (st.aux_out.getD (ioports_map st.out_map l) default).pin,
          port := (st.aux_out.getD (ioports_map st.out_map l) default).port,
          description := (st.aux_out.getD (ioports_map st.out_map l) default).description,
          get_value := some get_value_t.digital_out_state }) := by
  simp only [get_pin_info, if_true, hl, and_true, true_and, reduceCtorEq, false_and, if_false]

/-- What `get_pin_info` returns for a digital port below the port count: the
scratch descriptor filled from the slot the map sends the index to, with
`cap.claimable` the negation of the slot's `claimed` flag. -/
theorem get_pin_info_digital (st : State) (dir : io_port_direction_t) (l : Nat)
    (hl : l < st.n_ports dir) :
    ∃ pin, get_pin_info st Port_Digital dir l = some (pin_info_t.scratch pin) ∧
      pin.cap.claimable = !st.claimed dir (ioports_map (st.map dir) l) ∧
      pin.pin = st.pin dir (ioports_map (st.map dir) l) ∧
      pin.description = st.description dir (ioports_map (st.map dir) l) := by
  cases dir
  · exact ⟨_, get_pin_info_input st l hl, rfl, rfl, rfl⟩
  · exact ⟨_, get_pin_info_output st l hl, rfl, rfl, rfl⟩

/-- C20 (as the code has it).  After input port 0 of three is claimed the
input map is `[1, 2, 0]`.  `get_pin_info` for index 0 then describes the pin
of slot 1 and reports it claimable, yet `claim` with 0 fails, as `claim` takes
its argument as the slot and slot 0 is claimed; for index 1 `get_pin_info`
describes the pin of slot 2 as claimable, and `claim` with 1 succeeds on
slot 1, another pin than the one described. -/
theorem claim_by_index_misses_described_pin :
    Initialized demo3 ∧
    (run demo3 [.claim Port_Digital Port_Input 0 "probe"]).map Port_Input = some [1, 2, 0] ∧
    (∃ pin, get_pin_info (run demo3 [.claim Port_Digital Port_Input 0 "probe"]) Port_Digital
        Port_Input 0 = some (pin_info_t.scratch pin) ∧ pin.cap.claimable = true ∧ pin.pin = 1) ∧
    (claim (run demo3 [.claim Port_Digital Port_Input 0 "probe"]) Port_Digital Port_Input 0
      "door").1 = false ∧
    (∃ pin, get_pin_info (run demo3 [.claim Port_Digital Port_Input 0 "probe"]) Port_Digital
        Port_Input 1 = some (pin_info_t.scratch pin) ∧ pin.cap.claimable = true ∧ pin.pin = 2) ∧
    (claim (run demo3 [.claim Port_Digital Port_Input 0 "probe"]) Port_Digital Port_Input 1
      "door").1 = true ∧
    ((claim (run demo3 [.claim Port_Digital Port_Input 0 "probe"]) Port_Digital Port_Input 1
      "door").2.1.aux_in.map fun x => (x.pin, x.mode.claimed)) =
      [(0, true), (1, true), (2, false)] := by
  refine ⟨by decide, by decide, ⟨_, rfl, by decide, by decide⟩, by decide,
    ⟨_, rfl, by decide, by decide⟩, by decide, by decide⟩

/-- C20 (amended).  In every state reached from initialization by `claim`
calls, for each direction and every index `l` below the port count,
`get_pin_info` returns a descriptor of the slot `s` the map sends `l` to (its
pin number and description are those of slot `s`), claimable exactly when slot
`s` is not claimed.  If it reports the port claimable, then `claim` called with
the slot `s` succeeds, sets the `claimed` flag of slot `s`, the pin described,
and the index it hands back is mapped to `s`; `claim` called with `l` itself
does so whenever the map sends `l` to `l`. -/
theorem pin_info_claimable_claim (st0 : State) (ops : List Op) (dir : io_port_direction_t)
    (l : Nat) (d : String) (hinit : Initialized st0) (hops : ∀ op ∈ ops, op.isClaim = true)
    (hl : l < (run st0 ops).n_ports dir) :
    ∃ pin, get_pin_info (run st0 ops) Port_Digital dir l = some (pin_info_t.scratch pin) ∧
      pin.cap.claimable = !(run st0 ops).claimed dir (ioports_map ((run st0 ops).map dir) l) ∧
      pin.pin = (run st0 ops).pin dir (ioports_map ((run st0 ops).map dir) l) ∧
      pin.description = (run st0 ops).description dir (ioports_map ((run st0 ops).map dir) l) ∧
      (pin.cap.claimable = true →
        (claim (run st0 ops) Port_Digital dir (ioports_map ((run st0 ops).map dir) l) d).1 = true ∧
        (claim (run st0 ops) Port_Digital dir
          (ioports_map ((run st0 ops).map dir) l) d).2.1.claimed dir
            (ioports_map ((run st0 ops).map dir) l) = true ∧
        ioports_map ((claim (run st0 ops) Port_Digital dir
            (ioports_map ((run st0 ops).map dir) l) d).2.1.map dir)
          (claim (run st0 ops) Port_Digital dir (ioports_map ((run st0 ops).map dir) l) d).2.2 =
          ioports_map ((run st0 ops).map dir) l ∧
        (ioports_map ((run st0 ops).map dir) l = l →
          (claim (run st0 ops) Port_Digital dir l d).1 = true ∧
          (claim (run st0 ops) Port_Digital dir l d).2.1.claimed dir l = true)) := by
  have hwf : PoolWF (run st0 ops) dir :=
    run_preserves_wf ops st0 (Initialized_wf st0 hinit) (KeepsClaims_of_claims ops st0 hops) dir
  generalize run st0 ops = st at hl hwf ⊢
  obtain ⟨m, hm, hperm, hn, ha, hb⟩ := id hwf
  obtain ⟨hlen, hrange, -, -⟩ := perm_range_facts m _ hperm
  have hs : ioports_map (st.map dir) l < st.n_ports dir := by
    rw [hm]
    exact hrange l hl
  obtain ⟨pin, h1, h2, h3, h4⟩ := get_pin_info_digital st dir l hl
  refine ⟨pin, h1, h2, h3, h4, ?_⟩
  intro hc
  rw [h2] at hc
  have hcl : st.claimed dir (ioports_map (st.map dir) l) = false := by simpa using hc
  generalize ioports_map (st.map dir) l = s at hs hcl ⊢
  obtain ⟨hi0, hpi, hlen2⟩ := PoolWF_unclaimed_pos st dir m s hm hwf hs hcl
  obtain ⟨e1, e2, -, -, ⟨m2, e5, -, e7⟩, e6, -, -⟩ :=
    claim_effect st dir s d m hm hs hcl (by omega) (by omega) (by omega) hi0
  have e6s := e6 s
  rw [if_pos rfl] at e6s
  refine ⟨e1, e6s, ?_, ?_⟩
  · rw [e5, e2]
    simp only [ioports_map]
    rw [e7]
    unfold claimed_map
    rw [if_pos rfl]
  · intro hsl
    subst hsl
    exact ⟨e1, e6s⟩

/-- Witness for C20: after input port 0 of three is claimed, index 1 is mapped
to slot 2, which `get_pin_info` reports claimable; `claim` with 2 succeeds. -/
theorem pin_info_claimable_claim_witness :
    ioports_map ((run demo3 [.claim Port_Digital Port_Input 0 "probe"]).map Port_Input) 1 = 2 ∧
    ∃ pin, get_pin_info (run demo3 [.claim Port_Digital Port_Input 0 "probe"]) Port_Digital
        Port_Input 1 = some (pin_info_t.scratch pin) ∧ pin.cap.claimable = true ∧
      (claim (run demo3 [.claim Port_Digital Port_Input 0 "probe"]) Port_Digital Port_Input 2
        "door").1 = true := by
  refine ⟨by decide, ?_⟩
  obtain ⟨pin, h1, h2, -, -, h5⟩ :=
    pin_info_claimable_claim demo3 [.claim Port_Digital Port_Input 0 "probe"] Port_Input 1
      "door" (by decide) (by decide) (by decide)
  have hc : pin.cap.claimable = true := by
    rw [h2]
    decide
  exact ⟨pin, h1, hc, (h5 hc).1⟩

/-! ## C11, C12: `sleep_execute` -/

/-- Iterations in which the deferred action does not fire and the exit test
fails leave the armed variables as they are. -/
theorem sleep_loop_skip (env : SleepEnv) (rx : Nat) (st : SleepState) (hs : st.slumber = true)
    (n fuel k : Nat)
    (hq : ∀ j, k ≤ j → j < k + n → sleep_exit env rx j = false ∧ env.due_in_hook j = false ∧
      env.due_after_check j = false) :
    sleep_loop env rx (fuel + n) k st = sleep_loop env rx fuel (k + n) st := by
  induction n generalizing k with
  | zero => rfl
  | succ n ih =>
    obtain ⟨h1, h2, h3⟩ := hq k (Nat.le_refl k) (by omega)
    have hstep : sleep_loop env rx (fuel + n + 1) k st = sleep_loop env rx (fuel + n) (k + 1) st := by
      simp [sleep_loop, task_run, h1, h2, h3, hs]
    rw [← Nat.add_assoc, hstep, ih (k + 1) (fun j hj1 hj2 => hq j (by omega) (by omega))]
    congr 1
    omega

/-- The iteration in which the exit test holds ends the loop: `slumber` is
cleared, the deferred action is unscheduled and the sleep flag is not set. -/
theorem sleep_loop_exit (env : SleepEnv) (rx : Nat) (st : SleepState) (fuel k : Nat)
    (hk : sleep_exit env rx k = true) :
    ∃ st2, sleep_loop env rx (fuel + 1) k st = some (st2, k + 1) ∧ st2.slumber = false ∧
      st2.task_pending = false ∧ st2.exec_sleep_calls = st.exec_sleep_calls := by
  have h : sleep_loop env rx (fuel + 1) k st =
      some (task_delete { task_run st (env.due_in_hook k) with slumber := false }, k + 1) := by
    simp only [sleep_loop, hk, if_true]
  refine ⟨_, h, rfl, rfl, ?_⟩
  simp only [task_delete, task_run, fall_asleep]
  split <;> rfl

/-- The iteration in which the deferred action fires while the exit test fails
ends the loop with the sleep flag set once. -/
theorem sleep_loop_fire (env : SleepEnv) (rx : Nat) (st : SleepState) (fuel k : Nat)
    (hp : st.task_pending = true) (hk : sleep_exit env rx k = false)
    (hf : env.due_in_hook k = true ∨ env.due_after_check k = true) :
    sleep_loop env rx (fuel + 1) k st =
      some ({ slumber := false, task_pending := false,
              exec_sleep_calls := st.exec_sleep_calls + 1 }, k + 1) := by
  cases h1 : env.due_in_hook k
  · have h2 : env.due_after_check k = true := by
      rcases hf with h | h
      · rw [h1] at h
        cases h
      · exact h
    simp [sleep_loop, task_run, fall_asleep, system_set_exec_state_flag, hk, h1, h2, hp]
  · simp [sleep_loop, task_run, fall_asleep, system_set_exec_state_flag, hk, h1, hp]

/-- What `sleep_execute` does when scheduling succeeds. -/
theorem sleep_execute_armed (fuel : Nat) (env : SleepEnv) (st : SleepState)
    (hadd : env.add_ok = true) :
    sleep_execute fuel env st =
      sleep_loop env env.rx_initial fuel 0
        { slumber := true, task_pending := true, exec_sleep_calls := st.exec_sleep_calls } := by
  simp [sleep_execute, task_add_delayed, hadd]

/-- C11.  Let `sleep_execute` have armed the timer (`task_add_delayed`
succeeded), let the deferred action not fire before iteration `k` of the loop,
and let the exit test hold in iteration `k`: the free-space count of the input
buffer differs from the value captured at arming, or `sys.rt_exec_state` or
`sys.rt_exec_alarm` is set.  Then `sleep_execute` returns (given more than `k`
iterations of fuel) after at most `k + 1` iterations with `slumber` clear and
the deferred action unscheduled, and `system_set_exec_state_flag(EXEC_SLEEP)`
was not called; when the exit test failed in all iterations before `k`, it
returns in iteration `k`, after exactly `k + 1` iterations. -/
theorem sleep_cancel (env : SleepEnv) (st : SleepState) (k fuel : Nat)
    (hadd : env.add_ok = true)
    (hquiet : ∀ j, j < k → env.due_in_hook j = false ∧ env.due_after_check j = false)
    (hk : sleep_exit env env.rx_initial k = true) (hfuel : k < fuel) :
    ∃ st2 n, sleep_execute fuel env st = some (st2, n) ∧ st2.slumber = false ∧
      st2.task_pending = false ∧ st2.exec_sleep_calls = st.exec_sleep_calls ∧ n ≤ k + 1 ∧
      ((∀ j, j < k → sleep_exit env env.rx_initial j = false) → n = k + 1) := by
  have hex : ∃ j, sleep_exit env env.rx_initial j = true := ⟨k, hk⟩
  have hmin : ∀ j, j < Nat.find hex → ¬ sleep_exit env env.rx_initial j = true :=
    fun j hj => Nat.find_min hex hj
  have hspec := Nat.find_spec hex
  have hle : Nat.find hex ≤ k := Nat.find_min' hex hk
  generalize Nat.find hex = k0 at hmin hspec hle
  have hskip := sleep_loop_skip env env.rx_initial
    { slumber := true, task_pending := true, exec_sleep_calls := st.exec_sleep_calls } rfl
    k0 (fuel - k0 - 1 + 1) 0 (fun j _ hj => by
      have hj2 : j < k0 := by omega
      have h1 := hmin j hj2
      obtain ⟨h2, h3⟩ := hquiet j (by omega)
      exact ⟨by simpa using h1, h2, h3⟩)
  obtain ⟨st2, e1, e2, e3, e4⟩ := sleep_loop_exit env env.rx_initial
    { slumber := true, task_pending := true, exec_sleep_calls := st.exec_sleep_calls }
    (fuel - k0 - 1) k0 hspec
  have hf : fuel - k0 - 1 + 1 + k0 = fuel := by omega
  rw [hf, Nat.zero_add, e1] at hskip
  refine ⟨st2, k0 + 1, ?_, e2, e3, e4, by omega, ?_⟩
  · rw [sleep_execute_armed fuel env st hadd, hskip]
  · intro hno
    rcases Nat.lt_or_ge k0 k with h | h
    · rw [hno k0 h] at hspec
      cases hspec
    · omega

/-- Witness for C11: the free-space count changes in iteration 2 and the delay
would elapse in iteration 5; `sleep_execute` returns after 3 iterations without
a call of `system_set_exec_state_flag`. -/
theorem sleep_cancel_witness :
    sleep_execute 10 (sleep_env 2 5) awake =
      some ({ slumber := false, task_pending := false, exec_sleep_calls := 0 }, 3) ∧
    ∃ st2 n, sleep_execute 10 (sleep_env 2 5) awake = some (st2, n) ∧ st2.slumber = false ∧
      st2.task_pending = false ∧ st2.exec_sleep_calls = awake.exec_sleep_calls ∧ n ≤ 2 + 1 ∧
      ((∀ j, j < 2 → sleep_exit (sleep_env 2 5) (sleep_env 2 5).rx_initial j = false) →
        n = 2 + 1) :=
  ⟨by decide, sleep_cancel (sleep_env 2 5) awake 2 10 rfl
    (fun j hj => ⟨by simp [sleep_env]; omega, rfl⟩) (by decide) (by decide)⟩

/-- C12.  Let `sleep_execute` have armed the timer, let the deferred action
fire in iteration `k` of the loop and in none before, and let the exit test
fail in every iteration up to and including `k`: the free-space count of the
input buffer equals the value captured at arming and `sys.rt_exec_state` and
`sys.rt_exec_alarm` are clear.  Then `sleep_execute` returns (given more than
`k` iterations of fuel) after `k + 1` iterations with
`system_set_exec_state_flag(EXEC_SLEEP)` called exactly once, `slumber` clear
and the deferred action no longer scheduled.  When `task_add_delayed` fails,
`sleep_execute` returns without running the loop, with `slumber` clear, nothing
scheduled by it and no call of `system_set_exec_state_flag`. -/
theorem sleep_expire (env : SleepEnv) (st : SleepState) (k fuel : Nat) :
    (env.add_ok = true →
      (∀ j, j < k → env.due_in_hook j = false ∧ env.due_after_check j = false) →
      (env.due_in_hook k = true ∨ env.due_after_check k = true) →
      (∀ j, j ≤ k → sleep_exit env env.rx_initial j = false) → k < fuel →
      sleep_execute fuel env st =
        some ({ slumber := false, task_pending := false,
                exec_sleep_calls := st.exec_sleep_calls + 1 }, k + 1)) ∧
    (env.add_ok = false →
      sleep_execute fuel env st = some ({ st with slumber := false }, 0)) := by
  constructor
  · intro hadd hquiet hfire hno hfuel
    have hskip := sleep_loop_skip env env.rx_initial
      { slumber := true, task_pending := true, exec_sleep_calls := st.exec_sleep_calls } rfl
      k (fuel - k - 1 + 1) 0 (fun j _ hj => by
        obtain ⟨h2, h3⟩ := hquiet j (by omega)
        exact ⟨hno j (by omega), h2, h3⟩)
    have hf : fuel - k - 1 + 1 + k = fuel := by omega
    rw [hf, Nat.zero_add, sleep_loop_fire env env.rx_initial _ (fuel - k - 1) k rfl
      (hno k (Nat.le_refl k)) hfire] at hskip
    rw [sleep_execute_armed fuel env st hadd, hskip]
  · intro hadd
    simp [sleep_execute, task_add_delayed, hadd]

/-- Witness for C12: the delay elapses in iteration 3 and nothing else happens
before iteration 7; `sleep_execute` returns after 4 iterations with one call of
`system_set_exec_state_flag`.  With a failing `task_add_delayed` it returns at
once. -/
theorem sleep_expire_witness :
    sleep_execute 10 (sleep_env 7 3) awake =
      some ({ slumber := false, task_pending := false, exec_sleep_calls := 0 + 1 }, 3 + 1) ∧
    sleep_execute 10 { sleep_env 7 3 with add_ok := false } awake =
      some ({ awake with slumber := false }, 0) :=
  ⟨(sleep_expire (sleep_env 7 3) awake 3 10).1 rfl
      (fun j hj => ⟨by simp [sleep_env]; omega, rfl⟩) (Or.inl (by decide))
      (fun j hj => by simp [sleep_exit, sleep_env]; omega) (by decide),
    (sleep_expire { sleep_env 7 3 with add_ok := false } awake 3 10).2 rfl⟩

/-! ## Auxiliary facts about the indices the settings handlers visit -/

/-- The input loop of `on_settings_loaded` runs its body with exactly the
values of `on_settings_loaded_visits`, and so does the output loop. -/
theorem on_settings_loaded_visits_spec (st : State) :
    (on_settings_loaded st).aux_out =
      (on_settings_loaded_visits st).outputs.foldl (loaded_out_body st.invert_out) st.aux_out ∧
    (on_settings_loaded st).aux_in =
      ((on_settings_loaded_visits st).inputs.foldl loaded_in_body
        { write := false, invert_in := st.invert_in, control_invert := st.control_invert,
          aux_in := st.aux_in }).aux_in := by
  refine ⟨?_, rfl⟩
  simp only [on_settings_loaded, on_settings_loaded_visits]
  split <;> rfl

/-- The loops of `on_setting_changed` run their bodies with exactly the values
of `on_setting_changed_visits`. -/
theorem on_setting_changed_visits_spec (st : State) :
    (on_setting_changed st Settings_IoPort_InvertIn).aux_in =
      ((on_setting_changed_visits st Settings_IoPort_InvertIn).inputs.foldl changed_in_body
        { write := false, invert_in := st.invert_in, control_invert := st.control_invert,
          aux_in := st.aux_in }).aux_in ∧
    (on_setting_changed st Settings_IoPort_InvertOut).aux_out =
      (on_setting_changed_visits st Settings_IoPort_InvertOut).outputs.foldl
        (changed_out_body st.invert_out st.invert_digital_out) st.aux_out ∧
    (on_setting_changed st Setting_ControlInvertMask).aux_in =
      ((on_setting_changed_visits st Setting_ControlInvertMask).inputs.foldl changed_ctrl_body
        { write := false, invert_in := st.invert_in, control_invert := st.control_invert,
          aux_in := st.aux_in }).aux_in := by
  refine ⟨rfl, ?_, rfl⟩
  simp only [on_setting_changed, on_setting_changed_visits]
  split <;> rfl

/-- With at least one port in a direction the loops over it visit every port
below the count once, from the last down to the first. -/
theorem settings_visits_nonzero (st : State) (id : setting_id_t)
    (hi1 : 1 ≤ st.n_in) (hi2 : st.n_in ≤ 255) (ho1 : 1 ≤ st.n_out) (ho2 : st.n_out ≤ 255) :
    on_settings_loaded_visits st =
      { inputs := (List.range st.n_in).reverse, outputs := (List.range st.n_out).reverse } ∧
    (∀ p ∈ (on_setting_changed_visits st id).inputs, p < st.n_in) ∧
    (∀ p ∈ (on_setting_changed_visits st id).outputs, p < st.n_out) ∧
    (on_setting_changed_visits st id).inputs.Nodup ∧
    (on_setting_changed_visits st id).outputs.Nodup := by
  have hin := do_while_ports_eq st.n_in hi1 hi2
  have hout := do_while_ports_eq st.n_out ho1 ho2
  have hnd : ∀ n, (List.range n).reverse.Nodup := fun n =>
    List.nodup_reverse.mpr (List.nodup_range n)
  have hmem : ∀ n p, p ∈ (List.range n).reverse → p < n := fun n p h => by
    simpa using h
  refine ⟨?_, ?_⟩
  · simp only [on_settings_loaded_visits, hin, hout]
    rw [if_pos (by omega)]
  · cases id
    · simp only [on_setting_changed_visits, hin]
      exact ⟨hmem _, by simp, hnd _, List.nodup_nil⟩
    · simp only [on_setting_changed_visits, hout]
      split
      · exact ⟨by simp, hmem _, List.nodup_nil, hnd _⟩
      · exact ⟨by simp, by simp, List.nodup_nil, List.nodup_nil⟩
    · simp only [on_setting_changed_visits, hin]
      exact ⟨hmem _, by simp, hnd _, List.nodup_nil⟩
    · simp only [on_setting_changed_visits]
      exact ⟨by simp, by simp, List.nodup_nil, List.nodup_nil⟩

/-- A loop `do { port--; ... } while(port);` entered with `port = 0` wraps:
`n + 1` is the modulus of the counter. -/
theorem do_while_from_wrap (n : Nat) (h : n + 1 = 2 ^ 32) :
    do_while_from (n + 1) 0 = n :: do_while_from n n ∧
    do_while_from (n + 1) 0 = (List.range (n + 1)).reverse := by
  have h1 : (0 + (2 ^ 32 - 1)) % 2 ^ 32 = n := by omega
  have h2 : do_while_from (n + 1) 0 = n :: do_while_from n n := by
    rw [do_while_from]
    simp only [h1]
    rw [if_neg (by omega)]
  refine ⟨h2, ?_⟩
  obtain ⟨k, rfl⟩ : ∃ k, n = k + 1 := ⟨n - 1, by omega⟩
  rw [h2, do_while_from_self k (by omega), List.range_succ (n := k + 1), List.reverse_append]
  rfl

/-- A loop `port = 0; do { port--; ... } while(port);` runs `2 ^ 32` times,
starting with `port = 4294967295`. -/
theorem do_while_ports_zero :
    do_while_ports 0 = 4294967295 :: do_while_from 4294967295 4294967295 ∧
    do_while_ports 0 = (List.range 4294967296).reverse := by
  have h := do_while_from_wrap 4294967295 (by norm_num)
  have e : do_while_ports 0 = do_while_from (4294967295 + 1) 0 := by
    unfold do_while_ports
    rw [if_pos rfl]
    norm_num
  exact ⟨e.trans h.1, e.trans h.2⟩

/-! ## C21: a direction without ports -/

/-- C21 (as the code has it).  `ioports_init` installs the settings handlers
whenever `ioports_add` succeeded, also with no input port or no output port.
With no input port and one output port, `on_settings_loaded` visits output 0
once, but its input loop, which has no guard, starts with `port = 0`, wraps on
the decrement and runs its body `2 ^ 32` times, first with `port = 4294967295`:
every input index it accesses is outside the empty table.  The loops of
`on_setting_changed` for the input-invert and the control-invert notification
do the same.  With one input port and no output port the guarded output loop of
`on_settings_loaded` visits nothing, but the loop of the output-invert
notification, entered when the mask differs from the cached one, wraps in the
same way. -/
theorem settings_handlers_wrap_on_zero_ports :
    (Initialized no_inputs ∧ no_inputs.n_in = 0 ∧ no_inputs.n_out = 1 ∧
      (ioports_init true no_inputs.n_in no_inputs.n_out).settings_handlers = true) ∧
    (on_settings_loaded_visits no_inputs).outputs = [0] ∧
    ((on_settings_loaded_visits no_inputs).inputs = (List.range 4294967296).reverse ∧
      (on_settings_loaded_visits no_inputs).inputs.head? = some 4294967295 ∧
      (on_settings_loaded_visits no_inputs).inputs.length = 4294967296 ∧
      ∀ p ∈ (on_settings_loaded_visits no_inputs).inputs, ¬ p < no_inputs.n_in) ∧
    (on_setting_changed_visits no_inputs Settings_IoPort_InvertIn).inputs.head? =
      some 4294967295 ∧
    (on_setting_changed_visits no_inputs Setting_ControlInvertMask).inputs.head? =
      some 4294967295 ∧
    (Initialized no_outputs ∧ no_outputs.n_in = 1 ∧ no_outputs.n_out = 0 ∧
      (ioports_init true no_outputs.n_in no_outputs.n_out).settings_handlers = true) ∧
    on_settings_loaded_visits no_outputs = { inputs := [0], outputs := [] } ∧
    (on_setting_changed_visits no_outputs Settings_IoPort_InvertOut).outputs.head? =
      some 4294967295 := by
  have hin : no_inputs.n_in = 0 := rfl
  have hout : no_outputs.n_out = 0 := rfl
  have hmask : no_outputs.invert_digital_out ≠ no_outputs.invert_out := by decide
  have e1 : (on_settings_loaded_visits no_inputs).inputs = do_while_ports 0 := by
    simp only [on_settings_loaded_visits, hin]
  have e2 : (on_setting_changed_visits no_inputs Settings_IoPort_InvertIn).inputs =
      do_while_ports 0 := by
    simp only [on_setting_changed_visits, hin]
  have e3 : (on_setting_changed_visits no_inputs Setting_ControlInvertMask).inputs =
      do_while_ports 0 := by
    simp only [on_setting_changed_visits, hin]
  have e4 : (on_setting_changed_visits no_outputs Settings_IoPort_InvertOut).outputs =
      do_while_ports 0 := by
    simp only [on_setting_changed_visits, if_pos hmask, hout]
  have hhead : (do_while_ports 0).head? = some 4294967295 := by
    rw [do_while_ports_zero.1, List.head?_cons]
  refine ⟨⟨by decide, rfl, rfl, rfl⟩, by decide, ⟨?_, ?_, ?_, ?_⟩, ?_, ?_,
    ⟨by decide, rfl, rfl, rfl⟩, by decide, ?_⟩
  · rw [e1, do_while_ports_zero.2]
  · rw [e1, hhead]
  · rw [e1, do_while_ports_zero.2, List.length_reverse, List.length_range]
  · intro p _
    rw [hin]
    exact Nat.not_lt_zero p
  · rw [e2, hhead]
  · rw [e3, hhead]
  · rw [e4, hhead]

end IoPorts
